import Mathlib

/-!
# Verification of the mcocRandomMap map-generation core

This file gives a shallow embedding, in Lean 4, of the map-generation core of
the `mcocRandomMap` repository:

* `Point` and the helper functions (`src/helpers.ts`),
* the `PriorityQueue` class (`src/PriorityQueue.ts`),
* the `AStar` grid search (`src/AStar.ts`),
* the quest-graph builder `nodesFromTransitions`, the reachability guard
  `canReachEnd`, the transition-table builder `populateTransitions` and the
  staging function `buildAnimationSteps` (`src/index.ts`),
* the `MapNode` class (`src/MapNode.ts`),

and proves or refutes the testable properties stated in the repository's
specification.

Modelling conventions:

* JavaScript `Record<string, _>` objects keyed by `Point.key()` (the string
  `x + "," + y`, which is injective on integer coordinates) are modelled as
  association lists keyed by the `Point` itself.
* Mutation is modelled by explicit state passing.
* Loops and recursions that are unbounded in the source get an explicit fuel
  parameter; where a claim needs the loop to run to completion, a concrete
  sufficient fuel is computed and proved sufficient.
* A thrown JavaScript `TypeError` (e.g. iterating over `undefined` after a
  failed `Record` lookup) is modelled by an `Option` result, `none` meaning
  the function aborts.
* `Math.random()` draws are explicit inputs: a stream of rational numbers.
* The floating-point priorities `cost + manhattan/sqrt(2)` of the A* search
  are modelled exactly as elements `a + b*sqrt 2` of the ordered field
  `ℚ(sqrt 2)`, with a decidable order.
-/

namespace McocMap

/-- `Point` from `src/helpers.ts`: an integer coordinate pair.  `key()` is the
string `x + "," + y`, which is injective on integers, so the point itself
serves as the key in the embedding.  `equals` is coordinate equality, which is
exactly the derived decidable equality. -/
structure Point where
  x : Int
  y : Int
deriving DecidableEq, Repr

/-- Association-list lookup, modelling a JavaScript `Record` read: the first
binding of the key wins (a `Record` has at most one binding per key). -/
def alookup {β : Type} (k : Point) : List (Point × β) → Option β
  | [] => none
  | (k', v) :: rest => if k' = k then some v else alookup k rest

/-- Association-list write, modelling a JavaScript `Record` assignment:
replaces the first binding of the key, or appends a new binding (JS object
insertion order). -/
def aset {β : Type} (k : Point) (v : β) : List (Point × β) → List (Point × β)
  | [] => [(k, v)]
  | (k', v') :: rest => if k' = k then (k, v) :: rest else (k', v') :: aset k v rest

theorem alookup_aset_self {β : Type} (k : Point) (v : β) (l : List (Point × β)) :
    alookup k (aset k v l) = some v := by
  induction l with
  | nil => simp [aset, alookup]
  | cons hd tl ih =>
    obtain ⟨k', v'⟩ := hd
    by_cases h : k' = k
    · simp [aset, alookup, h]
    · simp [aset, alookup, h, ih]

theorem alookup_aset_ne {β : Type} {k k' : Point} (v : β) (l : List (Point × β))
    (h : k ≠ k') : alookup k' (aset k v l) = alookup k' l := by
  induction l with
  | nil => simp [aset, alookup, h]
  | cons hd tl ih =>
    obtain ⟨k₀, v₀⟩ := hd
    by_cases h0 : k₀ = k
    · subst h0
      simp [aset, alookup, h]
    · by_cases h1 : k₀ = k'
      · subst h1
        simp [aset, alookup, h0]
      · simp [aset, alookup, h0, h1, ih]

/-!
## PriorityQueue (`src/PriorityQueue.ts`)

The queue stores `(data, priority)` entries in a plain array.  `insert` scans
for the first entry whose priority is strictly greater than the new priority
and splices the new entry in at that index; the scan's result variable
`insertIdx` is initialised to `0` and is left at `0` when no entry compares
greater.  `dequeue` shifts the first array element.  The stored `length` field
always mirrors `queue.length` and is not modelled separately.

The priority type is a parameter `P` with a boolean comparison `gtB q p`
modelling the JavaScript `obj.priority > priority` test; the search
instantiates `P` with exact `ℚ(sqrt 2)` values and `C1` instantiates it with
`ℚ`.
-/

/-- A priority queue state: the backing array of `(data, priority)` entries. -/
structure PQueue (α P : Type) where
  queue : List (α × P)
deriving DecidableEq, Repr

/-- The index scan of `PriorityQueue.insert`: the index of the first entry
whose priority is strictly greater than `p` (`obj.priority > priority`),
or `none` when no entry compares greater. -/
def pqScan {α P : Type} (gtB : P → P → Bool) (p : P) : List (α × P) → Nat → Option Nat
  | [], _ => none
  | (_, q) :: rest, i => if gtB q p then some i else pqScan gtB p rest (i + 1)

/-- `PriorityQueue.insert`: splice the entry in at the scanned index.
`insertIdx` defaults to `0` when the scan finds no strictly-greater entry —
this faithfully reproduces the source, where `insertIdx` is initialised to `0`
and only assigned inside the loop. -/
def PQueue.insert {α P : Type} (gtB : P → P → Bool) (s : PQueue α P) (a : α) (p : P) :
    PQueue α P :=
  let idx := (pqScan gtB p s.queue 0).getD 0
  ⟨s.queue.take idx ++ (a, p) :: s.queue.drop idx⟩

/-- `PriorityQueue.dequeue`: shift the first element; `none` when empty. -/
def PQueue.dequeue {α P : Type} : PQueue α P → Option (α × P) × PQueue α P
  | ⟨[]⟩ => (none, ⟨[]⟩)
  | ⟨e :: rest⟩ => (some e, ⟨rest⟩)

/-- Number of stored entries (the `length` field of the source). -/
def PQueue.length {α P : Type} (s : PQueue α P) : Nat := s.queue.length

/-- The rational-priority comparison `obj.priority > priority`. -/
def qGt (a b : ℚ) : Bool := decide (b < a)

/-- C1: the claim is that for every sequence of `insert(item, priority)` calls
followed by repeated `dequeue()` calls, items come out in non-decreasing
priority order, with FIFO order among equal priorities.  The code violates
both parts: `insertIdx` in `insert` is initialised to `0` and is never
reassigned when no existing entry has a strictly greater priority, so a new
item whose priority is greater than or equal to every stored priority is
spliced in at the *front* of the array.  Concretely, after `insert(0, 1);
insert(10, 2)` the first `dequeue` returns the priority-2 item and the second
returns the priority-1 item (decreasing order), and after `insert(0, 1);
insert(10, 1)` the first `dequeue` returns the *newer* of the two equal
priority items (LIFO, not FIFO). -/
theorem C1_priorityQueue_dequeue_order_bug :
    -- non-decreasing priority order fails:
    (((PQueue.mk ([] : List (ℕ × ℚ))).insert qGt 0 1).insert qGt 10 2).dequeue.1
        = some (10, 2) ∧
    ((((PQueue.mk ([] : List (ℕ × ℚ))).insert qGt 0 1).insert qGt 10 2).dequeue.2.dequeue.1
        = some (0, 1)) ∧
    ¬ ((2 : ℚ) ≤ 1) ∧
    -- FIFO among equal priorities fails: the newer item 10 comes out first:
    (((PQueue.mk ([] : List (ℕ × ℚ))).insert qGt 0 1).insert qGt 10 1).dequeue.1
        = some (10, 1) := by
  refine ⟨?_, ?_, by norm_num, ?_⟩ <;> rfl

/-!
## `canReachEnd` (`src/index.ts`, lines 496–517)

A depth-first reachability search over the raw transition table with a shared,
mutated history list: the current key is pushed before the neighbor loop and
popped again when every neighbor fails.  The history list is threaded through
the recursion explicitly (the JS code mutates one shared array).  The
JavaScript recursion is unbounded; `canReachEndF` takes a fuel parameter and
returns `none` when the fuel runs out or when a transition-table lookup fails
(`for (let p of undefined)` would throw in the source).
-/

/-- A transition table: `Record<string, Point[]>` keyed by `Point.key()`. -/
abbrev Transitions : Type := List (Point × List Point)

/-- The `for (let p of transitions[startKey])` loop of `canReachEnd`, with
the recursive call abstracted as `recur`: skip neighbors already in the
history, return `true` as soon as a recursive call succeeds, and pop the last
history entry when the list is exhausted. -/
def canReachGoC (recur : Point → List Point → Option (Bool × List Point)) :
    List Point → List Point → Option (Bool × List Point)
  | [], hist => some (false, hist.dropLast)
  | p :: ps, hist =>
    if hist.contains p then canReachGoC recur ps hist
    else
      match recur p hist with
      | none => none
      | some (true, h') => some (true, h')
      | some (false, h') => canReachGoC recur ps h'

/-- `canReachEnd(startKey, endKey, transitions, history)`, fuelled. -/
def canReachEndF (t : Transitions) (e : Point) : ℕ → Point → List Point →
    Option (Bool × List Point)
  | 0, _, _ => none
  | fuel + 1, s, hist =>
    if s = e then some (true, hist)
    else
      match alookup s t with
      | none => none
      | some ps => canReachGoC (canReachEndF t e fuel) ps (hist ++ [s])

/-- The keys of a transition table, in order. -/
def keysList (t : Transitions) : List Point := t.map Prod.fst

theorem alookup_isSome_iff {β : Type} (t : List (Point × β)) (k : Point) :
    (alookup k t).isSome ↔ k ∈ t.map Prod.fst := by
  induction t with
  | nil => simp [alookup]
  | cons hd tl ih =>
    obtain ⟨k', v⟩ := hd
    by_cases h : k' = k
    · simp [alookup, h]
    · simp [alookup, h, ih, Ne.symm h]

/-- A table is closed (relative to an end key) when every point referenced in
a neighbor list either is the end key or is itself a key of the table.  The
tables produced by `populateTransitions` are closed; on a non-closed table the
source search can read `transitions[k]` for a missing `k` and throw. -/
def ClosedT (t : Transitions) (e : Point) : Prop :=
  ∀ pr ∈ t, ∀ p ∈ pr.2, p = e ∨ (alookup p t).isSome

instance (t : Transitions) (e : Point) : Decidable (ClosedT t e) := by
  unfold ClosedT
  infer_instance

theorem alookup_mem {β : Type} {t : List (Point × β)} {k : Point} {v : β}
    (h : alookup k t = some v) : (k, v) ∈ t := by
  induction t with
  | nil => cases h
  | cons hd tl ih =>
    obtain ⟨k', v'⟩ := hd
    by_cases hk : k' = k
    · subst hk
      have hv : v' = v := by simpa [alookup] using h
      subst hv
      exact List.mem_cons_self _ _
    · simp only [alookup, if_neg hk] at h
      exact List.mem_cons_of_mem _ (ih h)

/-- `IsTrail t avoid s l e`: the list `l` of successively visited keys leads
from `s` to `e` through the transition table, and every visited key (that is,
every vertex of the walk other than the start `s`) avoids `avoid`. -/
inductive IsTrail (t : Transitions) (avoid : List Point) : Point → List Point → Point → Prop
  | nil (s : Point) : IsTrail t avoid s [] s
  | cons {s q e : Point} {ps l : List Point} :
      alookup s t = some ps → q ∈ ps → q ∉ avoid →
      IsTrail t avoid q l e → IsTrail t avoid s (q :: l) e

/-- A trail avoiding `a` also avoids any list each of whose members is either
in `a` or not visited by the trail. -/
theorem IsTrail.mono {t : Transitions} {a a' avoid : List Point} {s e : Point}
    {l : List Point} (h : IsTrail t a s l e)
    (ha : a' = avoid) (hsub : ∀ x ∈ avoid, x ∈ a ∨ x ∉ l) :
    IsTrail t a' s l e := by
  subst ha
  induction h with
  | nil s => exact IsTrail.nil s
  | cons hl hq hqa htl ih =>
    refine IsTrail.cons hl hq ?_ (ih ?_)
    · intro hmem
      rcases hsub _ hmem with h1 | h1
      · exact hqa h1
      · exact h1 (List.mem_cons_self _ _)
    · intro x hx
      rcases hsub x hx with h1 | h1
      · exact Or.inl h1
      · exact Or.inr fun hc => h1 (List.mem_cons_of_mem _ hc)

/-- Any visited key of a trail starts a strictly shorter sub-trail. -/
theorem IsTrail.suffix {t : Transitions} {a : List Point} {x e : Point}
    {l : List Point} (h : IsTrail t a x l e) :
    ∀ s ∈ l, ∃ l₂, IsTrail t a s l₂ e ∧ l₂.length < l.length ∧ ∀ y ∈ l₂, y ∈ l := by
  induction h with
  | nil => intro s hs; cases hs
  | cons hl hq hqa htl ih =>
    intro s hs
    rcases List.mem_cons.mp hs with h1 | h1
    · subst h1
      exact ⟨_, htl, Nat.lt_succ_self _, fun y hy => List.mem_cons_of_mem _ hy⟩
    · obtain ⟨l₂, h2, h3, h4⟩ := ih s h1
      exact ⟨l₂, h2, Nat.lt_succ_of_lt h3,
        fun y hy => List.mem_cons_of_mem _ (h4 y hy)⟩

/-- Every trail can be shortened to a duplicate-free trail that does not
revisit its own start. -/
theorem IsTrail.norm {t : Transitions} {a : List Point} {e : Point} :
    ∀ n (s : Point) (l : List Point), l.length ≤ n → IsTrail t a s l e →
      ∃ l', IsTrail t a s l' e ∧ l'.Nodup ∧ s ∉ l' ∧ (∀ y ∈ l', y ∈ l) ∧
        l'.length ≤ l.length := by
  intro n
  induction n with
  | zero =>
    intro s l hlen h
    rw [List.length_eq_zero.mp (Nat.le_zero.mp hlen)] at h ⊢
    exact ⟨[], h, List.nodup_nil, List.not_mem_nil _, by simp, Nat.le_refl _⟩
  | succ n ih =>
    intro s l hlen h
    cases h with
    | nil => exact ⟨[], IsTrail.nil _, List.nodup_nil, List.not_mem_nil _, by simp, Nat.zero_le _⟩
    | @cons _ q _ ps l₁ hl hq hqa htl =>
      by_cases hsq : s = q
      · subst hsq
        obtain ⟨l', h1, h2, h3, h4, h5⟩ := ih s l₁ (Nat.le_of_succ_le_succ hlen) htl
        exact ⟨l', h1, h2, h3, fun y hy => List.mem_cons_of_mem _ (h4 y hy),
          Nat.le_succ_of_le h5⟩
      · obtain ⟨l₁', h1, h2, h3, h4, hlen1⟩ := ih q l₁ (Nat.le_of_succ_le_succ hlen) htl
        by_cases hs : s ∈ l₁'
        · obtain ⟨l₂, h5, h6, h7⟩ := (IsTrail.cons hl hq hqa h1).suffix s
            (List.mem_cons_of_mem _ hs)
          have hlen₂ : l₂.length ≤ n := by
            have h6' := h6
            simp only [List.length_cons] at h6' hlen
            omega
          obtain ⟨l'', g1, g2, g3, g4, g5⟩ := ih s l₂ hlen₂ h5
          refine ⟨l'', g1, g2, g3, fun y hy => ?_, ?_⟩
          · rcases List.mem_cons.mp (h7 y (g4 y hy)) with h8 | h8
            · exact h8 ▸ List.mem_cons_self _ _
            · exact List.mem_cons_of_mem _ (h4 y h8)
          · have h6' := h6
            simp only [List.length_cons] at h6' ⊢
            omega
        · refine ⟨q :: l₁', IsTrail.cons hl hq hqa h1, List.nodup_cons.mpr ⟨h3, h2⟩, ?_, ?_, ?_⟩
          · intro hc
            rcases List.mem_cons.mp hc with h5 | h5
            · exact hsq h5
            · exact hs h5
          · intro y hy
            rcases List.mem_cons.mp hy with h5 | h5
            · exact h5 ▸ List.mem_cons_self _ _
            · exact List.mem_cons_of_mem _ (h4 y h5)
          · simp only [List.length_cons]
            omega

/-- Backtracking restores the history: the neighbor loop, when it fails,
returns the history it was given with the last entry popped. -/
theorem canReachGo_false_hist (t : Transitions) (e : Point) (fuel : ℕ)
    (ih : ∀ s hist h', canReachEndF t e fuel s hist = some (false, h') → h' = hist) :
    ∀ ps hist h', canReachGoC (canReachEndF t e fuel) ps hist = some (false, h') → h' = hist.dropLast := by
  intro ps
  induction ps with
  | nil =>
    intro hist h' h
    simp only [canReachGoC, Option.some.injEq, Prod.mk.injEq, true_and] at h
    exact h.symm
  | cons p ps ihps =>
    intro hist h' h
    by_cases hc : hist.contains p
    · rw [canReachGoC, if_pos hc] at h
      exact ihps hist h' h
    · rw [canReachGoC, if_neg hc] at h
      cases hr : canReachEndF t e fuel p hist with
      | none => rw [hr] at h; cases h
      | some res =>
        obtain ⟨b, h₂⟩ := res
        cases b with
        | true => rw [hr] at h; cases h
        | false =>
          rw [hr] at h
          rw [ih p hist h₂ hr] at h
          exact ihps hist h' h

/-- `canReachEnd` on failure restores the history list exactly (for every
fuel value): every key pushed during the failed search was popped again. -/
theorem canReachEndF_false_hist (t : Transitions) (e : Point) :
    ∀ fuel s hist h', canReachEndF t e fuel s hist = some (false, h') → h' = hist := by
  intro fuel
  induction fuel with
  | zero => intro s hist h' h; simp [canReachEndF] at h
  | succ fuel ih =>
    intro s hist h' h
    by_cases hse : s = e
    · rw [canReachEndF, if_pos hse] at h; cases h
    · rw [canReachEndF, if_neg hse] at h
      cases hl : alookup s t with
      | none => rw [hl] at h; cases h
      | some ps =>
        rw [hl] at h
        have := canReachGo_false_hist t e fuel ih ps (hist ++ [s]) h' h
        rwa [List.dropLast_concat] at this

/-- Soundness of the neighbor loop: a `true` result exhibits a neighbor not in
the current history from which a trail avoiding the current history exists. -/
theorem canReachGo_true_trail (t : Transitions) (e : Point) (fuel : ℕ)
    (ih : ∀ s hist h', canReachEndF t e fuel s hist = some (true, h') →
      ∃ l, IsTrail t hist s l e) :
    ∀ ps hist h', canReachGoC (canReachEndF t e fuel) ps hist = some (true, h') →
      ∃ p ∈ ps, p ∉ hist ∧ ∃ l, IsTrail t hist p l e := by
  intro ps
  induction ps with
  | nil => intro hist h' h; simp [canReachGoC] at h
  | cons p ps ihps =>
    intro hist h' h
    by_cases hc : hist.contains p
    · rw [canReachGoC, if_pos hc] at h
      obtain ⟨q, hq, hq2, hq3⟩ := ihps hist h' h
      exact ⟨q, List.mem_cons_of_mem _ hq, hq2, hq3⟩
    · rw [canReachGoC, if_neg hc] at h
      cases hr : canReachEndF t e fuel p hist with
      | none => rw [hr] at h; cases h
      | some res =>
        obtain ⟨b, h₂⟩ := res
        cases b with
        | true =>
          refine ⟨p, List.mem_cons_self _ _, ?_, ih p hist h₂ hr⟩
          intro hmem
          exact hc (List.elem_iff.mpr hmem)
        | false =>
          rw [hr] at h
          rw [canReachEndF_false_hist t e fuel p hist h₂ hr] at h
          obtain ⟨q, hq, hq2, hq3⟩ := ihps hist h' h
          exact ⟨q, List.mem_cons_of_mem _ hq, hq2, hq3⟩

/-- Soundness of `canReachEnd`: a `true` result (for any fuel) exhibits a
trail from the start to the end whose visited keys avoid the given history. -/
theorem canReachEndF_true_trail (t : Transitions) (e : Point) :
    ∀ fuel s hist h', canReachEndF t e fuel s hist = some (true, h') →
      ∃ l, IsTrail t hist s l e := by
  intro fuel
  induction fuel with
  | zero => intro s hist h' h; simp [canReachEndF] at h
  | succ fuel ih =>
    intro s hist h' h
    by_cases hse : s = e
    · exact ⟨[], hse ▸ IsTrail.nil s⟩
    · rw [canReachEndF, if_neg hse] at h
      cases hl : alookup s t with
      | none => rw [hl] at h; cases h
      | some ps =>
        rw [hl] at h
        obtain ⟨p, hp, hp2, l, hl2⟩ := canReachGo_true_trail t e fuel ih ps (hist ++ [s]) h' h
        have hpnot : p ∉ hist := fun hc => hp2 (List.mem_append_left _ hc)
        refine ⟨p :: l, IsTrail.cons hl hp hpnot ?_⟩
        exact hl2.mono rfl (fun x hx => Or.inl (List.mem_append_left _ hx))

/-- The keys that the search can ever visit: the table's keys plus the end. -/
def keysE (t : Transitions) (e : Point) : Finset Point :=
  insert e (t.map Prod.fst).toFinset

/-- Search measure: how many visitable keys are not yet in the history. -/
def mea (t : Transitions) (e s : Point) (hist : List Point) : ℕ :=
  ((keysE t e) \ insert s hist.toFinset).card

theorem mea_step {t : Transitions} {e s p : Point} {hist : List Point}
    (hp : p ∈ keysE t e) (hnot : p ∉ hist ++ [s]) :
    mea t e p (hist ++ [s]) < mea t e s hist := by
  apply Finset.card_lt_card
  rw [Finset.ssubset_iff_of_subset]
  · refine ⟨p, ?_, ?_⟩
    · simp only [Finset.mem_sdiff, Finset.mem_insert, List.mem_toFinset]
      refine ⟨hp, ?_⟩
      intro hc
      rcases hc with hc | hc
      · exact hnot (hc ▸ List.mem_append_right _ (List.mem_singleton_self _))
      · exact hnot (List.mem_append_left _ hc)
    · simp
  · intro x hx
    simp only [Finset.mem_sdiff, Finset.mem_insert, List.mem_toFinset,
      List.mem_append, List.mem_singleton] at hx ⊢
    refine ⟨hx.1, ?_⟩
    intro hc
    rcases hc with hc | hc
    · exact hx.2 (Or.inr (Or.inr hc))
    · exact hx.2 (Or.inr (Or.inl hc))

theorem mea_le {t : Transitions} {e s : Point} {hist : List Point} :
    mea t e s hist ≤ (keysE t e).card :=
  Finset.card_le_card (Finset.sdiff_subset)

/-- Neighbors of a table key are themselves visitable keys. -/
theorem neighbor_mem_keysE {t : Transitions} {e s p : Point} {ps : List Point}
    (hclosed : ClosedT t e) (hl : alookup s t = some ps) (hp : p ∈ ps) :
    p ∈ keysE t e := by
  rcases hclosed (s, ps) (alookup_mem hl) p hp with h | h
  · exact h ▸ Finset.mem_insert_self _ _
  · exact Finset.mem_insert_of_mem (List.mem_toFinset.mpr ((alookup_isSome_iff t p).mp h))

/-- The neighbor loop terminates (returns `some`) when every loop element is
visitable with enough fuel. -/
theorem canReachGo_isSome (t : Transitions) (e : Point) (fuel : ℕ)
    (ihfuel : ∀ s hist, (s = e ∨ (alookup s t).isSome) → mea t e s hist < fuel →
      (canReachEndF t e fuel s hist).isSome) :
    ∀ ps hist₁, (∀ p ∈ ps, p = e ∨ (alookup p t).isSome) →
      (∀ p ∈ ps, p ∉ hist₁ → mea t e p hist₁ < fuel) →
      (canReachGoC (canReachEndF t e fuel) ps hist₁).isSome := by
  intro ps
  induction ps with
  | nil => intro hist₁ _ _; simp [canReachGoC]
  | cons p ps ihps =>
    intro hist₁ h1 h2
    by_cases hc : hist₁.contains p
    · rw [canReachGoC, if_pos hc]
      exact ihps hist₁ (fun q hq => h1 q (List.mem_cons_of_mem _ hq))
        (fun q hq => h2 q (List.mem_cons_of_mem _ hq))
    · rw [canReachGoC, if_neg hc]
      have hnot : p ∉ hist₁ := fun hmem => hc (List.elem_iff.mpr hmem)
      have hsome := ihfuel p hist₁ (h1 p (List.mem_cons_self _ _))
        (h2 p (List.mem_cons_self _ _) hnot)
      cases hr : canReachEndF t e fuel p hist₁ with
      | none => rw [hr] at hsome; cases hsome
      | some res =>
        obtain ⟨b, h₂⟩ := res
        cases b with
        | true => simp
        | false =>
          rw [canReachEndF_false_hist t e fuel p hist₁ h₂ hr]
          exact ihps hist₁ (fun q hq => h1 q (List.mem_cons_of_mem _ hq))
            (fun q hq => h2 q (List.mem_cons_of_mem _ hq))

/-- `canReachEnd` terminates on closed tables with fuel above the measure. -/
theorem canReachEndF_isSome (t : Transitions) (e : Point) (hclosed : ClosedT t e) :
    ∀ fuel s hist, (s = e ∨ (alookup s t).isSome) → mea t e s hist < fuel →
      (canReachEndF t e fuel s hist).isSome := by
  intro fuel
  induction fuel with
  | zero => intro s hist _ hm; cases hm
  | succ fuel ih =>
    intro s hist hs hm
    by_cases hse : s = e
    · rw [canReachEndF, if_pos hse]; simp
    · rw [canReachEndF, if_neg hse]
      rcases hs with hs | hs
      · exact absurd hs hse
      · obtain ⟨ps, hl⟩ := Option.isSome_iff_exists.mp hs
        rw [hl]
        apply canReachGo_isSome t e fuel ih ps (hist ++ [s])
        · exact fun p hp => hclosed (s, ps) (alookup_mem hl) p hp
        · intro p hp hnot
          have h1 : mea t e p (hist ++ [s]) < mea t e s hist :=
            mea_step (neighbor_mem_keysE hclosed hl hp) hnot
          omega

/-- Completeness of the neighbor loop: if some loop element starts a
duplicate-free trail to the end avoiding the current history, the loop
returns `true`. -/
theorem canReachGo_complete (t : Transitions) (e : Point) (fuel : ℕ)
    (ihfuel : ∀ s hist l, (s = e ∨ (alookup s t).isSome) → mea t e s hist < fuel →
      IsTrail t hist s l e → l.Nodup → s ∉ l →
      ∃ h', canReachEndF t e fuel s hist = some (true, h'))
    (ihsome : ∀ s hist, (s = e ∨ (alookup s t).isSome) → mea t e s hist < fuel →
      (canReachEndF t e fuel s hist).isSome) :
    ∀ ps hist₁, (∀ p ∈ ps, p = e ∨ (alookup p t).isSome) →
      (∀ p ∈ ps, p ∉ hist₁ → mea t e p hist₁ < fuel) →
      (∃ q ∈ ps, q ∉ hist₁ ∧ ∃ l₁, IsTrail t hist₁ q l₁ e ∧ l₁.Nodup ∧ q ∉ l₁) →
      ∃ h', canReachGoC (canReachEndF t e fuel) ps hist₁ = some (true, h') := by
  intro ps
  induction ps with
  | nil =>
    intro hist₁ _ _ hq
    obtain ⟨q, hq, _⟩ := hq
    cases hq
  | cons p ps ihps =>
    intro hist₁ h1 h2 hex
    obtain ⟨q, hqmem, hqnot, l₁, htrail, hnodup, hql⟩ := hex
    by_cases hc : hist₁.contains p
    · rw [canReachGoC, if_pos hc]
      have hqp : q ≠ p := by
        intro hcq
        exact hqnot (List.elem_iff.mp (hcq ▸ hc))
      apply ihps hist₁ (fun r hr => h1 r (List.mem_cons_of_mem _ hr))
        (fun r hr => h2 r (List.mem_cons_of_mem _ hr))
      refine ⟨q, ?_, hqnot, l₁, htrail, hnodup, hql⟩
      rcases List.mem_cons.mp hqmem with h | h
      · exact absurd h hqp
      · exact h
    · rw [canReachGoC, if_neg hc]
      have hnot : p ∉ hist₁ := fun hmem => hc (List.elem_iff.mpr hmem)
      have hsome := ihsome p hist₁ (h1 p (List.mem_cons_self _ _))
        (h2 p (List.mem_cons_self _ _) hnot)
      cases hr : canReachEndF t e fuel p hist₁ with
      | none => rw [hr] at hsome; cases hsome
      | some res =>
        obtain ⟨b, h₂⟩ := res
        cases b with
        | true => exact ⟨h₂, rfl⟩
        | false =>
          rw [canReachEndF_false_hist t e fuel p hist₁ h₂ hr]
          have hqp : q ≠ p := by
            intro hcq
            subst hcq
            obtain ⟨h', hh⟩ := ihfuel q hist₁ l₁ (h1 q (List.mem_cons_self _ _))
              (h2 q (List.mem_cons_self _ _) hqnot) htrail hnodup hql
            rw [hh] at hr
            cases hr
          apply ihps hist₁ (fun r hrr => h1 r (List.mem_cons_of_mem _ hrr))
            (fun r hrr => h2 r (List.mem_cons_of_mem _ hrr))
          refine ⟨q, ?_, hqnot, l₁, htrail, hnodup, hql⟩
          rcases List.mem_cons.mp hqmem with h | h
          · exact absurd h hqp
          · exact h

/-- Completeness of `canReachEnd` on closed tables: a duplicate-free avoiding
trail forces a `true` answer, given fuel above the measure. -/
theorem canReachEndF_complete (t : Transitions) (e : Point) (hclosed : ClosedT t e) :
    ∀ fuel s hist l, (s = e ∨ (alookup s t).isSome) → mea t e s hist < fuel →
      IsTrail t hist s l e → l.Nodup → s ∉ l →
      ∃ h', canReachEndF t e fuel s hist = some (true, h') := by
  intro fuel
  induction fuel with
  | zero => intro s hist l _ hm; cases hm
  | succ fuel ih =>
    intro s hist l hs hm htrail hnodup hsl
    by_cases hse : s = e
    · rw [canReachEndF, if_pos hse]
      exact ⟨hist, rfl⟩
    · rw [canReachEndF, if_neg hse]
      cases htrail with
      | nil => exact absurd rfl hse
      | @cons _ q _ ps l₁ hl hq hqa htl =>
        rw [hl]
        apply canReachGo_complete t e fuel ih (canReachEndF_isSome t e hclosed fuel)
          ps (hist ++ [s]) (fun p hp => hclosed (s, ps) (alookup_mem hl) p hp)
        · intro p hp hnot
          have h1 : mea t e p (hist ++ [s]) < mea t e s hist :=
            mea_step (neighbor_mem_keysE hclosed hl hp) hnot
          omega
        · have hsq : s ≠ q := by
            intro hc
            exact hsl (hc ▸ List.mem_cons_self _ _)
          have hqnot : q ∉ hist ++ [s] := by
            intro hc
            rcases List.mem_append.mp hc with h | h
            · exact hqa h
            · exact hsq (List.mem_singleton.mp h).symm
          refine ⟨q, hq, hqnot, l₁, ?_, (List.nodup_cons.mp hnodup).2, (List.nodup_cons.mp hnodup).1⟩
          refine htl.mono rfl ?_
          intro x hx
          rcases List.mem_append.mp hx with h | h
          · exact Or.inl h
          · exact Or.inr fun hc => hsl (List.mem_singleton.mp h ▸ List.mem_cons_of_mem _ hc)

/-- `canReachEnd` with its default empty-history-compatible fuel: one more
than the number of visitable keys, which the termination theorem shows is
always enough on closed tables. -/
def canReachEnd (t : Transitions) (s e : Point) (hist : List Point) :
    Option (Bool × List Point) :=
  canReachEndF t e ((keysE t e).card + 1) s hist

/-- C5 (counterexample to the claim as stated): on the closed two-key table
`{(0,0): [(1,1)], (1,1): [(0,0)]}` with start `(0,0)`, end `(1,1)` and initial
history `[(0,0)]`, `canReachEnd` returns `true`, although no path from
`(0,0)` to `(1,1)` avoids *every* key in the initial history — any such path
starts at `(0,0)`, which is in the history.  (The code never checks the start
key itself against the history.) -/
theorem C5_canReachEnd_counterexample :
    (canReachEnd [(⟨0, 0⟩, [⟨1, 1⟩]), (⟨1, 1⟩, [⟨0, 0⟩])] ⟨0, 0⟩ ⟨1, 1⟩ [⟨0, 0⟩]
      = some (true, [⟨0, 0⟩, ⟨0, 0⟩])) ∧
    ¬ (∃ l, IsTrail [(⟨0, 0⟩, [⟨1, 1⟩]), (⟨1, 1⟩, [⟨0, 0⟩])] [⟨0, 0⟩] ⟨0, 0⟩ l ⟨1, 1⟩ ∧
        (⟨0, 0⟩ : Point) ∉ ([⟨0, 0⟩] : List Point)) := by
  constructor
  · decide
  · rintro ⟨l, _, hnot⟩
    exact hnot (List.mem_singleton_self _)

/-- C5 (amended): on a closed table whose start key is a table key (or equals
the end key), `canReachEnd` returns `true` exactly when there is a path
through the transition table from the start key to the end key whose keys
*other than the start key* avoid every key in the initial history; and
whenever it returns `false`, the history list holds exactly its initial
contents again (every key pushed during the failed search was removed by
backtracking). -/
theorem C5_canReachEnd_amended (t : Transitions) (s e : Point) (hist : List Point)
    (hclosed : ClosedT t e) (hs : s = e ∨ (alookup s t).isSome) :
    ((∃ h', canReachEnd t s e hist = some (true, h')) ↔ ∃ l, IsTrail t hist s l e) ∧
    (∀ h', canReachEnd t s e hist = some (false, h') → h' = hist) := by
  refine ⟨⟨?_, ?_⟩, ?_⟩
  · rintro ⟨h', hh⟩
    exact canReachEndF_true_trail t e _ s hist h' hh
  · rintro ⟨l, htrail⟩
    obtain ⟨l', h1, h2, h3, _⟩ := IsTrail.norm l.length s l (Nat.le_refl _) htrail
    refine canReachEndF_complete t e hclosed _ s hist l' hs ?_ h1 h2 h3
    have := @mea_le t e s hist
    omega
  · intro h' hh
    exact canReachEndF_false_hist t e _ s hist h' hh

/-- Witness for the amended C5 at a concrete input: the two-key table with an
empty history, where the trail `[(1,1)]` exists and `canReachEnd` says so. -/
theorem C5_canReachEnd_amended_witness :
    ∃ h', canReachEnd [(⟨0, 0⟩, [⟨1, 1⟩]), (⟨1, 1⟩, [⟨0, 0⟩])] ⟨0, 0⟩ ⟨1, 1⟩ []
      = some (true, h') :=
  (C5_canReachEnd_amended [(⟨0, 0⟩, [⟨1, 1⟩]), (⟨1, 1⟩, [⟨0, 0⟩])] ⟨0, 0⟩ ⟨1, 1⟩ []
      (by decide) (Or.inr (by decide))).1.mpr
    ⟨[⟨1, 1⟩], IsTrail.cons rfl (List.mem_singleton_self _) (List.not_mem_nil _)
      (IsTrail.nil _)⟩

/-!
## `MapNode` (`src/MapNode.ts`) and the graph builder (`src/index.ts`)

A `MapNode` carries its coordinate, the encounter bookkeeping fields, and its
parent/child links.  In the source the links are object references and one
shared object exists per coordinate (referential consistency through the
`nodeRefs` registry); the embedding stores links as keys and a registry
mapping each key to the current state of its node, re-reading the registry at
each use, which models reference aliasing exactly.
-/

structure MapNode where
  x : Int
  y : Int
  distSinceFight : Int
  isBoss : Bool
  portrait : Bool
  parents : List Point
  children : List Point
deriving DecidableEq, Repr

/-- `new MapNode(x, y)`. -/
def MapNode.new (p : Point) : MapNode :=
  { x := p.x, y := p.y, distSinceFight := -1, isBoss := false, portrait := false,
    parents := [], children := [] }

def MapNode.key (n : MapNode) : Point := ⟨n.x, n.y⟩

/-- `MapNode.addParent`: push unless an equal node is already a parent. -/
def MapNode.addParent (n : MapNode) (pk : Point) : MapNode :=
  if pk ∈ n.parents then n else { n with parents := n.parents ++ [pk] }

/-- `MapNode.addChild`: push unless an equal node is already a child. -/
def MapNode.addChild (n : MapNode) (ck : Point) : MapNode :=
  if ck ∈ n.children then n else { n with children := n.children ++ [ck] }

/-- The registry of `MapNode`s, keyed by coordinate (`nodeRefs`). -/
abbrev NodeMap : Type := List (Point × MapNode)

/-- `MapNode.hasAncestor`, fuelled (the source recursion is unbounded; the
graph builder calls it with fuel one above the registry size, which the
acyclicity invariant proves sufficient).  Parent references are re-read from
the registry. -/
def hasAncestorF (m : NodeMap) : ℕ → MapNode → Point → Bool
  | 0, _, _ => false
  | fuel + 1, n, k =>
    n.parents.any fun pk =>
      pk == k ||
        (match alookup pk m with
         | none => false
         | some pn => hasAncestorF m fuel pn k)

/-- `MapNode.getAncestors`, fuelled: for each parent, its key followed by its
own ancestors, concatenated in parent order. -/
def getAncestorsF (m : NodeMap) : ℕ → MapNode → List Point
  | 0, _ => []
  | fuel + 1, n =>
    (n.parents.map fun pk =>
      pk :: (match alookup pk m with
             | none => []
             | some pn => getAncestorsF m fuel pn)).flatten

/-- The lazy creation `nodeRefs[testPoint.key()] ??= new MapNode(...)`. -/
def builderEnsure (testP : Point) (refs : NodeMap) : NodeMap :=
  match alookup testP refs with
  | none => aset testP (MapNode.new testP) refs
  | some _ => refs

/-- `testNode.addParent(currNode); currNode.addChild(testNode)`: both nodes
are re-read from the registry so that aliasing (e.g. `testNode` and
`currNode` being the same object) behaves as in the source. -/
def builderLink (currP testP : Point) (refs : NodeMap) : NodeMap :=
  let refs1 := match alookup testP refs with
               | none => refs
               | some tn => aset testP (tn.addParent currP) refs
  match alookup currP refs1 with
  | none => refs1
  | some cn => aset currP (cn.addChild testP) refs1

/-- The body of the `for (let testPoint of transPoints)` loop of
`nodesFromTransitions`: lazily create the neighbor's node, check the
ancestor-cycle guard and the reachability guard, and on success link
parent/child and enqueue the neighbor unless it is the end.  Returns `none`
when `canReachEnd` throws.  (The `none` branch of the `currNode` lookup is
dead code: the work loop only calls this with `currP` present, and entries
are never removed.) -/
def builderVisit (t : Transitions) (endP currP : Point) :
    List Point → NodeMap → List Point → Option (NodeMap × List Point)
  | [], refs, queue => some (refs, queue)
  | testP :: rest, refs, queue =>
    let refs0 := builderEnsure testP refs
    match alookup currP refs0 with
    | none => some (refs0, queue)
    | some currNode =>
      if hasAncestorF refs0 (refs0.length + 1) currNode testP then
        builderVisit t endP currP rest refs0 queue
      else
        match canReachEnd t testP endP
            (getAncestorsF refs0 (refs0.length + 1) currNode ++ [currP]) with
        | none => none
        | some (false, _) => builderVisit t endP currP rest refs0 queue
        | some (true, _) =>
          builderVisit t endP currP rest (builderLink currP testP refs0)
            (if testP = endP then queue else queue ++ [testP])

/-- The `while (currPoints.length > 0)` loop of `nodesFromTransitions`,
fuelled.  A missing node reference reproduces the source's
`console.error` + `break` (the partial registry is returned); a missing
transition entry is the thrown `for (let p of undefined)`, hence `none`. -/
def builderLoop (t : Transitions) (endP : Point) : ℕ → NodeMap → List Point →
    Option NodeMap
  | 0, _, _ => none
  | fuel + 1, refs, queue =>
    match queue with
    | [] => some refs
    | currP :: restQ =>
      match alookup currP refs with
      | none => some refs
      | some currNode =>
        match alookup currNode.key t with
        | none => none
        | some transPoints =>
          match builderVisit t endP currP transPoints refs restQ with
          | none => none
          | some (refs', queue') => builderLoop t endP fuel refs' queue'

/-- `nodesFromTransitions(start, end, transitions)`: seed the registry with
fresh nodes for start and end (end overwrites start when the keys are equal,
as the later object-literal property does in JS) and run the work loop. -/
def nodesFromTransitions (start endP : Point) (t : Transitions) (fuel : ℕ) :
    Option NodeMap :=
  builderLoop t endP fuel
    (aset endP (MapNode.new endP) (aset start (MapNode.new start) []))
    [start]

/-!
## `populateTransitions` (`src/index.ts`, lines 316–333)

For each index of the path, ensure the table has an entry for the point
(`??= []`) and push the previous and next path points into the entry unless
an equal point is already present.
-/

/-- `transitions[key] ??= []`. -/
def ensureKey (k : Point) (tr : Transitions) : Transitions :=
  match alookup k tr with
  | none => aset k [] tr
  | some _ => tr

/-- `if (transAry.find((p) => p.equals(q)) == null) transAry.push(q)`. -/
def pushTrans (k q : Point) (tr : Transitions) : Transitions :=
  match alookup k tr with
  | none => tr
  | some l => if q ∈ l then tr else aset k (l ++ [q]) tr

/-- One iteration of the `populateTransitions` loop: the entry for `k` gets
the previous point (when the index is positive) and then the next point
(when one exists). -/
def populateAt (prev : Option Point) (k : Point) (next : Option Point)
    (tr : Transitions) : Transitions :=
  let tr1 := ensureKey k tr
  let tr2 := match prev with
             | none => tr1
             | some p => pushTrans k p tr1
  match next with
  | none => tr2
  | some nx => pushTrans k nx tr2

/-- The index loop of `populateTransitions`, carrying the previous point. -/
def populateGo (prev : Option Point) : List Point → Transitions → Transitions
  | [], tr => tr
  | [k], tr => populateAt prev k none tr
  | k :: nxt :: rest, tr => populateGo (some k) (nxt :: rest) (populateAt prev k (some nxt) tr)

/-- `populateTransitions(pathNodes, transitions)`. -/
def populateTransitions (path : List Point) (tr : Transitions) : Transitions :=
  populateGo none path tr

/-- The transition table obtained by merging a list of raw paths into an
initially empty table, as `run()` does for the main path and the subpath. -/
def buildTable (paths : List (List Point)) : Transitions :=
  paths.foldl (fun tr path => populateTransitions path tr) []

/-- A table built from one or more simple (duplicate-free) paths. -/
def BuiltFromPaths (t : Transitions) : Prop :=
  ∃ paths : List (List Point), paths ≠ [] ∧ (∀ p ∈ paths, p.Nodup) ∧ t = buildTable paths

/-- No table entry lists its own key as a neighbor. -/
def SelfLoopFree (t : Transitions) : Prop := ∀ pr ∈ t, pr.1 ∉ pr.2

theorem mem_aset {β : Type} {pr : Point × β} {k : Point} {v : β} {l : List (Point × β)}
    (h : pr ∈ aset k v l) : pr = (k, v) ∨ pr ∈ l := by
  induction l with
  | nil => simpa [aset] using h
  | cons hd tl ih =>
    obtain ⟨k₀, v₀⟩ := hd
    by_cases h0 : k₀ = k
    · rw [aset, if_pos h0] at h
      rcases List.mem_cons.mp h with h1 | h1
      · exact Or.inl h1
      · exact Or.inr (List.mem_cons_of_mem _ h1)
    · rw [aset, if_neg h0] at h
      rcases List.mem_cons.mp h with h1 | h1
      · exact Or.inr (h1 ▸ List.mem_cons_self _ _)
      · rcases ih h1 with h2 | h2
        · exact Or.inl h2
        · exact Or.inr (List.mem_cons_of_mem _ h2)

theorem SelfLoopFree.ensureKey {t : Transitions} (h : SelfLoopFree t) (k : Point) :
    SelfLoopFree (ensureKey k t) := by
  unfold McocMap.ensureKey
  cases hl : alookup k t with
  | none =>
    intro pr hpr
    rcases mem_aset hpr with h1 | h1
    · subst h1; exact List.not_mem_nil _
    · exact h pr h1
  | some l => exact h

theorem SelfLoopFree.pushTrans {t : Transitions} (h : SelfLoopFree t) {k q : Point}
    (hne : q ≠ k) : SelfLoopFree (pushTrans k q t) := by
  unfold McocMap.pushTrans
  cases hl : alookup k t with
  | none => exact h
  | some l =>
    dsimp only
    by_cases hq : q ∈ l
    · rw [if_pos hq]; exact h
    · rw [if_neg hq]
      intro pr hpr
      rcases mem_aset hpr with h1 | h1
      · subst h1
        intro hc
        rcases List.mem_append.mp hc with h2 | h2
        · exact h (k, l) (alookup_mem hl) h2
        · exact hne (List.mem_singleton.mp h2).symm
      · exact h pr h1

theorem SelfLoopFree.populateAt {t : Transitions} (h : SelfLoopFree t)
    {prev next : Option Point} {k : Point}
    (hprev : ∀ p, prev = some p → p ≠ k) (hnext : ∀ p, next = some p → p ≠ k) :
    SelfLoopFree (populateAt prev k next t) := by
  have h1 : SelfLoopFree (McocMap.ensureKey k t) := h.ensureKey k
  cases prev with
  | none =>
    cases next with
    | none => exact h1
    | some nx => exact h1.pushTrans (hnext nx rfl)
  | some p =>
    cases next with
    | none => exact h1.pushTrans (hprev p rfl)
    | some nx => exact (h1.pushTrans (hprev p rfl)).pushTrans (hnext nx rfl)

theorem SelfLoopFree.populateGo {prev : Option Point} {path : List Point}
    {t : Transitions} (h : SelfLoopFree t)
    (hchain : List.Chain' (fun a b => a ≠ b) path)
    (hprev : ∀ p, prev = some p → p ∉ path.take 1) :
    SelfLoopFree (populateGo prev path t) := by
  induction path generalizing prev t with
  | nil => exact h
  | cons k rest ih =>
    cases rest with
    | nil =>
      refine h.populateAt ?_ (by simp)
      intro p hp
      have := hprev p hp
      simp at this
      exact this
    | cons nxt rest2 =>
      rw [McocMap.populateGo]
      have hk : ∀ p, prev = some p → p ≠ k := by
        intro p hp
        have := hprev p hp
        simp at this
        exact this
      have hkn : k ≠ nxt := (List.chain'_cons.mp hchain).1
      refine ih (h.populateAt hk ?_) (List.chain'_cons.mp hchain).2 ?_
      · intro p hp
        cases hp
        exact hkn.symm
      · intro p hp
        cases hp
        simpa using hkn

theorem SelfLoopFree.populateTransitions {path : List Point} {t : Transitions}
    (h : SelfLoopFree t) (hnd : path.Nodup) :
    SelfLoopFree (populateTransitions path t) :=
  h.populateGo (List.Pairwise.chain' hnd) (by simp)

theorem buildTable_foldl_slf :
    ∀ (paths : List (List Point)) (acc : Transitions), (∀ p ∈ paths, p.Nodup) →
      SelfLoopFree acc →
      SelfLoopFree (paths.foldl (fun tr path => populateTransitions path tr) acc) := by
  intro paths
  induction paths with
  | nil => intro acc _ hacc; exact hacc
  | cons p ps ih =>
    intro acc hnd hacc
    exact ih (populateTransitions p acc)
      (fun q hq => hnd q (List.mem_cons_of_mem _ hq))
      (hacc.populateTransitions (hnd p (List.mem_cons_self _ _)))

theorem BuiltFromPaths.selfLoopFree {t : Transitions} (h : BuiltFromPaths t) :
    SelfLoopFree t := by
  obtain ⟨paths, _, hnd, rfl⟩ := h
  exact buildTable_foldl_slf paths [] hnd (fun pr hpr => absurd hpr (List.not_mem_nil _))

/-!
## Ancestor chains and acyclicity of the built graph
-/

/-- `PChain m a l k`: a nonempty chain of parent links from the node at `a`
to the key `k`, visiting the intermediate keys `l` in order. -/
inductive PChain (m : NodeMap) : Point → List Point → Point → Prop
  | last {a k : Point} {n : MapNode} :
      alookup a m = some n → k ∈ n.parents → PChain m a [] k
  | step {a b k : Point} {n : MapNode} {l : List Point} :
      alookup a m = some n → b ∈ n.parents → PChain m b l k → PChain m a (b :: l) k

/-- The registry is ancestor-acyclic: no key starts a parent chain back to
itself. -/
def Acyc (m : NodeMap) : Prop := ∀ k l, ¬ PChain m k l k

theorem PChain.compose {m : NodeMap} {a b c : Point} {l₁ l₂ : List Point}
    (h1 : PChain m a l₁ b) (h2 : PChain m b l₂ c) : PChain m a (l₁ ++ b :: l₂) c := by
  induction h1 with
  | last hl hp => exact PChain.step hl hp h2
  | step hl hp _ ih => exact PChain.step hl hp (ih h2)

theorem PChain.elems_isSome {m : NodeMap} {a k : Point} {l : List Point}
    (h : PChain m a l k) : (alookup a m).isSome ∧ ∀ x ∈ l, (alookup x m).isSome := by
  induction h with
  | last hl _ => exact ⟨hl ▸ rfl, by simp⟩
  | step hl _ _ ih =>
    refine ⟨hl ▸ rfl, ?_⟩
    intro x hx
    rcases List.mem_cons.mp hx with h1 | h1
    · exact h1 ▸ ih.1
    · exact ih.2 x h1

/-- Any visited key of a parent chain starts a shorter chain to the target. -/
theorem PChain.chainSuffix {m : NodeMap} {a k : Point} {l : List Point}
    (h : PChain m a l k) :
    ∀ s ∈ l, ∃ l₂, PChain m s l₂ k ∧ l₂.length < l.length ∧ ∀ y ∈ l₂, y ∈ l := by
  induction h with
  | last _ _ => intro s hs; cases hs
  | step _ _ htl ih =>
    intro s hs
    rcases List.mem_cons.mp hs with h1 | h1
    · subst h1
      exact ⟨_, htl, Nat.lt_succ_self _, fun y hy => List.mem_cons_of_mem _ hy⟩
    · obtain ⟨l₂, g1, g2, g3⟩ := ih s h1
      exact ⟨l₂, g1, Nat.lt_succ_of_lt g2, fun y hy => List.mem_cons_of_mem _ (g3 y hy)⟩

/-- Every parent chain can be shortened to one with distinct visited keys
that does not revisit its own start. -/
theorem PChain.chainNorm {m : NodeMap} {k : Point} :
    ∀ n (a : Point) (l : List Point), l.length ≤ n → PChain m a l k →
      ∃ l', PChain m a l' k ∧ l'.Nodup ∧ a ∉ l' ∧ (∀ y ∈ l', y ∈ l) ∧
        l'.length ≤ l.length := by
  intro n
  induction n with
  | zero =>
    intro a l hlen h
    rw [List.length_eq_zero.mp (Nat.le_zero.mp hlen)] at h ⊢
    exact ⟨[], h, List.nodup_nil, List.not_mem_nil _, by simp, Nat.le_refl _⟩
  | succ n ih =>
    intro a l hlen h
    cases h with
    | last hl hp =>
      exact ⟨[], PChain.last hl hp, List.nodup_nil, List.not_mem_nil _, by simp, Nat.zero_le _⟩
    | @step _ b _ nn l₁ hl hp htl =>
      by_cases hab : a = b
      · subst hab
        obtain ⟨l', g1, g2, g3, g4, g5⟩ := ih a l₁ (Nat.le_of_succ_le_succ hlen) htl
        exact ⟨l', g1, g2, g3, fun y hy => List.mem_cons_of_mem _ (g4 y hy),
          Nat.le_succ_of_le g5⟩
      · obtain ⟨l₁', g1, g2, g3, g4, g5⟩ := ih b l₁ (Nat.le_of_succ_le_succ hlen) htl
        by_cases ha : a ∈ l₁'
        · obtain ⟨l₂, s1, s2, s3⟩ := (PChain.step hl hp g1).chainSuffix a
            (List.mem_cons_of_mem _ ha)
          have hlen₂ : l₂.length ≤ n := by
            simp only [List.length_cons] at s2 hlen
            omega
          obtain ⟨l'', t1, t2, t3, t4, t5⟩ := ih a l₂ hlen₂ s1
          refine ⟨l'', t1, t2, t3, fun y hy => ?_, ?_⟩
          · rcases List.mem_cons.mp (s3 y (t4 y hy)) with h8 | h8
            · exact h8 ▸ List.mem_cons_self _ _
            · exact List.mem_cons_of_mem _ (g4 y h8)
          · simp only [List.length_cons] at s2 ⊢
            omega
        · refine ⟨b :: l₁', PChain.step hl hp g1, List.nodup_cons.mpr ⟨g3, g2⟩, ?_, ?_, ?_⟩
          · intro hc
            rcases List.mem_cons.mp hc with h5 | h5
            · exact hab h5
            · exact ha h5
          · intro y hy
            rcases List.mem_cons.mp hy with h5 | h5
            · exact h5 ▸ List.mem_cons_self _ _
            · exact List.mem_cons_of_mem _ (g4 y h5)
          · simp only [List.length_cons]
            omega

/-- Soundness of `hasAncestor`: a `true` answer (any fuel) exhibits a parent
chain from the node's key. -/
theorem hasAncestorF_sound {m : NodeMap} :
    ∀ fuel (n : MapNode) (a k : Point), alookup a m = some n →
      hasAncestorF m fuel n k = true → ∃ l, PChain m a l k := by
  intro fuel
  induction fuel with
  | zero => intro n a k _ h; simp [hasAncestorF] at h
  | succ fuel ih =>
    intro n a k ha h
    simp only [hasAncestorF, List.any_eq_true] at h
    obtain ⟨pk, hpk, hor⟩ := h
    rcases Bool.or_eq_true_iff.mp hor with h1 | h1
    · exact ⟨[], PChain.last ha (beq_iff_eq.mp h1 ▸ hpk)⟩
    · cases hl : alookup pk m with
      | none => rw [hl] at h1; cases h1
      | some pn =>
        rw [hl] at h1
        obtain ⟨l, hc⟩ := ih pn pk k hl h1
        exact ⟨pk :: l, PChain.step ha hpk hc⟩

/-- Completeness of `hasAncestor` along a chain whose length the fuel
covers. -/
theorem hasAncestorF_complete {m : NodeMap} {k : Point} :
    ∀ (a : Point) (l : List Point) (n : MapNode) (fuel : ℕ),
      PChain m a l k → alookup a m = some n → l.length + 1 ≤ fuel →
      hasAncestorF m fuel n k = true := by
  intro a l
  induction l generalizing a with
  | nil =>
    intro n fuel hc ha hfuel
    cases fuel with
    | zero => omega
    | succ fuel' =>
      cases hc with
      | last hl hp =>
        rw [ha] at hl
        cases hl
        simp only [hasAncestorF, List.any_eq_true]
        exact ⟨k, hp, Bool.or_eq_true_iff.mpr (Or.inl (beq_iff_eq.mpr rfl))⟩
  | cons b l₁ ih =>
    intro n fuel hc ha hfuel
    cases fuel with
    | zero => omega
    | succ fuel' =>
      cases hc with
      | step hl hp htl =>
        rw [ha] at hl
        cases hl
        simp only [hasAncestorF, List.any_eq_true]
        refine ⟨b, hp, Bool.or_eq_true_iff.mpr (Or.inr ?_)⟩
        obtain ⟨nb, hnb⟩ := Option.isSome_iff_exists.mp htl.elems_isSome.1
        rw [hnb]
        exact ih b nb _ htl hnb (by simp only [List.length_cons] at hfuel; omega)

/-- Inserting a fresh parentless node cannot create parent chains. -/
theorem pchain_of_insertFresh {m : NodeMap} {p : Point} {a k : Point} {l : List Point}
    (h : PChain (aset p (MapNode.new p) m) a l k) : PChain m a l k := by
  induction h with
  | @last a k n hl hp =>
    by_cases hap : p = a
    · subst hap
      rw [alookup_aset_self] at hl
      cases hl
      cases hp
    · rw [alookup_aset_ne _ _ hap] at hl
      exact PChain.last hl hp
  | @step a b k n l hl hp _ ih =>
    by_cases hap : p = a
    · subst hap
      rw [alookup_aset_self] at hl
      cases hl
      cases hp
    · rw [alookup_aset_ne _ _ hap] at hl
      exact PChain.step hl hp ih

/-- Chain decomposition over a registry that differs from `m` only by the
possible addition of the parent edge `testP → currK`: a chain in the new
registry is a chain of `m`, or passes through the new edge, reaching `testP`
in `m` first and continuing from `currK` in the new registry. -/
theorem pchain_decompose {m m' : NodeMap} {testP currK : Point}
    (hT : ∀ b n', alookup b m' = some n' → ∃ n, alookup b m = some n ∧
      ∀ p ∈ n'.parents, p ∈ n.parents ∨ (b = testP ∧ p = currK)) :
    ∀ {a k : Point} {l : List Point}, PChain m' a l k →
      PChain m a l k ∨
        ((a = testP ∨ ∃ l₁, PChain m a l₁ testP) ∧
         (k = currK ∨ ∃ l₂, PChain m' currK l₂ k)) := by
  intro a k l h
  induction h with
  | @last a k n' hl hp =>
    obtain ⟨n, hn, hps⟩ := hT a n' hl
    rcases hps k hp with h1 | ⟨h1, h2⟩
    · exact Or.inl (PChain.last hn h1)
    · exact Or.inr ⟨Or.inl h1, Or.inl h2⟩
  | @step a b k n' l hl hp htl ih =>
    obtain ⟨n, hn, hps⟩ := hT a n' hl
    rcases hps b hp with h1 | ⟨h1, h2⟩
    · rcases ih with h3 | ⟨h3, h4⟩
      · exact Or.inl (PChain.step hn h1 h3)
      · refine Or.inr ⟨?_, h4⟩
        rcases h3 with h3 | ⟨lb, h3⟩
        · exact Or.inr ⟨[], h3 ▸ PChain.last hn h1⟩
        · exact Or.inr ⟨b :: lb, PChain.step hn h1 h3⟩
    · exact Or.inr ⟨Or.inl h1, Or.inr ⟨l, h2 ▸ htl⟩⟩

/-- Adding the guarded parent edge keeps the registry acyclic. -/
theorem acyc_addEdge {m m' : NodeMap} {testP currK : Point}
    (hT : ∀ b n', alookup b m' = some n' → ∃ n, alookup b m = some n ∧
      ∀ p ∈ n'.parents, p ∈ n.parents ∨ (b = testP ∧ p = currK))
    (hacyc : Acyc m) (hne : testP ≠ currK)
    (hguard : ∀ l, ¬ PChain m currK l testP) : Acyc m' := by
  intro k l hchain
  rcases pchain_decompose hT hchain with h | ⟨hA, hB⟩
  · exact hacyc k l h
  · rcases hA with hA | ⟨l₁, hc1⟩
    · subst hA
      rcases hB with hB | ⟨l₂, hc2⟩
      · exact hne hB
      · rcases pchain_decompose hT hc2 with h | ⟨hA2, _⟩
        · exact hguard l₂ h
        · rcases hA2 with hA2 | ⟨lb, hc3⟩
          · exact hne hA2.symm
          · exact hguard lb hc3
    · rcases hB with hB | ⟨l₂, hc2⟩
      · exact hguard l₁ (hB ▸ hc1)
      · rcases pchain_decompose hT hc2 with h | ⟨hA2, _⟩
        · exact hguard _ (h.compose hc1)
        · rcases hA2 with hA2 | ⟨lb, hc3⟩
          · exact hne hA2.symm
          · exact hguard lb hc3

/-- A duplicate-free list of keys of `m` is no longer than `m`. -/
theorem nodup_keys_length_le {m : NodeMap} {l : List Point}
    (hnd : l.Nodup) (hmem : ∀ x ∈ l, (alookup x m).isSome) : l.length ≤ m.length := by
  have h1 : l.length = l.toFinset.card := (List.toFinset_card_of_nodup hnd).symm
  have h2 : l.toFinset ⊆ (m.map Prod.fst).toFinset := by
    intro x hx
    exact List.mem_toFinset.mpr ((alookup_isSome_iff m x).mp (hmem x (List.mem_toFinset.mp hx)))
  calc l.length = l.toFinset.card := h1
    _ ≤ (m.map Prod.fst).toFinset.card := Finset.card_le_card h2
    _ ≤ (m.map Prod.fst).length := List.toFinset_card_le _
    _ = m.length := List.length_map _ _

/-- The ancestor-cycle guard is complete: a `false` answer with fuel above
the registry size means no parent chain exists. -/
theorem no_pchain_of_guard {m : NodeMap} {currK testP : Point} {n : MapNode}
    (hl : alookup currK m = some n)
    (hguard : hasAncestorF m (m.length + 1) n testP = false) :
    ∀ l, ¬ PChain m currK l testP := by
  intro l hc
  obtain ⟨l', g1, g2, _, _, _⟩ := PChain.chainNorm l.length currK l (Nat.le_refl _) hc
  have hlen : l'.length ≤ m.length := nodup_keys_length_le g2 (fun x hx => g1.elems_isSome.2 x hx)
  have := hasAncestorF_complete currK l' n (m.length + 1) g1 hl (by omega)
  rw [hguard] at this
  cases this

theorem map_fst_aset_of_isSome {β : Type} {k : Point} {l : List (Point × β)} (v : β)
    (h : (alookup k l).isSome) : (aset k v l).map Prod.fst = l.map Prod.fst := by
  induction l with
  | nil => simp [alookup] at h
  | cons hd tl ih =>
    obtain ⟨k₀, v₀⟩ := hd
    by_cases h0 : k₀ = k
    · subst h0; simp [aset]
    · rw [alookup, if_neg h0] at h
      simp [aset, h0, ih h]

theorem map_fst_aset_of_none {β : Type} {k : Point} {l : List (Point × β)} (v : β)
    (h : alookup k l = none) : (aset k v l).map Prod.fst = l.map Prod.fst ++ [k] := by
  induction l with
  | nil => simp [aset]
  | cons hd tl ih =>
    obtain ⟨k₀, v₀⟩ := hd
    by_cases h0 : k₀ = k
    · rw [alookup, if_pos h0] at h; cases h
    · rw [alookup, if_neg h0] at h
      simp [aset, h0, ih h]

theorem mem_alookup_of_nodup {β : Type} {m : List (Point × β)} {pr : Point × β}
    (hnd : (m.map Prod.fst).Nodup) (h : pr ∈ m) : alookup pr.1 m = some pr.2 := by
  induction m with
  | nil => cases h
  | cons hd tl ih =>
    obtain ⟨k₀, v₀⟩ := hd
    rcases List.mem_cons.mp h with h1 | h1
    · subst h1; simp [alookup]
    · have hk : k₀ ≠ pr.1 := by
        intro hc
        have : pr.1 ∈ tl.map Prod.fst := List.mem_map.mpr ⟨pr, h1, rfl⟩
        simp only [List.map_cons, List.nodup_cons] at hnd
        exact hnd.1 (hc ▸ this)
      rw [alookup, if_neg hk]
      exact ih (by simp only [List.map_cons, List.nodup_cons] at hnd; exact hnd.2) h1

/-- The full invariant of the graph builder's registry. -/
structure BInv (t : Transitions) (endP : Point) (m : NodeMap) : Prop where
  nodupKeys : (m.map Prod.fst).Nodup
  keyCons : ∀ pr ∈ m, pr.2.x = pr.1.x ∧ pr.2.y = pr.1.y
  acyc : Acyc m
  routes : ∀ pr ∈ m, (pr.2.parents ≠ [] ∨ pr.2.children ≠ []) →
    ∃ l, IsTrail t [] pr.1 l endP

theorem BInv.ensure {t : Transitions} {endP : Point} {m : NodeMap}
    (h : BInv t endP m) (p : Point) : BInv t endP (builderEnsure p m) := by
  unfold builderEnsure
  cases hF : alookup p m with
  | some n => exact h
  | none =>
    refine ⟨?_, ?_, ?_, ?_⟩
    · rw [map_fst_aset_of_none _ hF]
      refine List.Nodup.append h.nodupKeys (List.nodup_singleton _) ?_
      intro x hx hx'
      rw [List.mem_singleton] at hx'
      subst hx'
      have := (alookup_isSome_iff m x).mpr hx
      rw [hF] at this
      cases this
    · intro pr hpr
      rcases mem_aset hpr with h1 | h1
      · subst h1; exact ⟨rfl, rfl⟩
      · exact h.keyCons pr h1
    · intro k l hc
      exact h.acyc k l (pchain_of_insertFresh hc)
    · intro pr hpr hlinks
      rcases mem_aset hpr with h1 | h1
      · subst h1
        rcases hlinks with h2 | h2 <;> simp [MapNode.new] at h2
      · exact h.routes pr h1 hlinks

theorem alookup_builderEnsure_isSome {p : Point} {m : NodeMap} :
    (alookup p (builderEnsure p m)).isSome := by
  unfold builderEnsure
  cases hF : alookup p m with
  | some n => simp [hF]
  | none => simp [alookup_aset_self]

theorem alookup_builderEnsure_of_isSome {p q : Point} {m : NodeMap}
    (h : (alookup q m).isSome) : alookup q (builderEnsure p m) = alookup q m := by
  unfold builderEnsure
  cases hF : alookup p m with
  | some n => rfl
  | none =>
    have hne : p ≠ q := by
      intro hc
      subst hc
      rw [hF] at h
      cases h
    exact alookup_aset_ne _ _ hne

theorem BInv.link {t : Transitions} {endP : Point} {m : NodeMap} (h : BInv t endP m)
    {currP testP : Point} {currNode : MapNode} {transPoints : List Point}
    (hcn : alookup currP m = some currNode)
    (hguard : hasAncestorF m (m.length + 1) currNode testP = false)
    (hne : testP ≠ currP)
    (htp : alookup currP t = some transPoints)
    (htmem : testP ∈ transPoints)
    (htrail : ∃ l, IsTrail t [] testP l endP) :
    BInv t endP (builderLink currP testP m) := by
  obtain ⟨refs1, hshape, hkeys1, hT1, hkc1, hrt1⟩ :
      ∃ refs1, builderLink currP testP m = aset currP (currNode.addChild testP) refs1 ∧
        refs1.map Prod.fst = m.map Prod.fst ∧
        (∀ b n', alookup b refs1 = some n' → ∃ n, alookup b m = some n ∧
          ∀ p ∈ n'.parents, p ∈ n.parents ∨ (b = testP ∧ p = currP)) ∧
        (∀ pr ∈ refs1, pr.2.x = pr.1.x ∧ pr.2.y = pr.1.y) ∧
        (∀ pr ∈ refs1, (pr.2.parents ≠ [] ∨ pr.2.children ≠ []) →
          ∃ l, IsTrail t [] pr.1 l endP) := by
    cases hT0 : alookup testP m with
    | none =>
      refine ⟨m, ?_, rfl, ?_, h.keyCons, h.routes⟩
      · unfold builderLink
        rw [hT0]
        dsimp only
        rw [hcn]
      · intro b n' hb
        exact ⟨n', hb, fun p hp => Or.inl hp⟩
    | some tn =>
      refine ⟨aset testP (tn.addParent currP) m, ?_, ?_, ?_, ?_, ?_⟩
      · unfold builderLink
        rw [hT0]
        dsimp only
        rw [alookup_aset_ne _ _ hne, hcn]
      · exact map_fst_aset_of_isSome _ (by rw [hT0]; rfl)
      · intro b n' hb
        by_cases hbt : testP = b
        · subst hbt
          rw [alookup_aset_self] at hb
          cases hb
          refine ⟨tn, hT0, ?_⟩
          intro p hp
          unfold MapNode.addParent at hp
          by_cases hpar : currP ∈ tn.parents
          · rw [if_pos hpar] at hp
            exact Or.inl hp
          · rw [if_neg hpar] at hp
            dsimp only at hp
            rcases List.mem_append.mp hp with h1 | h1
            · exact Or.inl h1
            · exact Or.inr ⟨rfl, List.mem_singleton.mp h1⟩
        · rw [alookup_aset_ne _ _ hbt] at hb
          exact ⟨n', hb, fun p hp => Or.inl hp⟩
      · intro pr hpr
        rcases mem_aset hpr with h1 | h1
        · subst h1
          have := h.keyCons (testP, tn) (alookup_mem hT0)
          unfold MapNode.addParent
          by_cases hpar : currP ∈ tn.parents
          · rw [if_pos hpar]; exact this
          · rw [if_neg hpar]; exact this
        · exact h.keyCons pr h1
      · intro pr hpr hlinks
        rcases mem_aset hpr with h1 | h1
        · subst h1
          exact htrail.imp fun l hl => hl
        · exact h.routes pr h1 hlinks
  rw [hshape]
  have hT : ∀ b n', alookup b (aset currP (currNode.addChild testP) refs1) = some n' →
      ∃ n, alookup b m = some n ∧
        ∀ p ∈ n'.parents, p ∈ n.parents ∨ (b = testP ∧ p = currP) := by
    intro b n' hb
    by_cases hbc : currP = b
    · subst hbc
      rw [alookup_aset_self] at hb
      cases hb
      refine ⟨currNode, hcn, ?_⟩
      intro p hp
      unfold MapNode.addChild at hp
      by_cases hch : testP ∈ currNode.children
      · rw [if_pos hch] at hp; exact Or.inl hp
      · rw [if_neg hch] at hp; exact Or.inl hp
    · rw [alookup_aset_ne _ _ hbc] at hb
      exact hT1 b n' hb
  refine ⟨?_, ?_, ?_, ?_⟩
  · have hsome1 : (alookup currP refs1).isSome := by
      rw [alookup_isSome_iff, hkeys1, ← alookup_isSome_iff, hcn]
      rfl
    rw [map_fst_aset_of_isSome _ hsome1, hkeys1]
    exact h.nodupKeys
  · intro pr hpr
    rcases mem_aset hpr with h1 | h1
    · subst h1
      have := h.keyCons (currP, currNode) (alookup_mem hcn)
      unfold MapNode.addChild
      by_cases hch : testP ∈ currNode.children
      · rw [if_pos hch]; exact this
      · rw [if_neg hch]; exact this
    · exact hkc1 pr h1
  · exact acyc_addEdge hT h.acyc hne (no_pchain_of_guard hcn hguard)
  · intro pr hpr hlinks
    rcases mem_aset hpr with h1 | h1
    · subst h1
      obtain ⟨ltr, hltr⟩ := htrail
      exact ⟨testP :: ltr, IsTrail.cons htp htmem (List.not_mem_nil _) hltr⟩
    · exact hrt1 pr h1 hlinks

theorem builderVisit_inv {t : Transitions} {endP currP : Point} {transPoints : List Point}
    (hslf : SelfLoopFree t) (htp : alookup currP t = some transPoints) :
    ∀ (ps : List Point) (refs : NodeMap) (queue : List Point) (refs' : NodeMap)
      (queue' : List Point),
      (∀ p ∈ ps, p ∈ transPoints) → BInv t endP refs →
      builderVisit t endP currP ps refs queue = some (refs', queue') →
      BInv t endP refs' := by
  intro ps
  induction ps with
  | nil =>
    intro refs queue refs' queue' _ hinv h
    rw [builderVisit] at h
    cases h
    exact hinv
  | cons testP rest ih =>
    intro refs queue refs' queue' hmem hinv h
    simp only [builderVisit] at h
    have hinv0 : BInv t endP (builderEnsure testP refs) := hinv.ensure testP
    cases hC : alookup currP (builderEnsure testP refs) with
    | none =>
      rw [hC] at h
      dsimp only at h
      cases h
      exact hinv0
    | some currNode =>
      rw [hC] at h
      dsimp only at h
      by_cases hg : hasAncestorF (builderEnsure testP refs)
          ((builderEnsure testP refs).length + 1) currNode testP
      · rw [if_pos hg] at h
        exact ih _ _ _ _ (fun p hp => hmem p (List.mem_cons_of_mem _ hp)) hinv0 h
      · rw [if_neg hg] at h
        cases hcr : canReachEnd t testP endP
            (getAncestorsF (builderEnsure testP refs)
              ((builderEnsure testP refs).length + 1) currNode ++ [currP]) with
        | none => rw [hcr] at h; cases h
        | some res =>
          obtain ⟨b, hh⟩ := res
          cases b with
          | false =>
            rw [hcr] at h
            exact ih _ _ _ _ (fun p hp => hmem p (List.mem_cons_of_mem _ hp)) hinv0 h
          | true =>
            rw [hcr] at h
            have htmem : testP ∈ transPoints := hmem testP (List.mem_cons_self _ _)
            have hne : testP ≠ currP := by
              intro hc
              exact hslf (currP, transPoints) (alookup_mem htp) (hc ▸ htmem)
            have htrail : ∃ l, IsTrail t [] testP l endP := by
              obtain ⟨l, hl⟩ := canReachEndF_true_trail t endP _ testP _ hh hcr
              exact ⟨l, hl.mono rfl (fun x hx => absurd hx (List.not_mem_nil x))⟩
            exact ih _ _ _ _ (fun p hp => hmem p (List.mem_cons_of_mem _ hp))
              (hinv0.link hC (Bool.eq_false_iff.mpr hg) hne htp htmem htrail) h

theorem builderLoop_inv {t : Transitions} {endP : Point} (hslf : SelfLoopFree t) :
    ∀ (fuel : ℕ) (refs : NodeMap) (queue : List Point) (m : NodeMap),
      BInv t endP refs → builderLoop t endP fuel refs queue = some m →
      BInv t endP m := by
  intro fuel
  induction fuel with
  | zero => intro refs queue m _ h; cases h
  | succ fuel ih =>
    intro refs queue m hinv h
    rw [builderLoop.eq_def] at h
    dsimp only at h
    cases queue with
    | nil => cases h; exact hinv
    | cons currP restQ =>
      dsimp only at h
      cases hC : alookup currP refs with
      | none => rw [hC] at h; cases h; exact hinv
      | some currNode =>
        rw [hC] at h
        dsimp only at h
        cases hT : alookup currNode.key t with
        | none => rw [hT] at h; cases h
        | some transPoints =>
          rw [hT] at h
          dsimp only at h
          have hkey : currNode.key = currP := by
            obtain ⟨hx, hy⟩ := hinv.keyCons (currP, currNode) (alookup_mem hC)
            unfold MapNode.key
            cases currP
            simp only at hx hy
            rw [hx, hy]
          cases hV : builderVisit t endP currP transPoints refs restQ with
          | none => rw [hV] at h; cases h
          | some res =>
            obtain ⟨refs'', queue''⟩ := res
            rw [hV] at h
            exact ih refs'' queue'' m
              (builderVisit_inv hslf (hkey ▸ hT) transPoints refs restQ refs'' queue''
                (fun p hp => hp) hinv hV) h

/-- A registry whose nodes all have empty parent lists has no parent chains. -/
theorem acyc_of_no_parents {m : NodeMap} (h : ∀ pr ∈ m, pr.2.parents = []) : Acyc m := by
  intro k l hc
  cases hc with
  | last hl hp => exact absurd (h _ (alookup_mem hl) ▸ hp) (List.not_mem_nil _)
  | step hl hp _ => exact absurd (h _ (alookup_mem hl) ▸ hp) (List.not_mem_nil _)

theorem BInv.init (t : Transitions) (endP start : Point) :
    BInv t endP (aset endP (MapNode.new endP) (aset start (MapNode.new start) [])) := by
  have hmem : ∀ pr ∈ aset endP (MapNode.new endP) (aset start (MapNode.new start) []),
      pr = (endP, MapNode.new endP) ∨ pr = (start, MapNode.new start) := by
    intro pr hpr
    rcases mem_aset hpr with h1 | h1
    · exact Or.inl h1
    · rcases mem_aset h1 with h2 | h2
      · exact Or.inr h2
      · cases h2
  refine ⟨?_, ?_, ?_, ?_⟩
  · show ((aset endP (MapNode.new endP) (aset start (MapNode.new start) [])).map
      Prod.fst).Nodup
    by_cases hse : start = endP
    · subst hse
      simp [aset]
    · simp [aset, hse, Ne.symm hse]
  · intro pr hpr
    rcases hmem pr hpr with h1 | h1 <;> (subst h1; exact ⟨rfl, rfl⟩)
  · apply acyc_of_no_parents
    intro pr hpr
    rcases hmem pr hpr with h1 | h1 <;> (subst h1; rfl)
  · intro pr hpr hlinks
    rcases hmem pr hpr with h1 | h1 <;>
      (subst h1; rcases hlinks with h2 | h2 <;> simp [MapNode.new] at h2)

/-- C4: for every start, end, and transition table built from one or more
simple paths, whatever registry the graph builder returns is ancestor-acyclic
(`hasAncestor` of a node's own key is `false` for every node, at every fuel),
and every node that received a parent or child link has a route to the end
within the original transition table. -/
theorem C4_nodesFromTransitions_acyclic_routed
    (start endP : Point) (t : Transitions) (hbuilt : BuiltFromPaths t)
    (fuel : ℕ) (m : NodeMap) (h : nodesFromTransitions start endP t fuel = some m) :
    (∀ pr ∈ m, ∀ fuel2, hasAncestorF m fuel2 pr.2 pr.1 = false) ∧
    (∀ pr ∈ m, (pr.2.parents ≠ [] ∨ pr.2.children ≠ []) →
      ∃ l, IsTrail t [] pr.1 l endP) := by
  have hinv : BInv t endP m :=
    builderLoop_inv hbuilt.selfLoopFree fuel _ [start] m (BInv.init t endP start) h
  constructor
  · intro pr hpr fuel2
    rw [Bool.eq_false_iff]
    intro htrue
    obtain ⟨l, hc⟩ := hasAncestorF_sound fuel2 pr.2 pr.1 pr.1
      (mem_alookup_of_nodup hinv.nodupKeys hpr) htrue
    exact hinv.acyc pr.1 l hc
  · exact hinv.routes

/-- The concrete transition table of the specification's scenario 6:
`{(0,0): [(1,1)], (1,1): [(0,0),(2,2)], (2,2): [(1,1)]}`. -/
def tChain : Transitions :=
  [(⟨0, 0⟩, [⟨1, 1⟩]), (⟨1, 1⟩, [⟨0, 0⟩, ⟨2, 2⟩]), (⟨2, 2⟩, [⟨1, 1⟩])]

theorem tChain_built : BuiltFromPaths tChain :=
  ⟨[[⟨0, 0⟩, ⟨1, 1⟩, ⟨2, 2⟩]], by decide, by decide, by decide⟩

/-- The registry the builder produces on `tChain`. -/
def mChain : NodeMap :=
  [(⟨0, 0⟩, { x := 0, y := 0, distSinceFight := -1, isBoss := false, portrait := false,
              parents := [], children := [⟨1, 1⟩] }),
   (⟨2, 2⟩, { x := 2, y := 2, distSinceFight := -1, isBoss := false, portrait := false,
              parents := [⟨1, 1⟩], children := [] }),
   (⟨1, 1⟩, { x := 1, y := 1, distSinceFight := -1, isBoss := false, portrait := false,
              parents := [⟨0, 0⟩], children := [⟨2, 2⟩] })]

/-- Witness for C4 at the concrete scenario-6 input. -/
theorem C4_nodesFromTransitions_witness :
    BuiltFromPaths tChain ∧
    nodesFromTransitions ⟨0, 0⟩ ⟨2, 2⟩ tChain 20 = some mChain ∧
    hasAncestorF mChain 7
      { x := 1, y := 1, distSinceFight := -1, isBoss := false, portrait := false,
        parents := [⟨0, 0⟩], children := [⟨2, 2⟩] } ⟨1, 1⟩ = false :=
  ⟨tChain_built, by decide,
    (C4_nodesFromTransitions_acyclic_routed ⟨0, 0⟩ ⟨2, 2⟩ tChain tChain_built 20 mChain
        (by decide)).1
      (⟨1, 1⟩, { x := 1, y := 1, distSinceFight := -1, isBoss := false, portrait := false,
                 parents := [⟨0, 0⟩], children := [⟨2, 2⟩] })
      (by decide) 7⟩

/-!
## Staging: `buildAnimationSteps` (`src/index.ts`, lines 342–429)

The level-synchronous reveal loop.  `PathSegment`s are modelled as ordered
key pairs compared undirectedly by `containsPath`.  The `Math.random()` draw
of each encounter check is `rand i` for the `i`-th draw made; fetching a
portrait is modelled by the `portrait` flag (the portrait image itself is an
external asset irrelevant to the claims).
-/

/-- `containsPath(paths, path)`: does the array contain the segment or its
reverse? -/
def containsPath (paths : List (Point × Point)) (p : Point × Point) : Bool :=
  paths.any fun q => (q.1 == p.1 && q.2 == p.2) || (q.2 == p.1 && q.1 == p.2)

/-- `unique(ary, equals)` from `src/helpers.ts`: keep first occurrences. -/
def uniqueGo (acc : List Point) : List Point → List Point
  | [] => acc
  | x :: xs => if acc.contains x then uniqueGo acc xs else uniqueGo (acc ++ [x]) xs

def uniqueList (l : List Point) : List Point := uniqueGo [] l

/-- Lines 402–419: one relaxation of a `(parent, child)` pair.  Returns the
updated child and whether a random draw was consumed.  The child is touched
only when its `distSinceFight` is unresolved (−1) or exceeds
`parent.distSinceFight + 1`; then with draw `r`: a fight (distance 0, fetch a
portrait) when `r < 0.1 * parent.distSinceFight + 0.1`, otherwise distance
`max(parent.distSinceFight + 1, 1)`. -/
def relaxChild (parentDist : Int) (child : MapNode) (r : ℚ) : MapNode × Bool :=
  if child.distSinceFight = -1 ∨ parentDist + 1 < child.distSinceFight then
    if r < (parentDist : ℚ) / 10 + 1 / 10 then
      ({ child with distSinceFight := 0, portrait := true }, true)
    else
      ({ child with distSinceFight := max (parentDist + 1) 1 }, true)
  else (child, false)

/-- The `for (let childNode of currentNode.getChildren())` loop for one
parent `cnKey`: collects this parent's new child nodes, adds missing path
segments, and relaxes each child.  `flatN`/`flatP` are the flattened
committed batches (constant during a sweep, as in the source where the
commits happen before the sweep). -/
def visitChildren (flatN : List Point) (flatP : List (Point × Point)) (cnKey : Point)
    (rand : ℕ → ℚ) :
    List Point → NodeMap → List (Point × Point) → List Point → ℕ →
    NodeMap × List (Point × Point) × List Point × ℕ
  | [], nodes, curPaths, childAcc, ridx => (nodes, curPaths, childAcc, ridx)
  | ck :: rest, nodes, curPaths, childAcc, ridx =>
    let childAcc1 := if flatN.contains ck || childAcc.contains ck then childAcc
                     else childAcc ++ [ck]
    let curPaths1 := if containsPath flatP (cnKey, ck) || containsPath curPaths (cnKey, ck)
                     then curPaths else curPaths ++ [(cnKey, ck)]
    match alookup cnKey nodes, alookup ck nodes with
    | some cn, some child =>
      let rc := relaxChild cn.distSinceFight child (rand ridx)
      if rc.2 then
        visitChildren flatN flatP cnKey rand rest (aset ck rc.1 nodes) curPaths1 childAcc1
          (ridx + 1)
      else
        visitChildren flatN flatP cnKey rand rest nodes curPaths1 childAcc1 ridx
    | _, _ => visitChildren flatN flatP cnKey rand rest nodes curPaths1 childAcc1 ridx

/-- The `currentNodes.map(...)` sweep: visit every current node in order,
threading the registry, the in-progress path batch and the draw index, and
concatenating the per-parent child lists (`.flat()`). -/
def processRound (flatN : List Point) (flatP : List (Point × Point)) (rand : ℕ → ℚ) :
    List Point → NodeMap → List (Point × Point) → ℕ →
    NodeMap × List (Point × Point) × List Point × ℕ
  | [], nodes, curPaths, ridx => (nodes, curPaths, [], ridx)
  | cn :: rest, nodes, curPaths, ridx =>
    match alookup cn nodes with
    | none => processRound flatN flatP rand rest nodes curPaths ridx
    | some cnode =>
      let v := visitChildren flatN flatP cn rand cnode.children nodes curPaths [] ridx
      let w := processRound flatN flatP rand rest v.1 v.2.1 v.2.2.2
      (w.1, w.2.1, v.2.2.1 ++ w.2.2.1, w.2.2.2)

/-- The staging state: the node registry, the committed batches, the batch
under construction, and the next draw index. -/
structure StageState where
  nodes : NodeMap
  stepsNodes : List (List Point)
  stepsPaths : List (List (Point × Point))
  cur : List Point
  curPaths : List (Point × Point)
  ridx : ℕ
deriving DecidableEq, Repr

/-- One iteration of the staging `while` loop: commit the current node and
path batches, then sweep the committed current nodes for children, and
deduplicate the next node batch. -/
def stageStep (rand : ℕ → ℚ) (s : StageState) : StageState :=
  let stepsNodes1 := s.stepsNodes ++ [s.cur]
  let stepsPaths1 := s.stepsPaths ++ [s.curPaths]
  let flatN := stepsNodes1.flatten
  let flatP := stepsPaths1.flatten
  let p := processRound flatN flatP rand s.cur s.nodes [] s.ridx
  { nodes := p.1, stepsNodes := stepsNodes1, stepsPaths := stepsPaths1,
    cur := uniqueList p.2.2.1, curPaths := p.2.1, ridx := p.2.2.2 }

/-- The fuelled staging loop: stop when both the node and the path batch
under construction are empty (`while (currentNodes.length > 0 ||
currentPaths.length > 0)`). -/
def stageLoop (rand : ℕ → ℚ) : ℕ → StageState → Option StageState
  | 0, _ => none
  | fuel + 1, s =>
    if s.cur = [] ∧ s.curPaths = [] then some s
    else stageLoop rand fuel (stageStep rand s)

/-- Lines 347–353: `startNode.distSinceFight = 1`; the end node becomes the
boss encounter (`distSinceFight = 0`, `isBoss`, portrait fetched).  Reading a
missing node would throw, hence `Option`. -/
def stageInit (nodes : NodeMap) (start endP : Point) : Option NodeMap :=
  match alookup start nodes with
  | none => none
  | some sn =>
    let nodes1 := aset start { sn with distSinceFight := 1 } nodes
    match alookup endP nodes1 with
    | none => none
    | some en =>
      some (aset endP { en with distSinceFight := 0, isBoss := true, portrait := true } nodes1)

/-- The staging phase of `buildAnimationSteps`, starting from an already
built node registry: returns the node batches, the path batches, and the
final registry. -/
def stagingRun (nodes : NodeMap) (start endP : Point) (rand : ℕ → ℚ) (fuel : ℕ) :
    Option (List (List Point) × List (List (Point × Point)) × NodeMap) :=
  match stageInit nodes start endP with
  | none => none
  | some nodes0 =>
    match stageLoop rand fuel
        { nodes := nodes0, stepsNodes := [], stepsPaths := [], cur := [start],
          curPaths := [], ridx := 0 } with
    | none => none
    | some s => some (s.stepsNodes, s.stepsPaths, s.nodes)

/-- `buildAnimationSteps(start, end, transitions)`: build the node graph,
then stage it. -/
def buildAnimationSteps (start endP : Point) (t : Transitions) (rand : ℕ → ℚ)
    (fuelB fuelS : ℕ) :
    Option (List (List Point) × List (List (Point × Point)) × NodeMap) :=
  match nodesFromTransitions start endP t fuelB with
  | none => none
  | some nodes => stagingRun nodes start endP rand fuelS

theorem stageLoop_go (rand : ℕ → ℚ) (fuel : ℕ) (s : StageState)
    (hne : ¬(s.cur = [] ∧ s.curPaths = [])) :
    stageLoop rand (fuel + 1) s = stageLoop rand fuel (stageStep rand s) := by
  rw [stageLoop, if_neg hne]

theorem stageLoop_done (rand : ℕ → ℚ) (fuel : ℕ) (s : StageState)
    (he : s.cur = [] ∧ s.curPaths = []) :
    stageLoop rand (fuel + 1) s = some s := by
  rw [stageLoop, if_pos he]

/-! Concrete states of the scenario-6 staging run. -/

def c9p00 : Point := ⟨0, 0⟩
def c9p11 : Point := ⟨1, 1⟩
def c9p22 : Point := ⟨2, 2⟩

def c9n00 : MapNode :=
  { x := 0, y := 0, distSinceFight := 1, isBoss := false, portrait := false,
    parents := [], children := [c9p11] }
def c9n22 : MapNode :=
  { x := 2, y := 2, distSinceFight := 0, isBoss := true, portrait := true,
    parents := [c9p11], children := [] }
def c9n11 : MapNode :=
  { x := 1, y := 1, distSinceFight := -1, isBoss := false, portrait := false,
    parents := [c9p00], children := [c9p22] }

def c9nodes0 : NodeMap := [(c9p00, c9n00), (c9p22, c9n22), (c9p11, c9n11)]

def c9s0 : StageState :=
  { nodes := c9nodes0, stepsNodes := [], stepsPaths := [], cur := [c9p00],
    curPaths := [], ridx := 0 }

/-- The `(1,1)` node after its relaxation: fight drawn. -/
def c9n11f : MapNode :=
  { x := 1, y := 1, distSinceFight := 0, isBoss := false, portrait := true,
    parents := [c9p00], children := [c9p22] }

/-- The `(1,1)` node after its relaxation: no fight drawn. -/
def c9n11n : MapNode :=
  { x := 1, y := 1, distSinceFight := 2, isBoss := false, portrait := false,
    parents := [c9p00], children := [c9p22] }

def c9s1 (n11 : MapNode) : StageState :=
  { nodes := [(c9p00, c9n00), (c9p22, c9n22), (c9p11, n11)],
    stepsNodes := [[c9p00]], stepsPaths := [[]],
    cur := [c9p11], curPaths := [(c9p00, c9p11)], ridx := 1 }

def c9s2 (n11 : MapNode) : StageState :=
  { nodes := [(c9p00, c9n00), (c9p22, c9n22), (c9p11, n11)],
    stepsNodes := [[c9p00], [c9p11]], stepsPaths := [[], [(c9p00, c9p11)]],
    cur := [c9p22], curPaths := [(c9p11, c9p22)], ridx := 1 }

def c9s3 (n11 : MapNode) : StageState :=
  { nodes := [(c9p00, c9n00), (c9p22, c9n22), (c9p11, n11)],
    stepsNodes := [[c9p00], [c9p11], [c9p22]],
    stepsPaths := [[], [(c9p00, c9p11)], [(c9p11, c9p22)]],
    cur := [], curPaths := [], ridx := 1 }

theorem c9_first_step_fight (rand : ℕ → ℚ)
    (h0 : rand 0 < ((1 : Int) : ℚ) / 10 + 1 / 10) :
    stageStep rand c9s0 = c9s1 c9n11f := by
  have hrc : relaxChild 1 c9n11 (rand 0) = (c9n11f, true) := by
    rw [relaxChild, if_pos (show c9n11.distSinceFight = -1 ∨ (1 : Int) + 1 < c9n11.distSinceFight
      from Or.inl rfl), if_pos h0]
    rfl
  have hv : visitChildren [c9p00] [] c9p00 rand [c9p11] c9nodes0 [] [] 0 =
      ([(c9p00, c9n00), (c9p22, c9n22), (c9p11, c9n11f)], [(c9p00, c9p11)], [c9p11], 1) := by
    rw [visitChildren]
    rw [show alookup c9p00 c9nodes0 = some c9n00 from rfl,
        show alookup c9p11 c9nodes0 = some c9n11 from rfl]
    dsimp only
    rw [show c9n00.distSinceFight = 1 from rfl, hrc]
    rfl
  rw [stageStep]
  rw [show (c9s0.stepsNodes ++ [c9s0.cur]).flatten = [c9p00] from rfl,
      show (c9s0.stepsPaths ++ [c9s0.curPaths]).flatten = [] from rfl]
  rw [show c9s0.cur = [c9p00] from rfl, show c9s0.nodes = c9nodes0 from rfl,
      show c9s0.ridx = 0 from rfl]
  rw [processRound]
  rw [show alookup c9p00 c9nodes0 = some c9n00 from rfl]
  dsimp only
  rw [show c9n00.children = [c9p11] from rfl, hv]
  rfl

theorem c9_first_step_nofight (rand : ℕ → ℚ)
    (h0 : ¬ rand 0 < ((1 : Int) : ℚ) / 10 + 1 / 10) :
    stageStep rand c9s0 = c9s1 c9n11n := by
  have hrc : relaxChild 1 c9n11 (rand 0) = (c9n11n, true) := by
    rw [relaxChild, if_pos (show c9n11.distSinceFight = -1 ∨ (1 : Int) + 1 < c9n11.distSinceFight
      from Or.inl rfl), if_neg h0]
    rfl
  have hv : visitChildren [c9p00] [] c9p00 rand [c9p11] c9nodes0 [] [] 0 =
      ([(c9p00, c9n00), (c9p22, c9n22), (c9p11, c9n11n)], [(c9p00, c9p11)], [c9p11], 1) := by
    rw [visitChildren]
    rw [show alookup c9p00 c9nodes0 = some c9n00 from rfl,
        show alookup c9p11 c9nodes0 = some c9n11 from rfl]
    dsimp only
    rw [show c9n00.distSinceFight = 1 from rfl, hrc]
    rfl
  rw [stageStep]
  rw [show (c9s0.stepsNodes ++ [c9s0.cur]).flatten = [c9p00] from rfl,
      show (c9s0.stepsPaths ++ [c9s0.curPaths]).flatten = [] from rfl]
  rw [show c9s0.cur = [c9p00] from rfl, show c9s0.nodes = c9nodes0 from rfl,
      show c9s0.ridx = 0 from rfl]
  rw [processRound]
  rw [show alookup c9p00 c9nodes0 = some c9n00 from rfl]
  dsimp only
  rw [show c9n00.children = [c9p11] from rfl, hv]
  rfl

theorem c9_staging_of_first (rand : ℕ → ℚ) (n11 : MapNode)
    (hs1 : stageStep rand c9s0 = c9s1 n11)
    (hs2 : stageStep rand (c9s1 n11) = c9s2 n11)
    (hs3 : stageStep rand (c9s2 n11) = c9s3 n11) :
    stagingRun mChain c9p00 c9p22 rand 20 = some
      ([[c9p00], [c9p11], [c9p22]], [[], [(c9p00, c9p11)], [(c9p11, c9p22)]],
       [(c9p00, c9n00), (c9p22, c9n22), (c9p11, n11)]) := by
  have hloop : stageLoop rand 20 c9s0 = some (c9s3 n11) := by
    calc stageLoop rand 20 c9s0
        = stageLoop rand 19 (stageStep rand c9s0) := stageLoop_go rand 19 c9s0 (by decide)
      _ = stageLoop rand 19 (c9s1 n11) := by rw [hs1]
      _ = stageLoop rand 18 (stageStep rand (c9s1 n11)) :=
          stageLoop_go rand 18 (c9s1 n11) (by simp [c9s1])
      _ = stageLoop rand 18 (c9s2 n11) := by rw [hs2]
      _ = stageLoop rand 17 (stageStep rand (c9s2 n11)) :=
          stageLoop_go rand 17 (c9s2 n11) (by simp [c9s2])
      _ = stageLoop rand 17 (c9s3 n11) := by rw [hs3]
      _ = some (c9s3 n11) := stageLoop_done rand 16 (c9s3 n11) (by simp [c9s3])
  calc stagingRun mChain c9p00 c9p22 rand 20
      = (match stageLoop rand 20 c9s0 with
         | none => none
         | some s => some (s.stepsNodes, s.stepsPaths, s.nodes)) := rfl
    _ = some ([[c9p00], [c9p11], [c9p22]], [[], [(c9p00, c9p11)], [(c9p11, c9p22)]],
        [(c9p00, c9n00), (c9p22, c9n22), (c9p11, n11)]) := by
        rw [hloop]
        rfl

/-- C9: on the transition table `{(0,0): [(1,1)], (1,1): [(0,0),(2,2)],
(2,2): [(1,1)]}` with start `(0,0)` and end `(2,2)`, graph building produces
exactly the three-node chain `mChain` (so `(0,0).children = [(1,1)]` and
`(1,1).children = [(2,2)]`), and staging that graph — whatever the random
draws — produces node batches `[[(0,0)], [(1,1)], [(2,2)]]` and edge batches
`[[], [(0,0)-(1,1)], [(1,1)-(2,2)]]`. -/
theorem C9_concrete_scenario (rand : ℕ → ℚ) :
    nodesFromTransitions c9p00 c9p22 tChain 20 = some mChain ∧
    ∃ finalNodes, buildAnimationSteps c9p00 c9p22 tChain rand 20 20 = some
      ([[c9p00], [c9p11], [c9p22]], [[], [(c9p00, c9p11)], [(c9p11, c9p22)]],
       finalNodes) := by
  refine ⟨by decide, ?_⟩
  have hb : ∀ res, stagingRun mChain c9p00 c9p22 rand 20 = res →
      buildAnimationSteps c9p00 c9p22 tChain rand 20 20 = res := by
    intro res hres
    calc buildAnimationSteps c9p00 c9p22 tChain rand 20 20
        = stagingRun mChain c9p00 c9p22 rand 20 := rfl
      _ = res := hres
  by_cases h0 : rand 0 < ((1 : Int) : ℚ) / 10 + 1 / 10
  · exact ⟨_, hb _ (c9_staging_of_first rand c9n11f (c9_first_step_fight rand h0) rfl rfl)⟩
  · exact ⟨_, hb _ (c9_staging_of_first rand c9n11n (c9_first_step_nofight rand h0) rfl rfl)⟩

/-!
## Staging invariants (C6, C7, C10)
-/

/-- The children list recorded for a key (empty when the key is absent). -/
def childrenOf (m : NodeMap) (k : Point) : List Point :=
  ((alookup k m).map MapNode.children).getD []

/-- Reachability from `start` along child links. -/
def Reach (m : NodeMap) (s k : Point) : Prop :=
  Relation.ReflTransGen (fun a b => b ∈ childrenOf m a) s k

/-- Undirected equality of path segments. -/
def sameEdge (p q : Point × Point) : Prop :=
  (p.1 = q.1 ∧ p.2 = q.2) ∨ (p.1 = q.2 ∧ p.2 = q.1)

instance (p q : Point × Point) : Decidable (sameEdge p q) := by
  unfold sameEdge
  infer_instance

theorem sameEdge_symm {p q : Point × Point} (h : sameEdge p q) : sameEdge q p := by
  rcases h with ⟨h1, h2⟩ | ⟨h1, h2⟩
  · exact Or.inl ⟨h1.symm, h2.symm⟩
  · exact Or.inr ⟨h2.symm, h1.symm⟩

theorem sameEdge_trans {p q r : Point × Point} (h1 : sameEdge p q) (h2 : sameEdge q r) :
    sameEdge p r := by
  rcases h1 with ⟨a1, a2⟩ | ⟨a1, a2⟩ <;> rcases h2 with ⟨b1, b2⟩ | ⟨b1, b2⟩
  · exact Or.inl ⟨a1.trans b1, a2.trans b2⟩
  · exact Or.inr ⟨a1.trans b1, a2.trans b2⟩
  · exact Or.inr ⟨a1.trans b2, a2.trans b1⟩
  · exact Or.inl ⟨a1.trans b2, a2.trans b1⟩

theorem containsPath_iff (paths : List (Point × Point)) (p : Point × Point) :
    containsPath paths p = true ↔ ∃ q ∈ paths, sameEdge q p := by
  unfold containsPath sameEdge
  rw [List.any_eq_true]
  constructor
  · rintro ⟨q, hq, hb⟩
    refine ⟨q, hq, ?_⟩
    rcases Bool.or_eq_true_iff.mp hb with h | h
    · rcases Bool.and_eq_true_iff.mp h with ⟨h1, h2⟩
      exact Or.inl ⟨beq_iff_eq.mp h1, beq_iff_eq.mp h2⟩
    · rcases Bool.and_eq_true_iff.mp h with ⟨h1, h2⟩
      exact Or.inr ⟨beq_iff_eq.mp h2, beq_iff_eq.mp h1⟩
  · rintro ⟨q, hq, hs | hs⟩
    · exact ⟨q, hq, Bool.or_eq_true_iff.mpr (Or.inl (Bool.and_eq_true_iff.mpr
        ⟨beq_iff_eq.mpr hs.1, beq_iff_eq.mpr hs.2⟩))⟩
    · exact ⟨q, hq, Bool.or_eq_true_iff.mpr (Or.inr (Bool.and_eq_true_iff.mpr
        ⟨beq_iff_eq.mpr hs.2, beq_iff_eq.mpr hs.1⟩))⟩

theorem uniqueGo_mem {acc l : List Point} :
    ∀ k, k ∈ uniqueGo acc l → k ∈ acc ∨ k ∈ l := by
  induction l generalizing acc with
  | nil => intro k h; exact Or.inl h
  | cons x xs ih =>
    intro k h
    rw [uniqueGo] at h
    by_cases hc : acc.contains x
    · rw [if_pos hc] at h
      rcases ih k h with h1 | h1
      · exact Or.inl h1
      · exact Or.inr (List.mem_cons_of_mem _ h1)
    · rw [if_neg hc] at h
      rcases ih k h with h1 | h1
      · rcases List.mem_append.mp h1 with h2 | h2
        · exact Or.inl h2
        · exact Or.inr ((List.mem_singleton.mp h2) ▸ List.mem_cons_self _ _)
      · exact Or.inr (List.mem_cons_of_mem _ h1)

theorem uniqueGo_nodup {acc l : List Point} (hacc : acc.Nodup) :
    (uniqueGo acc l).Nodup := by
  induction l generalizing acc with
  | nil => exact hacc
  | cons x xs ih =>
    rw [uniqueGo]
    by_cases hc : acc.contains x
    · rw [if_pos hc]
      exact ih hacc
    · rw [if_neg hc]
      refine ih ?_
      refine List.Nodup.append hacc (List.nodup_singleton _) ?_
      intro y hy hy'
      rw [List.mem_singleton] at hy'
      subst hy'
      exact hc (List.elem_iff.mpr hy)

theorem uniqueList_mem {l : List Point} : ∀ k, k ∈ uniqueList l → k ∈ l := by
  intro k h
  rcases uniqueGo_mem k h with h1 | h1
  · cases h1
  · exact h1

theorem uniqueList_nodup (l : List Point) : (uniqueList l).Nodup :=
  uniqueGo_nodup List.nodup_nil

/-- The staging-invariant skeleton of a registry entry: everything the batch
structure depends on (key, children) plus the boss flag. -/
def nodeSkel (pr : Point × MapNode) : Point × List Point × Bool :=
  (pr.1, pr.2.children, pr.2.isBoss)

def distOf (m : NodeMap) (k : Point) : Option Int :=
  (alookup k m).map MapNode.distSinceFight

theorem skel_lookup {m₁ m₂ : NodeMap} (h : m₁.map nodeSkel = m₂.map nodeSkel) (k : Point) :
    (alookup k m₁).map (fun n => (n.children, n.isBoss)) =
    (alookup k m₂).map (fun n => (n.children, n.isBoss)) := by
  induction m₁ generalizing m₂ with
  | nil =>
    cases m₂ with
    | nil => rfl
    | cons hd tl => cases h
  | cons hd₁ tl₁ ih =>
    cases m₂ with
    | nil => cases h
    | cons hd₂ tl₂ =>
      simp only [List.map_cons, List.cons.injEq] at h
      obtain ⟨hhd, htl⟩ := h
      obtain ⟨k₁, n₁⟩ := hd₁
      obtain ⟨k₂, n₂⟩ := hd₂
      unfold nodeSkel at hhd
      simp only [Prod.mk.injEq] at hhd
      obtain ⟨hk, hc, hb⟩ := hhd
      subst hk
      by_cases hkk : k₁ = k
      · simp only [alookup, if_pos hkk]
        simp [hc, hb]
      · simp only [alookup, if_neg hkk]
        exact ih htl

theorem childrenOf_eq_of_skel {m₁ m₂ : NodeMap}
    (h : m₁.map nodeSkel = m₂.map nodeSkel) (k : Point) :
    childrenOf m₁ k = childrenOf m₂ k := by
  have := skel_lookup h k
  unfold childrenOf
  cases h₁ : alookup k m₁ with
  | none =>
    cases h₂ : alookup k m₂ with
    | none => rfl
    | some n₂ => rw [h₁, h₂] at this; cases this
  | some n₁ =>
    cases h₂ : alookup k m₂ with
    | none => rw [h₁, h₂] at this; cases this
    | some n₂ =>
      rw [h₁, h₂] at this
      have h3 : n₁.children = n₂.children := by
        have := congrArg (fun o => (o.map Prod.fst).getD []) this
        simpa using this
      exact congrArg (fun l => (Option.map MapNode.children (some l
        )).getD []) rfl |>.trans (by simp [h3])

theorem skel_aset {m : NodeMap} {k : Point} {n n' : MapNode}
    (hl : alookup k m = some n) (hc : n'.children = n.children) (hb : n'.isBoss = n.isBoss) :
    (aset k n' m).map nodeSkel = m.map nodeSkel := by
  induction m with
  | nil => cases hl
  | cons hd tl ih =>
    obtain ⟨k₀, n₀⟩ := hd
    by_cases h0 : k₀ = k
    · subst h0
      rw [alookup, if_pos rfl, Option.some.injEq] at hl
      subst hl
      rw [aset, if_pos rfl]
      simp only [List.map_cons]
      rw [show nodeSkel (k₀, n') = nodeSkel (k₀, n₀) from by simp [nodeSkel, hc, hb]]
    · rw [alookup, if_neg h0] at hl
      rw [aset, if_neg h0]
      simp only [List.map_cons]
      rw [ih hl]

theorem distOf_aset_ne {m : NodeMap} {k k' : Point} {n : MapNode} (h : k ≠ k') :
    distOf (aset k n m) k' = distOf m k' := by
  unfold distOf
  rw [alookup_aset_ne _ _ h]

theorem relaxChild_skel (d : Int) (c : MapNode) (r : ℚ) :
    (relaxChild d c r).1.children = c.children ∧ (relaxChild d c r).1.isBoss = c.isBoss ∧
    (relaxChild d c r).1.parents = c.parents := by
  rw [relaxChild]
  by_cases h1 : c.distSinceFight = -1 ∨ d + 1 < c.distSinceFight
  · rw [if_pos h1]
    by_cases h2 : r < (d : ℚ) / 10 + 1 / 10
    · rw [if_pos h2]
      exact ⟨rfl, rfl, rfl⟩
    · rw [if_neg h2]
      exact ⟨rfl, rfl, rfl⟩
  · rw [if_neg h1]
    exact ⟨rfl, rfl, rfl⟩

theorem relaxChild_dist_ge {d : Int} {c : MapNode} {r : ℚ} (hc : -1 ≤ c.distSinceFight) :
    -1 ≤ (relaxChild d c r).1.distSinceFight := by
  unfold relaxChild
  by_cases h1 : c.distSinceFight = -1 ∨ d + 1 < c.distSinceFight
  · rw [if_pos h1]
    by_cases h2 : r < (d : ℚ) / 10 + 1 / 10
    · rw [if_pos h2]; norm_num
    · rw [if_neg h2]
      have : (1 : Int) ≤ max (d + 1) 1 := le_max_right _ _
      dsimp only
      omega
  · rw [if_neg h1]; exact hc

theorem relaxChild_zero {d : Int} {c : MapNode} {r : ℚ} (hd : -1 ≤ d)
    (hz : c.distSinceFight = 0) : relaxChild d c r = (c, false) := by
  unfold relaxChild
  rw [if_neg]
  rw [hz]
  push_neg
  constructor
  · omega
  · omega

/-- The complete effect of one parent's child sweep on the staging state. -/
theorem visitChildren_spec (flatN : List Point) (flatP : List (Point × Point))
    (cnKey : Point) (rand : ℕ → ℚ) :
    ∀ (cl : List Point) (nodes : NodeMap) (curPaths : List (Point × Point))
      (childAcc : List Point) (ridx : ℕ),
      (∀ pr ∈ nodes, -1 ≤ pr.2.distSinceFight) →
      (visitChildren flatN flatP cnKey rand cl nodes curPaths childAcc ridx).1.map nodeSkel
          = nodes.map nodeSkel ∧
      (∀ pr ∈ (visitChildren flatN flatP cnKey rand cl nodes curPaths childAcc ridx).1,
          -1 ≤ pr.2.distSinceFight) ∧
      (∀ k, distOf nodes k = some 0 →
          distOf (visitChildren flatN flatP cnKey rand cl nodes curPaths childAcc ridx).1 k
            = some 0) ∧
      (∀ k ∈ (visitChildren flatN flatP cnKey rand cl nodes curPaths childAcc ridx).2.2.1,
          k ∈ childAcc ∨ (k ∈ cl ∧ k ∉ flatN)) ∧
      (∀ k ∈ childAcc,
          k ∈ (visitChildren flatN flatP cnKey rand cl nodes curPaths childAcc ridx).2.2.1) ∧
      (∀ c ∈ cl, c ∈ flatN ∨
          c ∈ (visitChildren flatN flatP cnKey rand cl nodes curPaths childAcc ridx).2.2.1) ∧
      (∀ e ∈ curPaths,
          e ∈ (visitChildren flatN flatP cnKey rand cl nodes curPaths childAcc ridx).2.1) ∧
      ((flatP ++ curPaths).Pairwise (fun p q => ¬ sameEdge p q) →
        (flatP ++ (visitChildren flatN flatP cnKey rand cl nodes curPaths childAcc ridx).2.1).Pairwise
          (fun p q => ¬ sameEdge p q)) ∧
      (∀ e ∈ (visitChildren flatN flatP cnKey rand cl nodes curPaths childAcc ridx).2.1,
          e ∈ curPaths ∨ ∃ c ∈ cl, e = (cnKey, c)) ∧
      (∀ c ∈ cl, ∃ e ∈ flatP ++
          (visitChildren flatN flatP cnKey rand cl nodes curPaths childAcc ridx).2.1,
          sameEdge e (cnKey, c)) := by
  intro cl
  induction cl with
  | nil =>
    intro nodes curPaths childAcc ridx hd
    refine ⟨rfl, hd, fun k hk => hk, ?_, ?_, ?_, ?_, ?_, ?_, ?_⟩
    · intro k hk; exact Or.inl hk
    · intro k hk; exact hk
    · intro c hc; cases hc
    · intro e he; exact he
    · intro h; exact h
    · intro e he; exact Or.inl he
    · intro c hc; cases hc
  | cons ck rest ih =>
    intro nodes curPaths childAcc ridx hd
    rw [visitChildren]
    set childAcc1 := if flatN.contains ck || childAcc.contains ck then childAcc
                     else childAcc ++ [ck] with hca
    set curPaths1 := if containsPath flatP (cnKey, ck) || containsPath curPaths (cnKey, ck)
                     then curPaths else curPaths ++ [(cnKey, ck)] with hcp
    have hAccFacts : (∀ k ∈ childAcc1, k ∈ childAcc ∨ (k = ck ∧ ck ∉ flatN)) ∧
        (∀ k ∈ childAcc, k ∈ childAcc1) ∧ (ck ∈ flatN ∨ ck ∈ childAcc1) := by
      rw [hca]
      by_cases h1 : flatN.contains ck || childAcc.contains ck
      · rw [if_pos h1]
        refine ⟨fun k hk => Or.inl hk, fun k hk => hk, ?_⟩
        rcases Bool.or_eq_true_iff.mp h1 with h2 | h2
        · exact Or.inl (List.elem_iff.mp h2)
        · exact Or.inr (List.elem_iff.mp h2)
      · rw [if_neg h1]
        have h2 : ck ∉ flatN := by
          intro hc
          exact h1 (Bool.or_eq_true_iff.mpr (Or.inl (List.elem_iff.mpr hc)))
        refine ⟨?_, fun k hk => List.mem_append_left _ hk, ?_⟩
        · intro k hk
          rcases List.mem_append.mp hk with h3 | h3
          · exact Or.inl h3
          · exact Or.inr ⟨List.mem_singleton.mp h3, h2⟩
        · exact Or.inr (List.mem_append_right _ (List.mem_singleton_self _))
    have hPathFacts : (∀ e ∈ curPaths, e ∈ curPaths1) ∧
        ((flatP ++ curPaths).Pairwise (fun p q => ¬ sameEdge p q) →
          (flatP ++ curPaths1).Pairwise (fun p q => ¬ sameEdge p q)) ∧
        (∀ e ∈ curPaths1, e ∈ curPaths ∨ e = (cnKey, ck)) ∧
        (∃ e ∈ flatP ++ curPaths1, sameEdge e (cnKey, ck)) := by
      rw [hcp]
      by_cases h1 : containsPath flatP (cnKey, ck) || containsPath curPaths (cnKey, ck)
      · rw [if_pos h1]
        refine ⟨fun e he => he, fun h => h, fun e he => Or.inl he, ?_⟩
        rcases Bool.or_eq_true_iff.mp h1 with h2 | h2
        · obtain ⟨q, hq, hs⟩ := (containsPath_iff _ _).mp h2
          exact ⟨q, List.mem_append_left _ hq, hs⟩
        · obtain ⟨q, hq, hs⟩ := (containsPath_iff _ _).mp h2
          exact ⟨q, List.mem_append_right _ hq, hs⟩
      · rw [if_neg h1]
        have h2 : ∀ q ∈ flatP ++ curPaths, ¬ sameEdge q (cnKey, ck) := by
          intro q hq hs
          rcases List.mem_append.mp hq with h3 | h3
          · exact h1 (Bool.or_eq_true_iff.mpr (Or.inl ((containsPath_iff _ _).mpr ⟨q, h3, hs⟩)))
          · exact h1 (Bool.or_eq_true_iff.mpr (Or.inr ((containsPath_iff _ _).mpr ⟨q, h3, hs⟩)))
        refine ⟨fun e he => List.mem_append_left _ he, ?_, ?_, ?_⟩
        · intro hpw
          have : (flatP ++ curPaths) ++ [(cnKey, ck)] = flatP ++ (curPaths ++ [(cnKey, ck)]) :=
            List.append_assoc _ _ _
          rw [← this]
          rw [List.pairwise_append]
          refine ⟨hpw, List.pairwise_singleton _ _, ?_⟩
          intro a ha b hb
          rw [List.mem_singleton] at hb
          subst hb
          exact h2 a ha
        · intro e he
          rcases List.mem_append.mp he with h3 | h3
          · exact Or.inl h3
          · exact Or.inr (List.mem_singleton.mp h3)
        · exact ⟨(cnKey, ck), List.mem_append_right _ (List.mem_append_right _
            (List.mem_singleton_self _)), Or.inl ⟨rfl, rfl⟩⟩
    cases hl1 : alookup cnKey nodes with
    | none =>
      dsimp only
      cases hl2 : alookup ck nodes with
      | none =>
        obtain ⟨f1, f2, f3, f4, f5, f6, f7, f8, f9, f10⟩ := ih nodes curPaths1 childAcc1 ridx hd
        refine ⟨f1, f2, f3, ?_, ?_, ?_, ?_, ?_, ?_, ?_⟩
        · intro k hk
          rcases f4 k hk with h3 | h3
          · rcases hAccFacts.1 k h3 with h4 | h4
            · exact Or.inl h4
            · exact Or.inr ⟨h4.1 ▸ List.mem_cons_self _ _, h4.1 ▸ h4.2⟩
          · exact Or.inr ⟨List.mem_cons_of_mem _ h3.1, h3.2⟩
        · intro k hk
          exact f5 k (hAccFacts.2.1 k hk)
        · intro c hc
          rcases List.mem_cons.mp hc with h3 | h3
          · subst h3
            rcases hAccFacts.2.2 with h4 | h4
            · exact Or.inl h4
            · exact Or.inr (f5 c h4)
          · exact f6 c h3
        · intro e he
          exact f7 e (hPathFacts.1 e he)
        · intro hpw
          exact f8 (hPathFacts.2.1 hpw)
        · intro e he
          rcases f9 e he with h3 | h3
          · rcases hPathFacts.2.2.1 e h3 with h4 | h4
            · exact Or.inl h4
            · exact Or.inr ⟨ck, List.mem_cons_self _ _, h4⟩
          · obtain ⟨c, hc, hec⟩ := h3
            exact Or.inr ⟨c, List.mem_cons_of_mem _ hc, hec⟩
        · intro c hc
          rcases List.mem_cons.mp hc with h3 | h3
          · subst h3
            obtain ⟨e, he, hs⟩ := hPathFacts.2.2.2
            rcases List.mem_append.mp he with h4 | h4
            · exact ⟨e, List.mem_append_left _ h4, hs⟩
            · exact ⟨e, List.mem_append_right _ (f7 e h4), hs⟩
          · exact f10 c h3
      | some child =>
        obtain ⟨f1, f2, f3, f4, f5, f6, f7, f8, f9, f10⟩ := ih nodes curPaths1 childAcc1 ridx hd
        refine ⟨f1, f2, f3, ?_, ?_, ?_, ?_, ?_, ?_, ?_⟩
        · intro k hk
          rcases f4 k hk with h3 | h3
          · rcases hAccFacts.1 k h3 with h4 | h4
            · exact Or.inl h4
            · exact Or.inr ⟨h4.1 ▸ List.mem_cons_self _ _, h4.1 ▸ h4.2⟩
          · exact Or.inr ⟨List.mem_cons_of_mem _ h3.1, h3.2⟩
        · intro k hk
          exact f5 k (hAccFacts.2.1 k hk)
        · intro c hc
          rcases List.mem_cons.mp hc with h3 | h3
          · subst h3
            rcases hAccFacts.2.2 with h4 | h4
            · exact Or.inl h4
            · exact Or.inr (f5 c h4)
          · exact f6 c h3
        · intro e he
          exact f7 e (hPathFacts.1 e he)
        · intro hpw
          exact f8 (hPathFacts.2.1 hpw)
        · intro e he
          rcases f9 e he with h3 | h3
          · rcases hPathFacts.2.2.1 e h3 with h4 | h4
            · exact Or.inl h4
            · exact Or.inr ⟨ck, List.mem_cons_self _ _, h4⟩
          · obtain ⟨c, hc, hec⟩ := h3
            exact Or.inr ⟨c, List.mem_cons_of_mem _ hc, hec⟩
        · intro c hc
          rcases List.mem_cons.mp hc with h3 | h3
          · subst h3
            obtain ⟨e, he, hs⟩ := hPathFacts.2.2.2
            rcases List.mem_append.mp he with h4 | h4
            · exact ⟨e, List.mem_append_left _ h4, hs⟩
            · exact ⟨e, List.mem_append_right _ (f7 e h4), hs⟩
          · exact f10 c h3
    | some cn =>
      dsimp only
      cases hl2 : alookup ck nodes with
      | none =>
        dsimp only
        obtain ⟨f1, f2, f3, f4, f5, f6, f7, f8, f9, f10⟩ := ih nodes curPaths1 childAcc1 ridx hd
        refine ⟨f1, f2, f3, ?_, ?_, ?_, ?_, ?_, ?_, ?_⟩
        · intro k hk
          rcases f4 k hk with h3 | h3
          · rcases hAccFacts.1 k h3 with h4 | h4
            · exact Or.inl h4
            · exact Or.inr ⟨h4.1 ▸ List.mem_cons_self _ _, h4.1 ▸ h4.2⟩
          · exact Or.inr ⟨List.mem_cons_of_mem _ h3.1, h3.2⟩
        · intro k hk
          exact f5 k (hAccFacts.2.1 k hk)
        · intro c hc
          rcases List.mem_cons.mp hc with h3 | h3
          · subst h3
            rcases hAccFacts.2.2 with h4 | h4
            · exact Or.inl h4
            · exact Or.inr (f5 c h4)
          · exact f6 c h3
        · intro e he
          exact f7 e (hPathFacts.1 e he)
        · intro hpw
          exact f8 (hPathFacts.2.1 hpw)
        · intro e he
          rcases f9 e he with h3 | h3
          · rcases hPathFacts.2.2.1 e h3 with h4 | h4
            · exact Or.inl h4
            · exact Or.inr ⟨ck, List.mem_cons_self _ _, h4⟩
          · obtain ⟨c, hc, hec⟩ := h3
            exact Or.inr ⟨c, List.mem_cons_of_mem _ hc, hec⟩
        · intro c hc
          rcases List.mem_cons.mp hc with h3 | h3
          · subst h3
            obtain ⟨e, he, hs⟩ := hPathFacts.2.2.2
            rcases List.mem_append.mp he with h4 | h4
            · exact ⟨e, List.mem_append_left _ h4, hs⟩
            · exact ⟨e, List.mem_append_right _ (f7 e h4), hs⟩
          · exact f10 c h3
      | some child =>
        dsimp only
        by_cases hrc : (relaxChild cn.distSinceFight child (rand ridx)).2
        · rw [if_pos hrc]
          have hchild : (ck, child) ∈ nodes := alookup_mem hl2
          have hnodes' : ∀ pr ∈ aset ck (relaxChild cn.distSinceFight child (rand ridx)).1 nodes,
              -1 ≤ pr.2.distSinceFight := by
            intro pr hpr
            rcases mem_aset hpr with h3 | h3
            · subst h3
              exact relaxChild_dist_ge (hd (ck, child) hchild)
            · exact hd pr h3
          obtain ⟨f1, f2, f3, f4, f5, f6, f7, f8, f9, f10⟩ :=
            ih (aset ck (relaxChild cn.distSinceFight child (rand ridx)).1 nodes)
              curPaths1 childAcc1 (ridx + 1) hnodes'
          have hskel : (aset ck (relaxChild cn.distSinceFight child (rand ridx)).1 nodes).map
              nodeSkel = nodes.map nodeSkel :=
            skel_aset hl2 (relaxChild_skel _ _ _).1 (relaxChild_skel _ _ _).2.1
          have hzero : ∀ k, distOf nodes k = some 0 →
              distOf (aset ck (relaxChild cn.distSinceFight child (rand ridx)).1 nodes) k
                = some 0 := by
            intro k hk
            by_cases hkc : ck = k
            · subst hkc
              unfold distOf at hk
              rw [hl2] at hk
              have hk2 : child.distSinceFight = 0 := by simpa using hk
              have := @relaxChild_zero cn.distSinceFight child (rand ridx)
                (hd (cnKey, cn) (alookup_mem hl1)) hk2
              rw [this] at hrc
              cases hrc
            · rw [distOf_aset_ne hkc]
              exact hk
          refine ⟨f1.trans hskel, f2, fun k hk => f3 k (hzero k hk), ?_, ?_, ?_, ?_, ?_, ?_, ?_⟩
          · intro k hk
            rcases f4 k hk with h3 | h3
            · rcases hAccFacts.1 k h3 with h4 | h4
              · exact Or.inl h4
              · exact Or.inr ⟨h4.1 ▸ List.mem_cons_self _ _, h4.1 ▸ h4.2⟩
            · exact Or.inr ⟨List.mem_cons_of_mem _ h3.1, h3.2⟩
          · intro k hk
            exact f5 k (hAccFacts.2.1 k hk)
          · intro c hc
            rcases List.mem_cons.mp hc with h3 | h3
            · subst h3
              rcases hAccFacts.2.2 with h4 | h4
              · exact Or.inl h4
              · exact Or.inr (f5 c h4)
            · exact f6 c h3
          · intro e he
            exact f7 e (hPathFacts.1 e he)
          · intro hpw
            exact f8 (hPathFacts.2.1 hpw)
          · intro e he
            rcases f9 e he with h3 | h3
            · rcases hPathFacts.2.2.1 e h3 with h4 | h4
              · exact Or.inl h4
              · exact Or.inr ⟨ck, List.mem_cons_self _ _, h4⟩
            · obtain ⟨c, hc, hec⟩ := h3
              exact Or.inr ⟨c, List.mem_cons_of_mem _ hc, hec⟩
          · intro c hc
            rcases List.mem_cons.mp hc with h3 | h3
            · subst h3
              obtain ⟨e, he, hs⟩ := hPathFacts.2.2.2
              rcases List.mem_append.mp he with h4 | h4
              · exact ⟨e, List.mem_append_left _ h4, hs⟩
              · exact ⟨e, List.mem_append_right _ (f7 e h4), hs⟩
            · exact f10 c h3
        · rw [if_neg hrc]
          obtain ⟨f1, f2, f3, f4, f5, f6, f7, f8, f9, f10⟩ := ih nodes curPaths1 childAcc1 ridx hd
          refine ⟨f1, f2, f3, ?_, ?_, ?_, ?_, ?_, ?_, ?_⟩
          · intro k hk
            rcases f4 k hk with h3 | h3
            · rcases hAccFacts.1 k h3 with h4 | h4
              · exact Or.inl h4
              · exact Or.inr ⟨h4.1 ▸ List.mem_cons_self _ _, h4.1 ▸ h4.2⟩
            · exact Or.inr ⟨List.mem_cons_of_mem _ h3.1, h3.2⟩
          · intro k hk
            exact f5 k (hAccFacts.2.1 k hk)
          · intro c hc
            rcases List.mem_cons.mp hc with h3 | h3
            · subst h3
              rcases hAccFacts.2.2 with h4 | h4
              · exact Or.inl h4
              · exact Or.inr (f5 c h4)
            · exact f6 c h3
          · intro e he
            exact f7 e (hPathFacts.1 e he)
          · intro hpw
            exact f8 (hPathFacts.2.1 hpw)
          · intro e he
            rcases f9 e he with h3 | h3
            · rcases hPathFacts.2.2.1 e h3 with h4 | h4
              · exact Or.inl h4
              · exact Or.inr ⟨ck, List.mem_cons_self _ _, h4⟩
            · obtain ⟨c, hc, hec⟩ := h3
              exact Or.inr ⟨c, List.mem_cons_of_mem _ hc, hec⟩
          · intro c hc
            rcases List.mem_cons.mp hc with h3 | h3
            · subst h3
              obtain ⟨e, he, hs⟩ := hPathFacts.2.2.2
              rcases List.mem_append.mp he with h4 | h4
              · exact ⟨e, List.mem_append_left _ h4, hs⟩
              · exact ⟨e, List.mem_append_right _ (f7 e h4), hs⟩
            · exact f10 c h3

/-- The complete effect of one sweep over the current node batch. -/
theorem processRound_spec (flatN : List Point) (flatP : List (Point × Point)) (rand : ℕ → ℚ) :
    ∀ (curList : List Point) (nodes : NodeMap) (curPaths : List (Point × Point)) (ridx : ℕ),
      (∀ pr ∈ nodes, -1 ≤ pr.2.distSinceFight) →
      (processRound flatN flatP rand curList nodes curPaths ridx).1.map nodeSkel
          = nodes.map nodeSkel ∧
      (∀ pr ∈ (processRound flatN flatP rand curList nodes curPaths ridx).1,
          -1 ≤ pr.2.distSinceFight) ∧
      (∀ k, distOf nodes k = some 0 →
          distOf (processRound flatN flatP rand curList nodes curPaths ridx).1 k = some 0) ∧
      (∀ k ∈ (processRound flatN flatP rand curList nodes curPaths ridx).2.2.1,
          (∃ cn ∈ curList, k ∈ childrenOf nodes cn) ∧ k ∉ flatN) ∧
      (∀ cn ∈ curList, ∀ c ∈ childrenOf nodes cn,
          c ∈ flatN ∨ c ∈ (processRound flatN flatP rand curList nodes curPaths ridx).2.2.1) ∧
      (∀ e ∈ curPaths, e ∈ (processRound flatN flatP rand curList nodes curPaths ridx).2.1) ∧
      ((flatP ++ curPaths).Pairwise (fun p q => ¬ sameEdge p q) →
        (flatP ++ (processRound flatN flatP rand curList nodes curPaths ridx).2.1).Pairwise
          (fun p q => ¬ sameEdge p q)) ∧
      (∀ e ∈ (processRound flatN flatP rand curList nodes curPaths ridx).2.1,
          e ∈ curPaths ∨ ∃ cn ∈ curList, e.2 ∈ childrenOf nodes cn ∧ e.1 = cn) ∧
      (∀ cn ∈ curList, ∀ c ∈ childrenOf nodes cn,
          ∃ e ∈ flatP ++ (processRound flatN flatP rand curList nodes curPaths ridx).2.1,
          sameEdge e (cn, c)) := by
  intro curList
  induction curList with
  | nil =>
    intro nodes curPaths ridx hd
    refine ⟨rfl, hd, fun k hk => hk, ?_, ?_, fun e he => he, fun h => h, ?_, ?_⟩
    · intro k hk; cases hk
    · intro cn hcn; cases hcn
    · intro e he; exact Or.inl he
    · intro cn hcn; cases hcn
  | cons cn rest ih =>
    intro nodes curPaths ridx hd
    rw [processRound]
    cases hl : alookup cn nodes with
    | none =>
      have hch : childrenOf nodes cn = [] := by
        unfold childrenOf
        rw [hl]
        rfl
      obtain ⟨g1, g2, g3, g4, g5, g6, g7, g8, g9⟩ := ih nodes curPaths ridx hd
      refine ⟨g1, g2, g3, ?_, ?_, g6, g7, ?_, ?_⟩
      · intro k hk
        obtain ⟨⟨cn', hcn', hk'⟩, hnot⟩ := g4 k hk
        exact ⟨⟨cn', List.mem_cons_of_mem _ hcn', hk'⟩, hnot⟩
      · intro cn₀ hcn₀ c hc
        rcases List.mem_cons.mp hcn₀ with h3 | h3
        · rw [h3, hch] at hc; cases hc
        · exact g5 cn₀ h3 c hc
      · intro e he
        rcases g8 e he with h3 | h3
        · exact Or.inl h3
        · obtain ⟨cn', hcn', h4⟩ := h3
          exact Or.inr ⟨cn', List.mem_cons_of_mem _ hcn', h4⟩
      · intro cn₀ hcn₀ c hc
        rcases List.mem_cons.mp hcn₀ with h3 | h3
        · rw [h3, hch] at hc; cases hc
        · exact g9 cn₀ h3 c hc
    | some cnode =>
      dsimp only
      have hch : childrenOf nodes cn = cnode.children := by
        unfold childrenOf
        rw [hl]
        rfl
      obtain ⟨f1, f2, f3, f4, f5, f6, f7, f8, f9, f10⟩ :=
        visitChildren_spec flatN flatP cn rand cnode.children nodes curPaths [] ridx hd
      set v := visitChildren flatN flatP cn rand cnode.children nodes curPaths [] ridx with hv
      obtain ⟨g1, g2, g3, g4, g5, g6, g7, g8, g9⟩ := ih v.1 v.2.1 v.2.2.2 f2
      have hcheq : ∀ k, childrenOf v.1 k = childrenOf nodes k :=
        fun k => childrenOf_eq_of_skel f1 k
      refine ⟨g1.trans f1, g2, fun k hk => g3 k (f3 k hk), ?_, ?_, ?_, ?_, ?_, ?_⟩
      · intro k hk
        rcases List.mem_append.mp hk with h3 | h3
        · rcases f4 k h3 with h4 | h4
          · cases h4
          · exact ⟨⟨cn, List.mem_cons_self _ _, hch ▸ h4.1⟩, h4.2⟩
        · obtain ⟨⟨cn', hcn', hk'⟩, hnot⟩ := g4 k h3
          exact ⟨⟨cn', List.mem_cons_of_mem _ hcn', (hcheq cn') ▸ hk'⟩, hnot⟩
      · intro cn₀ hcn₀ c hc
        rcases List.mem_cons.mp hcn₀ with h3 | h3
        · subst h3
          rw [hch] at hc
          rcases f6 c hc with h4 | h4
          · exact Or.inl h4
          · exact Or.inr (List.mem_append_left _ h4)
        · rcases g5 cn₀ h3 c ((hcheq cn₀) ▸ hc) with h4 | h4
          · exact Or.inl h4
          · exact Or.inr (List.mem_append_right _ h4)
      · intro e he
        exact g6 e (f7 e he)
      · intro hpw
        exact g7 (f8 hpw)
      · intro e he
        rcases g8 e he with h3 | h3
        · rcases f9 e h3 with h4 | h4
          · exact Or.inl h4
          · obtain ⟨c, hc, hec⟩ := h4
            exact Or.inr ⟨cn, List.mem_cons_self _ _, by rw [hec, hch]; exact ⟨hc, rfl⟩⟩
        · obtain ⟨cn', hcn', h4, h5⟩ := h3
          exact Or.inr ⟨cn', List.mem_cons_of_mem _ hcn', (hcheq cn') ▸ h4, h5⟩
      · intro cn₀ hcn₀ c hc
        rcases List.mem_cons.mp hcn₀ with h3 | h3
        · subst h3
          rw [hch] at hc
          obtain ⟨e, he, hs⟩ := f10 c hc
          rcases List.mem_append.mp he with h4 | h4
          · exact ⟨e, List.mem_append_left _ h4, hs⟩
          · exact ⟨e, List.mem_append_right _ (g6 e h4), hs⟩
        · exact g9 cn₀ h3 c ((hcheq cn₀) ▸ hc)

theorem uniqueGo_mem_of {acc l : List Point} :
    ∀ k, k ∈ acc ∨ k ∈ l → k ∈ uniqueGo acc l := by
  induction l generalizing acc with
  | nil =>
    intro k hk
    rcases hk with h | h
    · exact h
    · cases h
  | cons x xs ih =>
    intro k hk
    rw [uniqueGo]
    by_cases hc : acc.contains x
    · rw [if_pos hc]
      refine ih k ?_
      rcases hk with h | h
      · exact Or.inl h
      · rcases List.mem_cons.mp h with h1 | h1
        · exact Or.inl (h1 ▸ List.elem_iff.mp hc)
        · exact Or.inr h1
    · rw [if_neg hc]
      refine ih k ?_
      rcases hk with h | h
      · exact Or.inl (List.mem_append_left _ h)
      · rcases List.mem_cons.mp h with h1 | h1
        · exact Or.inl (List.mem_append_right _ (h1 ▸ List.mem_singleton_self _))
        · exact Or.inr h1

theorem uniqueList_mem_of {l : List Point} (k : Point) (h : k ∈ l) : k ∈ uniqueList l :=
  uniqueGo_mem_of k (Or.inr h)

theorem flatten_concat {α : Type} (l : List (List α)) (x : List α) :
    (l ++ [x]).flatten = l.flatten ++ x := by
  simp

/-- The staging loop invariant, relative to the post-`stageInit` registry
`nodes0` and the start key. -/
structure SInv (nodes0 : NodeMap) (start : Point) (s : StageState) : Prop where
  skel : s.nodes.map nodeSkel = nodes0.map nodeSkel
  dists : ∀ pr ∈ s.nodes, -1 ≤ pr.2.distSinceFight
  nodupB : (s.stepsNodes.flatten ++ s.cur).Nodup
  reachB : ∀ k ∈ s.stepsNodes.flatten ++ s.cur, Reach nodes0 start k
  startB : start ∈ s.stepsNodes.flatten ++ s.cur
  closedB : ∀ k ∈ s.stepsNodes.flatten, ∀ c ∈ childrenOf nodes0 k,
      c ∈ s.stepsNodes.flatten ++ s.cur
  edgesND : (s.stepsPaths.flatten ++ s.curPaths).Pairwise (fun p q => ¬ sameEdge p q)
  edgesG : ∀ e ∈ s.stepsPaths.flatten ++ s.curPaths, e.2 ∈ childrenOf nodes0 e.1
  closedE : ∀ k ∈ s.stepsNodes.flatten, ∀ c ∈ childrenOf nodes0 k,
      ∃ e ∈ s.stepsPaths.flatten ++ s.curPaths, sameEdge e (k, c)
  levels : List.Chain' (fun b1 b2 => ∀ k ∈ b2, ∃ p ∈ b1, k ∈ childrenOf nodes0 p)
      (s.stepsNodes ++ [s.cur])

theorem stageStep_inv {nodes0 : NodeMap} {start : Point} {s : StageState} (rand : ℕ → ℚ)
    (hinv : SInv nodes0 start s) : SInv nodes0 start (stageStep rand s) := by
  obtain ⟨hskel, hdists, hnodup, hreach, hstart, hclosedB, hedgesND, hedgesG, hclosedE,
    hlevels⟩ := hinv
  have hflatN : ((s.stepsNodes ++ [s.cur]).flatten) = s.stepsNodes.flatten ++ s.cur :=
    flatten_concat _ _
  have hflatP : ((s.stepsPaths ++ [s.curPaths]).flatten) =
      s.stepsPaths.flatten ++ s.curPaths := flatten_concat _ _
  obtain ⟨g1, g2, g3, g4, g5, g6, g7, g8, g9⟩ :=
    processRound_spec ((s.stepsNodes ++ [s.cur]).flatten) ((s.stepsPaths ++ [s.curPaths]).flatten)
      rand s.cur s.nodes [] s.ridx hdists
  have hcheq : ∀ k, childrenOf s.nodes k = childrenOf nodes0 k :=
    fun k => childrenOf_eq_of_skel hskel k
  set p := processRound ((s.stepsNodes ++ [s.cur]).flatten)
    ((s.stepsPaths ++ [s.curPaths]).flatten) rand s.cur s.nodes [] s.ridx with hp
  refine ⟨g1.trans hskel, g2, ?_, ?_, ?_, ?_, ?_, ?_, ?_, ?_⟩
  · -- nodupB
    show ((s.stepsNodes ++ [s.cur]).flatten ++ uniqueList p.2.2.1).Nodup
    rw [hflatN]
    refine List.Nodup.append hnodup (uniqueList_nodup _) ?_
    intro x hx hx'
    have h1 := (g4 x (uniqueList_mem x hx')).2
    rw [hflatN] at h1
    exact h1 hx
  · -- reachB
    show ∀ k ∈ (s.stepsNodes ++ [s.cur]).flatten ++ uniqueList p.2.2.1, Reach nodes0 start k
    intro k hk
    rcases List.mem_append.mp hk with h1 | h1
    · rw [hflatN] at h1
      exact hreach k h1
    · obtain ⟨⟨cn, hcn, hkc⟩, _⟩ := g4 k (uniqueList_mem k h1)
      have hrc : Reach nodes0 start cn := hreach cn (List.mem_append_right _ hcn)
      exact Relation.ReflTransGen.tail hrc ((hcheq cn) ▸ hkc)
  · -- startB
    show start ∈ (s.stepsNodes ++ [s.cur]).flatten ++ uniqueList p.2.2.1
    rw [hflatN]
    exact List.mem_append_left _ hstart
  · -- closedB
    show ∀ k ∈ (s.stepsNodes ++ [s.cur]).flatten, ∀ c ∈ childrenOf nodes0 k,
        c ∈ (s.stepsNodes ++ [s.cur]).flatten ++ uniqueList p.2.2.1
    intro k hk c hc
    rw [hflatN] at hk ⊢
    rcases List.mem_append.mp hk with h1 | h1
    · exact List.mem_append_left _ (hclosedB k h1 c hc)
    · rcases g5 k h1 c ((hcheq k) ▸ hc) with h2 | h2
      · rw [hflatN] at h2
        exact List.mem_append_left _ h2
      · exact List.mem_append_right _ (uniqueList_mem_of c h2)
  · -- edgesND
    show ((s.stepsPaths ++ [s.curPaths]).flatten ++ p.2.1).Pairwise (fun p q => ¬ sameEdge p q)
    refine g7 ?_
    rw [hflatP, List.append_nil]
    exact hedgesND
  · -- edgesG
    show ∀ e ∈ (s.stepsPaths ++ [s.curPaths]).flatten ++ p.2.1, e.2 ∈ childrenOf nodes0 e.1
    intro e he
    rcases List.mem_append.mp he with h1 | h1
    · rw [hflatP] at h1
      exact hedgesG e h1
    · rcases g8 e h1 with h2 | h2
      · cases h2
      · obtain ⟨cn, _, h3, h4⟩ := h2
        rw [h4]
        exact (hcheq cn) ▸ h3
  · -- closedE
    show ∀ k ∈ (s.stepsNodes ++ [s.cur]).flatten, ∀ c ∈ childrenOf nodes0 k,
        ∃ e ∈ (s.stepsPaths ++ [s.curPaths]).flatten ++ p.2.1, sameEdge e (k, c)
    intro k hk c hc
    rw [hflatN] at hk
    rcases List.mem_append.mp hk with h1 | h1
    · obtain ⟨e, he, hs⟩ := hclosedE k h1 c hc
      rw [← hflatP] at he
      exact ⟨e, List.mem_append_left _ he, hs⟩
    · obtain ⟨e, he, hs⟩ := g9 k h1 c ((hcheq k) ▸ hc)
      exact ⟨e, he, hs⟩
  · -- levels
    show List.Chain' _ ((s.stepsNodes ++ [s.cur]) ++ [uniqueList p.2.2.1])
    rw [List.chain'_append]
    refine ⟨hlevels, List.chain'_singleton _, ?_⟩
    intro b1 hb1 b2 hb2
    simp only [List.head?_cons, Option.mem_def, Option.some.injEq] at hb2
    subst hb2
    have hlast : (s.stepsNodes ++ [s.cur]).getLast? = some s.cur := by
      rw [List.getLast?_concat]
    rw [hlast, Option.mem_def, Option.some.injEq] at hb1
    subst hb1
    intro k hk
    obtain ⟨⟨cn, hcn, hkc⟩, _⟩ := g4 k (uniqueList_mem k hk)
    exact ⟨cn, hcn, (hcheq cn) ▸ hkc⟩

/-- A completed staging loop ends with both pending batches empty and the
invariant intact. -/
theorem stageLoop_some_inv {nodes0 : NodeMap} {start : Point} (rand : ℕ → ℚ) :
    ∀ (fuel : ℕ) (s sF : StageState), SInv nodes0 start s →
      stageLoop rand fuel s = some sF →
      SInv nodes0 start sF ∧ sF.cur = [] ∧ sF.curPaths = [] := by
  intro fuel
  induction fuel with
  | zero => intro s sF _ h; cases h
  | succ fuel ih =>
    intro s sF hinv h
    rw [stageLoop] at h
    by_cases hc : s.cur = [] ∧ s.curPaths = []
    · rw [if_pos hc] at h
      cases h
      exact ⟨hinv, hc⟩
    · rw [if_neg hc] at h
      exact ih _ _ (stageStep_inv rand hinv) h

/-- Zero `distSinceFight` values survive one staging sweep. -/
theorem stageStep_zero {s : StageState} (rand : ℕ → ℚ)
    (hd : ∀ pr ∈ s.nodes, -1 ≤ pr.2.distSinceFight) (k : Point)
    (hz : distOf s.nodes k = some 0) : distOf (stageStep rand s).nodes k = some 0 :=
  (processRound_spec _ _ rand s.cur s.nodes [] s.ridx hd).2.2.1 k hz

/-- Zero `distSinceFight` values survive the whole staging loop. -/
theorem stageLoop_zero (rand : ℕ → ℚ) :
    ∀ (fuel : ℕ) (s sF : StageState), (∀ pr ∈ s.nodes, -1 ≤ pr.2.distSinceFight) →
      stageLoop rand fuel s = some sF → ∀ k, distOf s.nodes k = some 0 →
      distOf sF.nodes k = some 0 := by
  intro fuel
  induction fuel with
  | zero => intro s sF _ h; cases h
  | succ fuel ih =>
    intro s sF hd h k hz
    rw [stageLoop] at h
    by_cases hc : s.cur = [] ∧ s.curPaths = []
    · rw [if_pos hc] at h
      cases h
      exact hz
    · rw [if_neg hc] at h
      exact ih _ _ (processRound_spec _ _ rand s.cur s.nodes [] s.ridx hd).2.1 h k
        (stageStep_zero rand hd k hz)

def bossOf (m : NodeMap) (k : Point) : Option Bool :=
  (alookup k m).map MapNode.isBoss

theorem bossOf_eq_of_skel {m₁ m₂ : NodeMap} (h : m₁.map nodeSkel = m₂.map nodeSkel)
    (k : Point) : bossOf m₁ k = bossOf m₂ k := by
  have := skel_lookup h k
  unfold bossOf
  cases h₁ : alookup k m₁ with
  | none =>
    cases h₂ : alookup k m₂ with
    | none => rfl
    | some n₂ => rw [h₁, h₂] at this; cases this
  | some n₁ =>
    cases h₂ : alookup k m₂ with
    | none => rw [h₁, h₂] at this; cases this
    | some n₂ =>
      rw [h₁, h₂] at this
      have h3 : n₁.isBoss = n₂.isBoss := by
        have := congrArg (fun o => (o.map Prod.snd).getD false) this
        simpa using this
      simp [h3]

/-- Facts about the initialisation of the staging registry. -/
theorem stageInit_spec {nodes : NodeMap} {start endP : Point} {n0 : NodeMap}
    (hd : ∀ pr ∈ nodes, -1 ≤ pr.2.distSinceFight)
    (h : stageInit nodes start endP = some n0) :
    distOf n0 endP = some 0 ∧
    bossOf n0 endP = some true ∧
    (∀ k, k ≠ endP → bossOf n0 k = bossOf nodes k) ∧
    (∀ pr ∈ n0, -1 ≤ pr.2.distSinceFight) ∧
    (∀ k, childrenOf n0 k = childrenOf nodes k) ∧
    (alookup start n0).isSome := by
  unfold stageInit at h
  cases h1 : alookup start nodes with
  | none => rw [h1] at h; cases h
  | some sn =>
    rw [h1] at h
    dsimp only at h
    cases h2 : alookup endP (aset start { sn with distSinceFight := 1 } nodes) with
    | none => rw [h2] at h; cases h
    | some en =>
      rw [h2] at h
      dsimp only at h
      cases h
      set m1 := aset start { sn with distSinceFight := 1 } nodes with hm1
      refine ⟨?_, ?_, ?_, ?_, ?_, ?_⟩
      · unfold distOf
        rw [alookup_aset_self]
        rfl
      · unfold bossOf
        rw [alookup_aset_self]
        rfl
      · intro k hk
        unfold bossOf
        rw [alookup_aset_ne _ _ (Ne.symm hk)]
        by_cases hks : start = k
        · subst hks
          rw [hm1, alookup_aset_self, h1]
          rfl
        · rw [hm1, alookup_aset_ne _ _ hks]
      · intro pr hpr
        rcases mem_aset hpr with h3 | h3
        · subst h3
          norm_num
        · rcases mem_aset h3 with h4 | h4
          · subst h4
            norm_num
          · exact hd pr h4
      · intro k
        unfold childrenOf
        by_cases hke : endP = k
        · subst hke
          rw [alookup_aset_self]
          have h5 : en.children = childrenOf nodes endP := by
            by_cases hks : start = endP
            · subst hks
              rw [hm1, alookup_aset_self] at h2
              cases h2
              unfold childrenOf
              rw [h1]
              rfl
            · rw [hm1, alookup_aset_ne _ _ hks] at h2
              unfold childrenOf
              rw [h2]
              rfl
          simpa [childrenOf] using h5
        · rw [alookup_aset_ne _ _ hke]
          by_cases hks : start = k
          · subst hks
            rw [hm1, alookup_aset_self, h1]
            rfl
          · rw [hm1, alookup_aset_ne _ _ hks]
      · by_cases hke : endP = start
        · rw [hke, alookup_aset_self]
          rfl
        · rw [alookup_aset_ne _ _ hke, hm1, alookup_aset_self]
          rfl

/-- Every registry entry the graph builder produces is a plain path node:
not a boss, `distSinceFight` still unresolved. -/
def FreshFlags (m : NodeMap) : Prop :=
  ∀ pr ∈ m, pr.2.isBoss = false ∧ pr.2.distSinceFight = -1

theorem MapNode.addParent_flags (n : MapNode) (pk : Point) :
    (n.addParent pk).isBoss = n.isBoss ∧
      (n.addParent pk).distSinceFight = n.distSinceFight := by
  unfold MapNode.addParent
  split <;> exact ⟨rfl, rfl⟩

theorem MapNode.addChild_flags (n : MapNode) (ck : Point) :
    (n.addChild ck).isBoss = n.isBoss ∧
      (n.addChild ck).distSinceFight = n.distSinceFight := by
  unfold MapNode.addChild
  split <;> exact ⟨rfl, rfl⟩

theorem freshFlags_ensure {m : NodeMap} (h : FreshFlags m) (p : Point) :
    FreshFlags (builderEnsure p m) := by
  unfold builderEnsure
  cases hl : alookup p m with
  | none =>
    intro pr hpr
    rcases mem_aset hpr with h1 | h1
    · subst h1; exact ⟨rfl, rfl⟩
    · exact h pr h1
  | some n => exact h

theorem freshFlags_link {m : NodeMap} (h : FreshFlags m) (c p : Point) :
    FreshFlags (builderLink c p m) := by
  unfold builderLink
  dsimp only
  have h1 : FreshFlags (match alookup p m with
      | none => m
      | some tn => aset p (tn.addParent c) m) := by
    cases hl : alookup p m with
    | none => exact h
    | some tn =>
      intro pr hpr
      rcases mem_aset hpr with h2 | h2
      · subst h2
        have hf := h _ (alookup_mem hl)
        have ha := MapNode.addParent_flags tn c
        exact ⟨ha.1.trans hf.1, ha.2.trans hf.2⟩
      · exact h pr h2
  cases hl2 : alookup c (match alookup p m with
      | none => m
      | some tn => aset p (tn.addParent c) m) with
  | none => exact h1
  | some cn =>
    show FreshFlags (aset c (cn.addChild p) _)
    intro pr hpr
    rcases mem_aset hpr with h2 | h2
    · subst h2
      have hf := h1 _ (alookup_mem hl2)
      have ha := MapNode.addChild_flags cn p
      exact ⟨ha.1.trans hf.1, ha.2.trans hf.2⟩
    · exact h1 pr h2

theorem freshFlags_visit {t : Transitions} {endP currP : Point} :
    ∀ (ps : List Point) (refs : NodeMap) (queue : List Point)
      (refs' : NodeMap) (queue' : List Point), FreshFlags refs →
      builderVisit t endP currP ps refs queue = some (refs', queue') →
      FreshFlags refs' := by
  intro ps
  induction ps with
  | nil =>
    intro refs queue refs' queue' h hv
    rw [builderVisit] at hv
    cases hv
    exact h
  | cons testP rest ih =>
    intro refs queue refs' queue' h hv
    simp only [builderVisit] at hv
    have h0 : FreshFlags (builderEnsure testP refs) := freshFlags_ensure h testP
    cases hC : alookup currP (builderEnsure testP refs) with
    | none =>
      rw [hC] at hv
      dsimp only at hv
      cases hv
      exact h0
    | some currNode =>
      rw [hC] at hv
      dsimp only at hv
      by_cases hg : hasAncestorF (builderEnsure testP refs)
          ((builderEnsure testP refs).length + 1) currNode testP
      · rw [if_pos hg] at hv
        exact ih _ _ _ _ h0 hv
      · rw [if_neg hg] at hv
        cases hcr : canReachEnd t testP endP
            (getAncestorsF (builderEnsure testP refs)
              ((builderEnsure testP refs).length + 1) currNode ++ [currP]) with
        | none => rw [hcr] at hv; cases hv
        | some res =>
          obtain ⟨b, hh⟩ := res
          cases b with
          | false =>
            rw [hcr] at hv
            exact ih _ _ _ _ h0 hv
          | true =>
            rw [hcr] at hv
            exact ih _ _ _ _ (freshFlags_link h0 currP testP) hv

theorem freshFlags_loop {t : Transitions} {endP : Point} :
    ∀ (fuel : ℕ) (refs : NodeMap) (queue : List Point) (m : NodeMap),
      FreshFlags refs → builderLoop t endP fuel refs queue = some m →
      FreshFlags m := by
  intro fuel
  induction fuel with
  | zero => intro refs queue m _ h; cases h
  | succ fuel ih =>
    intro refs queue m h hl
    rw [builderLoop.eq_def] at hl
    dsimp only at hl
    cases queue with
    | nil => cases hl; exact h
    | cons currP restQ =>
      dsimp only at hl
      cases hC : alookup currP refs with
      | none => rw [hC] at hl; cases hl; exact h
      | some currNode =>
        rw [hC] at hl
        dsimp only at hl
        cases hT : alookup currNode.key t with
        | none => rw [hT] at hl; cases hl
        | some transPoints =>
          rw [hT] at hl
          dsimp only at hl
          cases hv : builderVisit t endP currP transPoints refs restQ with
          | none => rw [hv] at hl; cases hl
          | some pr =>
            rw [hv] at hl
            dsimp only at hl
            exact ih _ _ _ (freshFlags_visit _ _ _ _ _ h hv) hl

/-- The seed registry of the builder has fresh flags, hence so does its
output. -/
theorem nodesFromTransitions_freshFlags {start endP : Point} {t : Transitions}
    {fuel : ℕ} {m : NodeMap} (h : nodesFromTransitions start endP t fuel = some m) :
    FreshFlags m := by
  refine freshFlags_loop fuel _ _ _ ?_ h
  intro pr hpr
  rcases mem_aset hpr with h1 | h1
  · subst h1; exact ⟨rfl, rfl⟩
  · rcases mem_aset h1 with h2 | h2
    · subst h2; exact ⟨rfl, rfl⟩
    · cases h2

/-- The staging invariant holds at the loop entry state. -/
theorem SInv_init {nodes0 : NodeMap} {start : Point}
    (hd : ∀ pr ∈ nodes0, -1 ≤ pr.2.distSinceFight) :
    SInv nodes0 start
      { nodes := nodes0, stepsNodes := [], stepsPaths := [],
        cur := [start], curPaths := [], ridx := 0 } := by
  refine ⟨rfl, hd, ?_, ?_, ?_, ?_, ?_, ?_, ?_, ?_⟩
  · simp
  · intro k hk
    simp only [List.flatten_nil, List.nil_append, List.mem_singleton] at hk
    subst hk
    exact Relation.ReflTransGen.refl
  · simp
  · intro k hk
    simp at hk
  · simp
  · intro e he
    simp at he
  · intro k hk
    simp at hk
  · simp

/-- Once the loop has drained its pending batch, the committed node batches
cover everything reachable from `start`. -/
theorem reach_mem_flatten {nodes0 : NodeMap} {start : Point} {s : StageState}
    (hinv : SInv nodes0 start s) (hcur : s.cur = []) :
    ∀ k, Reach nodes0 start k → k ∈ s.stepsNodes.flatten := by
  intro k h
  induction h with
  | refl =>
    have h1 := hinv.startB
    rw [hcur, List.append_nil] at h1
    exact h1
  | tail h1 h2 ih =>
    have h3 := hinv.closedB _ ih _ h2
    rw [hcur, List.append_nil] at h3
    exact h3

/-- Among pairwise edge-distinct segments, any represented undirected edge is
represented exactly once. -/
theorem countP_one_of_pairwise (x : Point × Point) :
    ∀ (l : List (Point × Point)), l.Pairwise (fun p q => ¬ sameEdge p q) →
      ∀ e ∈ l, sameEdge e x →
      l.countP (fun e => decide (sameEdge e x)) = 1 := by
  intro l
  induction l with
  | nil =>
    intro _ e he
    cases he
  | cons a rest ih =>
    intro hp e he hs
    rw [List.countP_cons]
    rw [List.pairwise_cons] at hp
    rcases List.mem_cons.mp he with h1 | h1
    · subst h1
      have h0 : rest.countP (fun e => decide (sameEdge e x)) = 0 := by
        rw [List.countP_eq_zero]
        intro f hf hsf
        exact hp.1 f hf (sameEdge_trans hs (sameEdge_symm (of_decide_eq_true hsf)))
      rw [h0]
      simp [hs]
    · have h2 : ¬ sameEdge a x := fun hax =>
        hp.1 e h1 (sameEdge_trans hax (sameEdge_symm hs))
      rw [ih hp.2 e h1 hs]
      simp [h2]

/-- Reachability only depends on the recorded children lists. -/
theorem Reach_congr {m₁ m₂ : NodeMap} (h : ∀ k, childrenOf m₁ k = childrenOf m₂ k)
    (s k : Point) : Reach m₁ s k ↔ Reach m₂ s k := by
  constructor
  · exact Relation.ReflTransGen.mono fun a b hb => (h a) ▸ hb
  · exact Relation.ReflTransGen.mono fun a b hb => (h a).symm ▸ hb

/-- C6: on a graph produced by `nodesFromTransitions`, the staging output of
`buildAnimationSteps` covers, among its node batches, exactly the nodes
reachable from `start` along child links, with no duplicate within or across
batches; every batched edge is a real parent/child edge; and every reachable
parent/child edge appears exactly once across the edge batches, counted up to
direction. -/
theorem C6_staging_batches (start endP : Point) (t : Transitions) (rand : ℕ → ℚ)
    (fuelB fuelS : ℕ) (nodes : NodeMap) (batchesN : List (List Point))
    (batchesP : List (List (Point × Point))) (nodesF : NodeMap)
    (hb : nodesFromTransitions start endP t fuelB = some nodes)
    (hs : stagingRun nodes start endP rand fuelS = some (batchesN, batchesP, nodesF)) :
    (∀ k, k ∈ batchesN.flatten ↔ Reach nodes start k) ∧
    batchesN.flatten.Nodup ∧
    (∀ e ∈ batchesP.flatten, e.2 ∈ childrenOf nodes e.1) ∧
    (∀ p c, Reach nodes start p → c ∈ childrenOf nodes p →
      batchesP.flatten.countP (fun e => decide (sameEdge e (p, c))) = 1) := by
  unfold stagingRun at hs
  cases hi : stageInit nodes start endP with
  | none => rw [hi] at hs; cases hs
  | some n0 =>
    rw [hi] at hs
    dsimp only at hs
    cases hl : stageLoop rand fuelS
        { nodes := n0, stepsNodes := [], stepsPaths := [], cur := [start],
          curPaths := [], ridx := 0 } with
    | none => rw [hl] at hs; cases hs
    | some sF =>
      rw [hl] at hs
      dsimp only at hs
      cases hs
      have hffl := nodesFromTransitions_freshFlags hb
      have hd : ∀ pr ∈ nodes, -1 ≤ pr.2.distSinceFight := fun pr hpr =>
        le_of_eq ((hffl pr hpr).2).symm
      obtain ⟨hdist0, hboss, hbossO, hd0, hch, hstart⟩ := stageInit_spec hd hi
      obtain ⟨hinv, hcur, hcp⟩ := stageLoop_some_inv rand fuelS _ sF (SInv_init hd0) hl
      refine ⟨?_, ?_, ?_, ?_⟩
      · intro k
        constructor
        · intro hk
          exact (Reach_congr hch start k).mp
            (hinv.reachB k (List.mem_append_left _ hk))
        · intro hk
          exact reach_mem_flatten hinv hcur k ((Reach_congr hch start k).mpr hk)
      · have h1 := hinv.nodupB
        rw [hcur, List.append_nil] at h1
        exact h1
      · intro e he
        have h1 := hinv.edgesG e (List.mem_append_left _ he)
        rw [hch] at h1
        exact h1
      · intro p c hp hc
        have hpF : p ∈ sF.stepsNodes.flatten :=
          reach_mem_flatten hinv hcur p ((Reach_congr hch start p).mpr hp)
        have hcE := hinv.closedE p hpF c (by rw [hch]; exact hc)
        rw [hcp, List.append_nil] at hcE
        obtain ⟨e, heMem, heS⟩ := hcE
        have hND := hinv.edgesND
        rw [hcp, List.append_nil] at hND
        exact countP_one_of_pairwise (p, c) _ hND e heMem heS

/-- Witness for C6 at the concrete scenario-6 input with a constant draw
stream of 1 (no encounter roll succeeds). -/
theorem C6_staging_batches_witness :
    nodesFromTransitions c9p00 c9p22 tChain 20 = some mChain ∧
    stagingRun mChain c9p00 c9p22 (fun _ => 1) 20 = some
      ([[c9p00], [c9p11], [c9p22]], [[], [(c9p00, c9p11)], [(c9p11, c9p22)]],
       [(c9p00, c9n00), (c9p22, c9n22), (c9p11, c9n11n)]) ∧
    ([[c9p00], [c9p11], [c9p22]] : List (List Point)).flatten.Nodup := by
  have hsr : stagingRun mChain c9p00 c9p22 (fun _ => 1) 20 = some
      ([[c9p00], [c9p11], [c9p22]], [[], [(c9p00, c9p11)], [(c9p11, c9p22)]],
       [(c9p00, c9n00), (c9p22, c9n22), (c9p11, c9n11n)]) :=
    c9_staging_of_first (fun _ => 1) c9n11n
      (c9_first_step_nofight (fun _ => 1) (by norm_num)) rfl rfl
  exact ⟨by decide, hsr,
    (C6_staging_batches c9p00 c9p22 tChain (fun _ => 1) 20 20 mChain
      [[c9p00], [c9p11], [c9p22]] [[], [(c9p00, c9p11)], [(c9p11, c9p22)]]
      [(c9p00, c9n00), (c9p22, c9n22), (c9p11, c9n11n)]
      (by decide) hsr).2.1⟩

/-- C8: a staging relaxation touches the child only when its
`distSinceFight` is unresolved (−1) or exceeds `parentDist + 1`; in that
case it consumes the draw `r` and sets the distance to 0 with a portrait
request when `r < 0.1 * parentDist + 0.1`, and to `max (parentDist + 1) 1`
otherwise, leaving every other field unchanged; in all other cases the child
is returned unchanged with no draw consumed. -/
theorem C8_relaxation (parentDist : Int) (child : MapNode) (r : ℚ) :
    (¬ (child.distSinceFight = -1 ∨ parentDist + 1 < child.distSinceFight) →
        relaxChild parentDist child r = (child, false)) ∧
    ((child.distSinceFight = -1 ∨ parentDist + 1 < child.distSinceFight) →
      (relaxChild parentDist child r).2 = true ∧
      (r < (parentDist : ℚ) / 10 + 1 / 10 →
        (relaxChild parentDist child r).1.distSinceFight = 0 ∧
        (relaxChild parentDist child r).1.portrait = true) ∧
      (¬ r < (parentDist : ℚ) / 10 + 1 / 10 →
        (relaxChild parentDist child r).1.distSinceFight = max (parentDist + 1) 1 ∧
        (relaxChild parentDist child r).1.portrait = child.portrait) ∧
      (relaxChild parentDist child r).1.isBoss = child.isBoss ∧
      (relaxChild parentDist child r).1.parents = child.parents ∧
      (relaxChild parentDist child r).1.children = child.children) := by
  constructor
  · intro hcond
    rw [relaxChild, if_neg hcond]
  · intro hcond
    by_cases hr : r < (parentDist : ℚ) / 10 + 1 / 10
    · rw [relaxChild, if_pos hcond, if_pos hr]
      exact ⟨rfl, fun _ => ⟨rfl, rfl⟩, fun h => absurd hr h, rfl, rfl, rfl⟩
    · rw [relaxChild, if_pos hcond, if_neg hr]
      exact ⟨rfl, fun h => absurd h hr, fun _ => ⟨rfl, rfl⟩, rfl, rfl, rfl⟩

/-- Witness for C8: an already-resolved child is untouched; an unresolved
child becomes an encounter under a low draw and gets distance
`max (parentDist + 1) 1` under a high draw. -/
theorem C8_relaxation_witness :
    relaxChild 3 c9n00 0 = (c9n00, false) ∧
    ((relaxChild 1 c9n11 (0 : ℚ)).1.distSinceFight = 0 ∧
      (relaxChild 1 c9n11 (0 : ℚ)).1.portrait = true) ∧
    (relaxChild 1 c9n11 (1 : ℚ)).1.distSinceFight = max ((1 : Int) + 1) 1 :=
  ⟨(C8_relaxation 3 c9n00 0).1 (by decide),
   ((C8_relaxation 1 c9n11 0).2 (Or.inl rfl)).2.1 (by norm_num),
   (((C8_relaxation 1 c9n11 1).2 (Or.inl rfl)).2.2.1 (by norm_num)).1⟩

/-- After `stageInit` on a fresh-flagged registry, only the end node carries
the boss flag. -/
theorem stageInit_isBoss_mem {nodes n0 : NodeMap} {start endP : Point}
    (hff : FreshFlags nodes) (h : stageInit nodes start endP = some n0) :
    ∀ q ∈ n0, q.1 ≠ endP → q.2.isBoss = false := by
  unfold stageInit at h
  cases h1 : alookup start nodes with
  | none => rw [h1] at h; cases h
  | some sn =>
    rw [h1] at h
    dsimp only at h
    cases h2 : alookup endP (aset start { sn with distSinceFight := 1 } nodes) with
    | none => rw [h2] at h; cases h
    | some en =>
      rw [h2] at h
      dsimp only at h
      cases h
      intro q hq hne
      rcases mem_aset hq with h3 | h3
      · subst h3
        exact absurd rfl hne
      · rcases mem_aset h3 with h4 | h4
        · subst h4
          exact (hff _ (alookup_mem h1)).1
        · exact (hff q h4).1

/-- C10: a `distSinceFight` of 0 is stable under the rest of the staging
loop; and through `buildAnimationSteps` the end node of the returned
registry keeps `distSinceFight = 0` with `isBoss = true` while every other
node has `isBoss = false`. -/
theorem C10_encounter_stability (start endP : Point) (t : Transitions) (rand : ℕ → ℚ)
    (fuelB fuelS : ℕ) (nodes : NodeMap) (batchesN : List (List Point))
    (batchesP : List (List (Point × Point))) (nodesF : NodeMap)
    (hb : nodesFromTransitions start endP t fuelB = some nodes)
    (hs : stagingRun nodes start endP rand fuelS = some (batchesN, batchesP, nodesF)) :
    (∀ (fuel : ℕ) (s sF : StageState) (k : Point),
        (∀ pr ∈ s.nodes, -1 ≤ pr.2.distSinceFight) →
        stageLoop rand fuel s = some sF →
        distOf s.nodes k = some 0 → distOf sF.nodes k = some 0) ∧
    distOf nodesF endP = some 0 ∧
    bossOf nodesF endP = some true ∧
    (∀ pr ∈ nodesF, pr.1 ≠ endP → pr.2.isBoss = false) := by
  unfold stagingRun at hs
  cases hi : stageInit nodes start endP with
  | none => rw [hi] at hs; cases hs
  | some n0 =>
    rw [hi] at hs
    dsimp only at hs
    cases hl : stageLoop rand fuelS
        { nodes := n0, stepsNodes := [], stepsPaths := [], cur := [start],
          curPaths := [], ridx := 0 } with
    | none => rw [hl] at hs; cases hs
    | some sF =>
      rw [hl] at hs
      dsimp only at hs
      cases hs
      have hffl := nodesFromTransitions_freshFlags hb
      have hd : ∀ pr ∈ nodes, -1 ≤ pr.2.distSinceFight := fun pr hpr =>
        le_of_eq ((hffl pr hpr).2).symm
      obtain ⟨hdist0, hboss, hbossO, hd0, hch, hstart⟩ := stageInit_spec hd hi
      obtain ⟨hinv, hcur, hcp⟩ := stageLoop_some_inv rand fuelS _ sF (SInv_init hd0) hl
      refine ⟨fun fuel s sF' k hds hloop hz => stageLoop_zero rand fuel s sF' hds hloop k hz,
        ?_, ?_, ?_⟩
      · exact stageLoop_zero rand fuelS _ sF hd0 hl endP hdist0
      · rw [bossOf_eq_of_skel hinv.skel endP]
        exact hboss
      · intro pr hpr hne
        have h1 : nodeSkel pr ∈ n0.map nodeSkel := by
          rw [← hinv.skel]
          exact List.mem_map_of_mem _ hpr
        obtain ⟨q, hq, hqe⟩ := List.mem_map.mp h1
        simp only [nodeSkel, Prod.mk.injEq] at hqe
        obtain ⟨hk, hchq, hbq⟩ := hqe
        rw [← hbq]
        refine stageInit_isBoss_mem hffl hi q hq ?_
        rw [hk]
        exact hne

/-- Witness for C10 at the concrete scenario-6 input with a constant draw
stream of 1. -/
theorem C10_encounter_stability_witness :
    nodesFromTransitions c9p00 c9p22 tChain 20 = some mChain ∧
    stagingRun mChain c9p00 c9p22 (fun _ => 1) 20 = some
      ([[c9p00], [c9p11], [c9p22]], [[], [(c9p00, c9p11)], [(c9p11, c9p22)]],
       [(c9p00, c9n00), (c9p22, c9n22), (c9p11, c9n11n)]) ∧
    distOf [(c9p00, c9n00), (c9p22, c9n22), (c9p11, c9n11n)] c9p22 = some 0 ∧
    bossOf [(c9p00, c9n00), (c9p22, c9n22), (c9p11, c9n11n)] c9p22 = some true := by
  have hsr : stagingRun mChain c9p00 c9p22 (fun _ => 1) 20 = some
      ([[c9p00], [c9p11], [c9p22]], [[], [(c9p00, c9p11)], [(c9p11, c9p22)]],
       [(c9p00, c9n00), (c9p22, c9n22), (c9p11, c9n11n)]) :=
    c9_staging_of_first (fun _ => 1) c9n11n
      (c9_first_step_nofight (fun _ => 1) (by norm_num)) rfl rfl
  have hc := C10_encounter_stability c9p00 c9p22 tChain (fun _ => 1) 20 20 mChain
    [[c9p00], [c9p11], [c9p22]] [[], [(c9p00, c9p11)], [(c9p11, c9p22)]]
    [(c9p00, c9n00), (c9p22, c9n22), (c9p11, c9n11n)] (by decide) hsr
  exact ⟨by decide, hsr, hc.2.1, hc.2.2.1⟩

/-- C7 (amended): across consecutive node batches of the staging output,
every node of a batch has a parent — a node listing it as a child — in the
immediately preceding batch. -/
theorem C7_batch_parent_levels (start endP : Point) (t : Transitions) (rand : ℕ → ℚ)
    (fuelB fuelS : ℕ) (nodes : NodeMap) (batchesN : List (List Point))
    (batchesP : List (List (Point × Point))) (nodesF : NodeMap)
    (hb : nodesFromTransitions start endP t fuelB = some nodes)
    (hs : stagingRun nodes start endP rand fuelS = some (batchesN, batchesP, nodesF)) :
    List.Chain' (fun b1 b2 => ∀ k ∈ b2, ∃ p ∈ b1, k ∈ childrenOf nodes p) batchesN := by
  unfold stagingRun at hs
  cases hi : stageInit nodes start endP with
  | none => rw [hi] at hs; cases hs
  | some n0 =>
    rw [hi] at hs
    dsimp only at hs
    cases hl : stageLoop rand fuelS
        { nodes := n0, stepsNodes := [], stepsPaths := [], cur := [start],
          curPaths := [], ridx := 0 } with
    | none => rw [hl] at hs; cases hs
    | some sF =>
      rw [hl] at hs
      dsimp only at hs
      cases hs
      have hffl := nodesFromTransitions_freshFlags hb
      have hd : ∀ pr ∈ nodes, -1 ≤ pr.2.distSinceFight := fun pr hpr =>
        le_of_eq ((hffl pr hpr).2).symm
      obtain ⟨hdist0, hboss, hbossO, hd0, hch, hstart⟩ := stageInit_spec hd hi
      obtain ⟨hinv, hcur, hcp⟩ := stageLoop_some_inv rand fuelS _ sF (SInv_init hd0) hl
      have hlev := hinv.levels
      have h2 := (List.chain'_append.mp hlev).1
      exact h2.imp fun b1 b2 hb12 k hk => by
        obtain ⟨p, hp, hkp⟩ := hb12 k hk
        exact ⟨p, hp, hch p ▸ hkp⟩

/-- Witness for C7's amended statement at the concrete scenario-6 input. -/
theorem C7_batch_parent_levels_witness :
    nodesFromTransitions c9p00 c9p22 tChain 20 = some mChain ∧
    stagingRun mChain c9p00 c9p22 (fun _ => 1) 20 = some
      ([[c9p00], [c9p11], [c9p22]], [[], [(c9p00, c9p11)], [(c9p11, c9p22)]],
       [(c9p00, c9n00), (c9p22, c9n22), (c9p11, c9n11n)]) ∧
    List.Chain' (fun b1 b2 => ∀ k ∈ b2, ∃ p ∈ b1, k ∈ childrenOf mChain p)
      [[c9p00], [c9p11], [c9p22]] := by
  have hsr : stagingRun mChain c9p00 c9p22 (fun _ => 1) 20 = some
      ([[c9p00], [c9p11], [c9p22]], [[], [(c9p00, c9p11)], [(c9p11, c9p22)]],
       [(c9p00, c9n00), (c9p22, c9n22), (c9p11, c9n11n)]) :=
    c9_staging_of_first (fun _ => 1) c9n11n
      (c9_first_step_nofight (fun _ => 1) (by norm_num)) rfl rfl
  exact ⟨by decide, hsr,
    C7_batch_parent_levels c9p00 c9p22 tChain (fun _ => 1) 20 20 mChain
      [[c9p00], [c9p11], [c9p22]] [[], [(c9p00, c9p11)], [(c9p11, c9p22)]]
      [(c9p00, c9n00), (c9p22, c9n22), (c9p11, c9n11n)] (by decide) hsr⟩

/-! Counterexample scenario for C7: two routes of different length to the
end, `(0,0) → (1,1)` and `(0,0) → (2,2) → (3,3) → (1,1)`, so the end's
second discovering parent `(3,3)` is revealed after the end itself. -/

def p7s : Point := ⟨0, 0⟩
def p7v : Point := ⟨1, 1⟩
def p7a : Point := ⟨2, 2⟩
def p7u : Point := ⟨3, 3⟩

/-- The transition table of the two paths `[(0,0),(1,1)]` and
`[(0,0),(2,2),(3,3),(1,1)]`. -/
def t7 : Transitions :=
  [(p7s, [p7v, p7a]), (p7v, [p7s, p7u]), (p7a, [p7s, p7u]), (p7u, [p7a, p7v])]

theorem t7_built : BuiltFromPaths t7 :=
  ⟨[[p7s, p7v], [p7s, p7a, p7u, p7v]], by decide, by decide, by decide⟩

def n7s : MapNode :=
  { x := 0, y := 0, distSinceFight := -1, isBoss := false, portrait := false,
    parents := [], children := [p7v, p7a] }
def n7v : MapNode :=
  { x := 1, y := 1, distSinceFight := -1, isBoss := false, portrait := false,
    parents := [p7s, p7u], children := [] }
def n7a : MapNode :=
  { x := 2, y := 2, distSinceFight := -1, isBoss := false, portrait := false,
    parents := [p7s], children := [p7u] }
def n7u : MapNode :=
  { x := 3, y := 3, distSinceFight := -1, isBoss := false, portrait := false,
    parents := [p7a], children := [p7v] }

/-- The registry the builder produces on `t7`. -/
def m7 : NodeMap := [(p7s, n7s), (p7v, n7v), (p7a, n7a), (p7u, n7u)]

/-- The draw stream of the counterexample: constantly 1, so no encounter
roll ever succeeds. -/
def r7 : ℕ → ℚ := fun _ => 1

def n7s1 : MapNode := { n7s with distSinceFight := 1 }
def n7v0 : MapNode := { n7v with distSinceFight := 0, isBoss := true, portrait := true }
def n7a2 : MapNode := { n7a with distSinceFight := 2 }
def n7u3 : MapNode := { n7u with distSinceFight := 3 }

/-- The registry after `stageInit`. -/
def m70 : NodeMap := [(p7s, n7s1), (p7v, n7v0), (p7a, n7a), (p7u, n7u)]
/-- After the first sweep (`(2,2)` relaxed to distance 2). -/
def m71 : NodeMap := [(p7s, n7s1), (p7v, n7v0), (p7a, n7a2), (p7u, n7u)]
/-- After the second sweep (`(3,3)` relaxed to distance 3). -/
def m72 : NodeMap := [(p7s, n7s1), (p7v, n7v0), (p7a, n7a2), (p7u, n7u3)]

def s7_0 : StageState :=
  { nodes := m70, stepsNodes := [], stepsPaths := [], cur := [p7s],
    curPaths := [], ridx := 0 }
def s7_1 : StageState :=
  { nodes := m71, stepsNodes := [[p7s]], stepsPaths := [[]],
    cur := [p7v, p7a], curPaths := [(p7s, p7v), (p7s, p7a)], ridx := 1 }
def s7_2 : StageState :=
  { nodes := m72, stepsNodes := [[p7s], [p7v, p7a]],
    stepsPaths := [[], [(p7s, p7v), (p7s, p7a)]],
    cur := [p7u], curPaths := [(p7a, p7u)], ridx := 2 }
def s7_3 : StageState :=
  { nodes := m72, stepsNodes := [[p7s], [p7v, p7a], [p7u]],
    stepsPaths := [[], [(p7s, p7v), (p7s, p7a)], [(p7a, p7u)]],
    cur := [], curPaths := [(p7u, p7v)], ridx := 2 }
def s7_4 : StageState :=
  { nodes := m72, stepsNodes := [[p7s], [p7v, p7a], [p7u], []],
    stepsPaths := [[], [(p7s, p7v), (p7s, p7a)], [(p7a, p7u)], [(p7u, p7v)]],
    cur := [], curPaths := [], ridx := 2 }

theorem s7_step1 : stageStep r7 s7_0 = s7_1 := by
  have hrc : relaxChild 1 n7a (r7 0) = (n7a2, true) := by
    rw [relaxChild, if_pos (show n7a.distSinceFight = -1 ∨ (1 : Int) + 1 < n7a.distSinceFight
      from Or.inl rfl),
      if_neg (show ¬ r7 0 < ((1 : Int) : ℚ) / 10 + 1 / 10 from by norm_num [r7])]
    rfl
  have hv1 : visitChildren [p7s] [] p7s r7 [p7v, p7a] m70 [] [] 0 =
      visitChildren [p7s] [] p7s r7 [p7a] m70 [(p7s, p7v)] [p7v] 0 := rfl
  have hv2 : visitChildren [p7s] [] p7s r7 [p7a] m70 [(p7s, p7v)] [p7v] 0 =
      (m71, [(p7s, p7v), (p7s, p7a)], [p7v, p7a], 1) := by
    rw [visitChildren]
    rw [show alookup p7s m70 = some n7s1 from rfl,
        show alookup p7a m70 = some n7a from rfl]
    dsimp only
    rw [show n7s1.distSinceFight = 1 from rfl, hrc]
    rfl
  rw [stageStep]
  rw [show (s7_0.stepsNodes ++ [s7_0.cur]).flatten = [p7s] from rfl,
      show (s7_0.stepsPaths ++ [s7_0.curPaths]).flatten = [] from rfl]
  rw [show s7_0.cur = [p7s] from rfl, show s7_0.nodes = m70 from rfl,
      show s7_0.ridx = 0 from rfl]
  rw [processRound]
  rw [show alookup p7s m70 = some n7s1 from rfl]
  dsimp only
  rw [show n7s1.children = [p7v, p7a] from rfl, hv1.trans hv2]
  rfl

theorem s7_step2 : stageStep r7 s7_1 = s7_2 := by
  have hrc : relaxChild 2 n7u (r7 1) = (n7u3, true) := by
    rw [relaxChild, if_pos (show n7u.distSinceFight = -1 ∨ (2 : Int) + 1 < n7u.distSinceFight
      from Or.inl rfl),
      if_neg (show ¬ r7 1 < ((2 : Int) : ℚ) / 10 + 1 / 10 from by norm_num [r7])]
    rfl
  have hv : visitChildren [p7s, p7v, p7a] [(p7s, p7v), (p7s, p7a)] p7a r7 [p7u] m71 [] [] 1 =
      (m72, [(p7a, p7u)], [p7u], 2) := by
    rw [visitChildren]
    rw [show alookup p7a m71 = some n7a2 from rfl,
        show alookup p7u m71 = some n7u from rfl]
    dsimp only
    rw [show n7a2.distSinceFight = 2 from rfl, hrc]
    rfl
  have hp : processRound [p7s, p7v, p7a] [(p7s, p7v), (p7s, p7a)] r7 [p7v, p7a] m71 [] 1 =
      processRound [p7s, p7v, p7a] [(p7s, p7v), (p7s, p7a)] r7 [p7a] m71 [] 1 := rfl
  rw [stageStep]
  rw [show (s7_1.stepsNodes ++ [s7_1.cur]).flatten = [p7s, p7v, p7a] from rfl,
      show (s7_1.stepsPaths ++ [s7_1.curPaths]).flatten = [(p7s, p7v), (p7s, p7a)] from rfl]
  rw [show s7_1.cur = [p7v, p7a] from rfl, show s7_1.nodes = m71 from rfl,
      show s7_1.ridx = 1 from rfl]
  rw [hp, processRound]
  rw [show alookup p7a m71 = some n7a2 from rfl]
  dsimp only
  rw [show n7a2.children = [p7u] from rfl, hv]
  rfl

def b7N : List (List Point) := [[p7s], [p7v, p7a], [p7u], []]
def b7P : List (List (Point × Point)) :=
  [[], [(p7s, p7v), (p7s, p7a)], [(p7a, p7u)], [(p7u, p7v)]]

theorem s7_run : stagingRun m7 p7s p7v r7 20 = some (b7N, b7P, m72) := by
  have hloop : stageLoop r7 20 s7_0 = some s7_4 := by
    calc stageLoop r7 20 s7_0
        = stageLoop r7 19 (stageStep r7 s7_0) := stageLoop_go r7 19 s7_0 (by decide)
      _ = stageLoop r7 19 s7_1 := by rw [s7_step1]
      _ = stageLoop r7 18 (stageStep r7 s7_1) := stageLoop_go r7 18 s7_1 (by decide)
      _ = stageLoop r7 18 s7_2 := by rw [s7_step2]
      _ = stageLoop r7 17 (stageStep r7 s7_2) := stageLoop_go r7 17 s7_2 (by decide)
      _ = stageLoop r7 17 s7_3 := by rw [show stageStep r7 s7_2 = s7_3 from rfl]
      _ = stageLoop r7 16 (stageStep r7 s7_3) := stageLoop_go r7 16 s7_3 (by decide)
      _ = stageLoop r7 16 s7_4 := by rw [show stageStep r7 s7_3 = s7_4 from rfl]
      _ = some s7_4 := stageLoop_done r7 15 s7_4 ⟨rfl, rfl⟩
  calc stagingRun m7 p7s p7v r7 20
      = (match stageLoop r7 20 s7_0 with
         | none => none
         | some s => some (s.stepsNodes, s.stepsPaths, s.nodes)) := rfl
    _ = some (b7N, b7P, m72) := by
        rw [hloop]
        rfl

/-- Counterexample to C7 as stated: on the acyclic two-route graph built
from `t7`, the end node `(1,1)` lands in batch 1 while its discovering
parent `(3,3)` lands in batch 2, so the child's batch index is not strictly
greater than this parent's. -/
theorem C7_batch_order_counterexample :
    BuiltFromPaths t7 ∧
    nodesFromTransitions p7s p7v t7 20 = some m7 ∧
    (m7.all fun pr => !(hasAncestorF m7 (m7.length + 1) pr.2 pr.1)) = true ∧
    buildAnimationSteps p7s p7v t7 r7 20 20 = some (b7N, b7P, m72) ∧
    p7v ∈ childrenOf m7 p7u ∧
    b7N.findIdx? (fun b => b.contains p7u) = some 2 ∧
    b7N.findIdx? (fun b => b.contains p7v) = some 1 ∧
    ¬ (1 : ℕ) > 2 := by
  refine ⟨t7_built, by decide, by decide, ?_, by decide, by decide, by decide, by decide⟩
  calc buildAnimationSteps p7s p7v t7 r7 20 20
      = stagingRun m7 p7s p7v r7 20 := rfl
    _ = some (b7N, b7P, m72) := s7_run

/-!
## The A* grid search (`src/AStar.ts`)

The grid constructor gives every vertex the cost `Math.random() * (width +
height) / 10` and precomputes diagonal adjacency lists — but only for cells
whose coordinates are both even or both odd (the two strided constructor
loops), i.e. cells of even coordinate sum.  `find` runs a best-first search
whose priorities are the exact real numbers `cost + manhattan/sqrt 2`; since
`manhattan/sqrt 2 = (manhattan/2)*sqrt 2`, priorities live in `ℚ(sqrt 2)`
and are modelled exactly as pairs `a + b*sqrt 2` with a decidable sign test
(compare the rational and irrational parts, squaring once when they have
opposite signs).  Reading `adjacencies[key]` for a cell of odd coordinate sum
yields `undefined` and the `for`-of throws: `none`.  The `while` loops of
`find` (the search loop and the backtrace loop) are unbounded in the source
and take fuel; the claims' theorems compute sufficient fuel.
-/

/-- An element `a + b * sqrt 2` of `ℚ(sqrt 2)`. -/
structure QSqrt2 where
  a : ℚ
  b : ℚ
deriving DecidableEq, Repr

/-- Decidable test `0 < a + b * sqrt 2`: compare signs, squaring when the
rational and irrational parts have opposite signs. -/
def QSqrt2.posB (p : QSqrt2) : Bool :=
  if 0 ≤ p.a then
    if 0 ≤ p.b then decide (0 < p.a) || decide (0 < p.b)
    else decide (2 * p.b ^ 2 < p.a ^ 2)
  else
    if 0 ≤ p.b then decide (p.a ^ 2 < 2 * p.b ^ 2)
    else false

/-- The JavaScript `>` on priorities: `x > y` in `ℚ(sqrt 2)`. -/
def qs2Gt (x y : QSqrt2) : Bool := QSqrt2.posB ⟨x.a - y.a, x.b - y.b⟩

/-- The sign test is exact: `posB` decides `0 < a + b * sqrt 2`. -/
theorem QSqrt2.posB_correct (p : QSqrt2) :
    p.posB = true ↔ 0 < (p.a : ℝ) + (p.b : ℝ) * Real.sqrt 2 := by
  have hs2 : (0 : ℝ) < Real.sqrt 2 := Real.sqrt_pos.mpr (by norm_num)
  have hsq : Real.sqrt 2 ^ 2 = 2 := Real.sq_sqrt (by norm_num)
  unfold QSqrt2.posB
  by_cases ha : 0 ≤ p.a
  · rw [if_pos ha]
    by_cases hb : 0 ≤ p.b
    · rw [if_pos hb]
      simp only [Bool.or_eq_true, decide_eq_true_eq]
      constructor
      · rintro (h | h)
        · have : (0 : ℝ) ≤ (p.b : ℝ) * Real.sqrt 2 := by positivity
          have ha' : (0 : ℝ) < (p.a : ℝ) := by exact_mod_cast h
          linarith
        · have hb' : (0 : ℝ) < (p.b : ℝ) := by exact_mod_cast h
          have ha' : (0 : ℝ) ≤ (p.a : ℝ) := by exact_mod_cast ha
          nlinarith
      · intro h
        by_contra hc
        push_neg at hc
        have h1 : p.a = 0 := le_antisymm hc.1 ha
        have h2 : p.b = 0 := le_antisymm hc.2 hb
        rw [h1, h2] at h
        simp at h
    · rw [if_neg hb]
      push_neg at hb
      have hb' : (p.b : ℝ) < 0 := by exact_mod_cast hb
      have ha' : (0 : ℝ) ≤ (p.a : ℝ) := by exact_mod_cast ha
      simp only [decide_eq_true_eq]
      constructor
      · intro h
        have h' : (2 : ℝ) * (p.b : ℝ) ^ 2 < (p.a : ℝ) ^ 2 := by exact_mod_cast h
        nlinarith [sq_nonneg ((p.a : ℝ) - (p.b : ℝ) * Real.sqrt 2),
          mul_pos (neg_pos.mpr hb') hs2]
      · intro h
        have h1 : -(p.b : ℝ) * Real.sqrt 2 < (p.a : ℝ) := by linarith
        have h2 : (0 : ℝ) < -(p.b : ℝ) * Real.sqrt 2 := by
          exact mul_pos (neg_pos.mpr hb') hs2
        have h3 : (-(p.b : ℝ) * Real.sqrt 2) ^ 2 < (p.a : ℝ) ^ 2 := by
          exact pow_lt_pow_left₀ h1 (le_of_lt h2) (by norm_num)
        rw [mul_pow, hsq] at h3
        exact_mod_cast (by nlinarith : (2 : ℝ) * (p.b : ℝ) ^ 2 < (p.a : ℝ) ^ 2)
  · rw [if_neg ha]
    push_neg at ha
    have ha' : (p.a : ℝ) < 0 := by exact_mod_cast ha
    by_cases hb : 0 ≤ p.b
    · rw [if_pos hb]
      have hb' : (0 : ℝ) ≤ (p.b : ℝ) := by exact_mod_cast hb
      simp only [decide_eq_true_eq]
      constructor
      · intro h
        have h' : (p.a : ℝ) ^ 2 < 2 * (p.b : ℝ) ^ 2 := by exact_mod_cast h
        nlinarith [sq_nonneg ((p.a : ℝ) + (p.b : ℝ) * Real.sqrt 2),
          mul_nonneg hb' (le_of_lt hs2)]
      · intro h
        have h1 : -(p.a : ℝ) < (p.b : ℝ) * Real.sqrt 2 := by linarith
        have h2 : (0 : ℝ) ≤ -(p.a : ℝ) := by linarith
        have h3 : (-(p.a : ℝ)) ^ 2 < ((p.b : ℝ) * Real.sqrt 2) ^ 2 :=
          pow_lt_pow_left₀ h1 h2 (by norm_num)
        rw [mul_pow, hsq] at h3
        have h4 : ((p.a : ℝ)) ^ 2 < 2 * (p.b : ℝ) ^ 2 := by nlinarith
        exact_mod_cast h4
    · rw [if_neg hb]
      push_neg at hb
      have hb' : (p.b : ℝ) < 0 := by exact_mod_cast hb
      simp only [Bool.false_eq_true, false_iff, not_lt]
      nlinarith [mul_pos (neg_pos.mpr hb') hs2]

/-- `0 <= x < width && 0 <= y < height`: the grid-array read succeeds. -/
def inBounds (W H : Int) (p : Point) : Prop :=
  0 ≤ p.x ∧ p.x < W ∧ 0 ≤ p.y ∧ p.y < H

instance (W H : Int) (p : Point) : Decidable (inBounds W H p) := by
  unfold inBounds
  infer_instance

/-- `manhattanDistance`: `|ax - bx| + |ay - by|`. -/
def manhattanDistance (a b : Point) : Int :=
  (a.x - b.x).natAbs + (a.y - b.y).natAbs

/-- `generateAdjacencies`: the in-bounds diagonal neighbors, in the source's
offset order `[1,1], [-1,1], [-1,-1], [1,-1]`. -/
def generateAdjacencies (W H : Int) (p : Point) : List Point :=
  ([(1, 1), (-1, 1), (-1, -1), (1, -1)] : List (Int × Int)).filterMap fun o =>
    let nx := p.x + o.1
    let ny := p.y + o.2
    if 0 ≤ nx ∧ nx < W ∧ 0 ≤ ny ∧ ny < H then some ⟨nx, ny⟩ else none

/-- The `adjacencies` record: populated by the two strided constructor loops,
exactly for the in-bounds cells whose coordinates are both even or both odd
(even coordinate sum); reading any other key gives `undefined` (`none`). -/
def adjacencies (W H : Int) (p : Point) : Option (List Point) :=
  if inBounds W H p ∧ (p.x + p.y) % 2 = 0 then some (generateAdjacencies W H p)
  else none

/-- The vertex cost `Math.random() * (width + height) / 10` drawn at
construction, in construction order (`x`-major). -/
def vertexCost (rand : ℕ → ℚ) (W H : Int) (p : Point) : ℚ :=
  rand (p.x * H + p.y).toNat * ((W : ℚ) + (H : ℚ)) / 10

/-- A diagonal step: the coordinates differ by exactly `(±1, ±1)`. -/
def diagStep (a b : Point) : Prop :=
  (b.x - a.x).natAbs = 1 ∧ (b.y - a.y).natAbs = 1

instance (a b : Point) : Decidable (diagStep a b) := by
  unfold diagStep
  infer_instance

/-- Why the search stopped: it popped the end vertex, or the frontier
emptied. -/
inductive ExitReason where
  | reachedEnd : ExitReason
  | exhausted : ExitReason
deriving DecidableEq, Repr

/-- The mutable state of `find`: the frontier queue and the `costs` and
`origin` records. -/
structure SearchState where
  frontier : PQueue Point QSqrt2
  costs : List (Point × ℚ)
  origin : List (Point × Option Point)
deriving DecidableEq, Repr

/-- The `for (let v of this.adjacencies[current.key()])` loop: relax each
neighbor.  `costs[current.key()]` is re-read on every iteration as in the
source (the `none` branch is dead code: every dequeued key has a cost
entry). -/
def relaxNeighbors (cost : Point → ℚ) (endV current : Point) :
    List Point → List (Point × ℚ) → List (Point × Option Point) →
    PQueue Point QSqrt2 →
    Option (List (Point × ℚ) × List (Point × Option Point) × PQueue Point QSqrt2)
  | [], costs, origin, frontier => some (costs, origin, frontier)
  | v :: vs, costs, origin, frontier =>
    match alookup current costs with
    | none => none
    | some c =>
      let newCost := c + cost v
      let doUpd : Bool := match alookup v costs with
        | none => true
        | some cv => decide (newCost < cv)
      if doUpd then
        relaxNeighbors cost endV current vs (aset v newCost costs)
          (aset v (some current) origin)
          (frontier.insert qs2Gt v ⟨newCost, ((manhattanDistance v endV : Int) : ℚ) / 2⟩)
      else relaxNeighbors cost endV current vs costs origin frontier

/-- The `while (frontier.length > 0)` search loop, fuelled.  Exits with
`reachedEnd` when the popped vertex is the end (or, dead code, when a
nonempty queue dequeues `null`), with `exhausted` when the frontier empties;
`none` models the `for`-of throw on a missing adjacency list (and exhausted
fuel). -/
def findLoop (W H : Int) (cost : Point → ℚ) (endV : Point) :
    ℕ → SearchState → Option (ExitReason × SearchState)
  | 0, _ => none
  | fuel + 1, s =>
    if s.frontier.length = 0 then some (ExitReason.exhausted, s)
    else
      match s.frontier.dequeue with
      | (none, f') => some (ExitReason.reachedEnd, { s with frontier := f' })
      | (some (current, _), f') =>
        if current = endV then some (ExitReason.reachedEnd, { s with frontier := f' })
        else
          match adjacencies W H current with
          | none => none
          | some adj =>
            match relaxNeighbors cost endV current adj s.costs s.origin f' with
            | none => none
            | some (c', o', f'') => findLoop W H cost endV fuel ⟨f'', c', o'⟩

/-- The backtrace loop `while (current != null) { path.push(current); current
= origin[current.key()]; }`, fuelled: a missing `origin` entry reads as
`undefined`, which the loose `!= null` treats like `null`. -/
def backtraceF (origin : List (Point × Option Point)) :
    ℕ → Option Point → List Point → Option (List Point)
  | 0, _, _ => none
  | _ + 1, none, acc => some acc
  | fuel + 1, some current, acc =>
    backtraceF origin fuel ((alookup current origin).getD none) (acc ++ [current])

/-- `AStar.find(start, end)`: seed the frontier with the start vertex at
priority 0 and run the search, then backtrace from the end vertex and reverse.
`none` when a grid read is out of bounds (`getVertex` throws), when an
adjacency list is missing, or when a fuelled loop runs out.  The exit reason
is returned alongside the source's return value. -/
def find (W H : Int) (cost : Point → ℚ) (start endP : Point) (fuel : ℕ) :
    Option (ExitReason × List Point) :=
  if inBounds W H start ∧ inBounds W H endP then
    match findLoop W H cost endP fuel
        ⟨(PQueue.mk []).insert qs2Gt start ⟨0, 0⟩, [(start, 0)], [(start, none)]⟩ with
    | none => none
    | some (reason, s) =>
      match backtraceF s.origin (s.origin.length + 2) (some endP) [] with
      | none => none
      | some path => some (reason, path.reverse)
  else none

theorem mem_generateAdjacencies {W H : Int} {p w : Point} :
    w ∈ generateAdjacencies W H p ↔
      inBounds W H w ∧ (w.x = p.x + 1 ∨ w.x = p.x - 1) ∧
        (w.y = p.y + 1 ∨ w.y = p.y - 1) := by
  unfold generateAdjacencies inBounds
  simp only [List.mem_filterMap, List.mem_cons, List.not_mem_nil, or_false]
  constructor
  · rintro ⟨o, ho, hw⟩
    rcases ho with rfl | rfl | rfl | rfl <;>
      · dsimp only at hw
        split at hw
        · cases hw
          rename_i hco
          refine ⟨⟨hco.1, hco.2.1, hco.2.2.1, hco.2.2.2⟩, by dsimp only; omega,
            by dsimp only; omega⟩
        · cases hw
  · rintro ⟨hbw, hx, hy⟩
    rcases hx with hx | hx <;> rcases hy with hy | hy
    · exact ⟨(1, 1), Or.inl rfl, by
        dsimp only
        rw [if_pos (by omega)]
        cases w
        simp only at hx hy
        subst hx hy
        rfl⟩
    · exact ⟨(1, -1), Or.inr (Or.inr (Or.inr rfl)), by
        dsimp only
        rw [if_pos (by omega)]
        cases w
        simp only at hx hy
        subst hx hy
        rfl⟩
    · exact ⟨(-1, 1), Or.inr (Or.inl rfl), by
        dsimp only
        rw [if_pos (by omega)]
        cases w
        simp only at hx hy
        subst hx hy
        rfl⟩
    · exact ⟨(-1, -1), Or.inr (Or.inr (Or.inl rfl)), by
        dsimp only
        rw [if_pos (by omega)]
        cases w
        simp only at hx hy
        subst hx hy
        rfl⟩

theorem gen_inBounds {W H : Int} {p w : Point} (h : w ∈ generateAdjacencies W H p) :
    inBounds W H w := (mem_generateAdjacencies.mp h).1

theorem gen_diagStep {W H : Int} {p w : Point} (h : w ∈ generateAdjacencies W H p) :
    diagStep p w := by
  obtain ⟨_, hx, hy⟩ := mem_generateAdjacencies.mp h
  unfold diagStep
  omega

theorem gen_parity {W H : Int} {p w : Point} (h : w ∈ generateAdjacencies W H p) :
    (w.x + w.y) % 2 = (p.x + p.y) % 2 := by
  obtain ⟨_, hx, hy⟩ := mem_generateAdjacencies.mp h
  omega

theorem gen_ne {W H : Int} {p w : Point} (h : w ∈ generateAdjacencies W H p) : w ≠ p := by
  obtain ⟨_, hx, hy⟩ := mem_generateAdjacencies.mp h
  intro he
  subst he
  omega

/-- On an even-parity in-bounds cell the adjacency record is populated. -/
theorem adjacencies_eq {W H : Int} {p : Point} (hb : inBounds W H p)
    (hp : (p.x + p.y) % 2 = 0) :
    adjacencies W H p = some (generateAdjacencies W H p) := by
  unfold adjacencies
  rw [if_pos ⟨hb, hp⟩]

theorem PQueue.length_insert {α P : Type} (gtB : P → P → Bool) (s : PQueue α P)
    (a : α) (p : P) : (s.insert gtB a p).length = s.length + 1 := by
  unfold PQueue.insert PQueue.length
  dsimp only
  rw [List.length_append, List.length_cons, List.length_take, List.length_drop]
  omega

theorem PQueue.mem_insert_of_mem {α P : Type} {gtB : P → P → Bool} {s : PQueue α P}
    {a : α} {p : P} {pr : α × P} (h : pr ∈ s.queue) :
    pr ∈ (s.insert gtB a p).queue := by
  unfold PQueue.insert
  dsimp only
  conv at h => rw [← List.take_append_drop ((pqScan gtB p s.queue 0).getD 0) s.queue]
  rcases List.mem_append.mp h with h1 | h1
  · exact List.mem_append_left _ h1
  · exact List.mem_append_right _ (List.mem_cons_of_mem _ h1)

theorem PQueue.mem_insert {α P : Type} {gtB : P → P → Bool} {s : PQueue α P}
    {a : α} {p : P} {pr : α × P} (h : pr ∈ (s.insert gtB a p).queue) :
    pr = (a, p) ∨ pr ∈ s.queue := by
  unfold PQueue.insert at h
  dsimp only at h
  rcases List.mem_append.mp h with h1 | h1
  · exact Or.inr (List.mem_of_mem_take h1)
  · rcases List.mem_cons.mp h1 with h2 | h2
    · exact Or.inl h2
    · exact Or.inr (List.mem_of_mem_drop h2)

/-- Writing an absent key appends the binding. -/
theorem aset_of_alookup_none {β : Type} {k : Point} {l : List (Point × β)}
    (h : alookup k l = none) (v : β) : aset k v l = l ++ [(k, v)] := by
  induction l with
  | nil => rfl
  | cons hd tl ih =>
    obtain ⟨k', v'⟩ := hd
    unfold alookup at h
    by_cases hk : k' = k
    · rw [if_pos hk] at h
      cases h
    · rw [if_neg hk] at h
      unfold aset
      rw [if_neg hk, ih h]
      rfl

/-- Writing a present key splits the list around the first binding. -/
theorem aset_split {β : Type} {k : Point} {cv : β} {l : List (Point × β)}
    (h : alookup k l = some cv) (v : β) :
    ∃ l₁ l₂, l = l₁ ++ (k, cv) :: l₂ ∧ aset k v l = l₁ ++ (k, v) :: l₂ ∧
      k ∉ l₁.map Prod.fst := by
  induction l with
  | nil => cases h
  | cons hd tl ih =>
    obtain ⟨k', v'⟩ := hd
    unfold alookup at h
    by_cases hk : k' = k
    · rw [if_pos hk] at h
      cases h
      subst hk
      exact ⟨[], tl, rfl, by unfold aset; rw [if_pos rfl]; rfl, by simp⟩
    · rw [if_neg hk] at h
      obtain ⟨l₁, l₂, h1, h2, h3⟩ := ih h
      refine ⟨(k', v') :: l₁, l₂, by rw [h1]; rfl, ?_, ?_⟩
      · unfold aset
        rw [if_neg hk, h2]
        rfl
      · simp only [List.map_cons, List.mem_cons]
        rintro (h4 | h4)
        · exact hk h4.symm
        · exact h3 h4
/-! Grid enumeration and the value arithmetic for the search's termination
measure: every stored cost is a nonnegative multiple of `1 / gridL`, where
`gridL` is the product of the denominators of all grid-cell costs. -/

def gridPoints (W H : Int) : List Point :=
  (List.range W.toNat).flatMap fun (x : ℕ) =>
    (List.range H.toNat).map fun (y : ℕ) => ⟨(x : Int), (y : Int)⟩

theorem mem_gridPoints {W H : Int} {p : Point} :
    p ∈ gridPoints W H ↔ inBounds W H p := by
  unfold gridPoints
  constructor
  · intro hp
    obtain ⟨lx, hlx, hp2⟩ := List.mem_flatMap.mp hp
    obtain ⟨ly, hly, rfl⟩ := List.mem_map.mp hp2
    rw [List.mem_range] at hlx hly
    have h1 : ((lx : Int)) < W := by omega
    have h2 : ((ly : Int)) < H := by omega
    exact ⟨Int.natCast_nonneg lx, h1, Int.natCast_nonneg ly, h2⟩
  · intro hb
    cases p with
    | mk px py =>
      obtain ⟨h1, h2, h3, h4⟩ := hb
      have h1' : 0 ≤ px := h1
      have h2' : px < W := h2
      have h3' : 0 ≤ py := h3
      have h4' : py < H := h4
      refine List.mem_flatMap.mpr ⟨px.toNat, List.mem_range.mpr (by omega), ?_⟩
      refine List.mem_map.mpr ⟨py.toNat, List.mem_range.mpr (by omega), ?_⟩
      congr 1 <;> omega

/-- `nuL L c`: the numerator of `c` over the common denominator `L`. -/
def nuL (L : ℕ) (c : ℚ) : ℕ := (c * L).num.toNat

def gridL (W H : Int) (cost : Point → ℚ) : ℕ :=
  ((gridPoints W H).map fun p => (cost p).den).prod

def gridMc (W H : Int) (cost : Point → ℚ) : ℕ :=
  ((gridPoints W H).map fun p => nuL (gridL W H cost) (cost p)).foldr max 0

def gridN (W H : Int) : ℕ := (gridPoints W H).length

theorem gridL_pos (W H : Int) (cost : Point → ℚ) : 0 < gridL W H cost := by
  refine List.prod_pos ?_
  intro a ha
  obtain ⟨p, _, rfl⟩ := List.mem_map.mp ha
  exact (cost p).pos

theorem den_dvd_gridL {W H : Int} {cost : Point → ℚ} {p : Point}
    (h : inBounds W H p) : (cost p).den ∣ gridL W H cost :=
  List.dvd_prod (List.mem_map_of_mem _ (mem_gridPoints.mpr h))

/-- A nonnegative rational whose denominator divides `L` is `k / L` for the
natural `k = nuL L q`. -/
theorem exists_nuL {L : ℕ} (hL : 0 < L) {q : ℚ} (hq : 0 ≤ q) (hd : q.den ∣ L) :
    q = (nuL L q : ℚ) / (L : ℚ) := by
  obtain ⟨m, hm⟩ := hd
  have hm0 : 0 < m := by
    rcases Nat.eq_zero_or_pos m with h | h
    · rw [h, Nat.mul_zero] at hm
      omega
    · exact h
  have hden0 : ((q.den : ℚ)) ≠ 0 := by
    exact_mod_cast q.den_nz
  have hqd : q * ((q.den : ℚ)) = ((q.num : ℚ)) :=
    (eq_div_iff hden0).mp (Rat.num_div_den q).symm
  have hqL : q * (L : ℚ) = ((q.num * m : ℤ) : ℚ) := by
    rw [hm]
    push_cast
    calc q * ((q.den : ℚ) * (m : ℚ)) = (q * (q.den : ℚ)) * m := by ring
      _ = ((q.num : ℚ)) * m := by rw [hqd]
  have hnum : (q * (L : ℚ)).num = q.num * m := by
    rw [hqL]
    exact Rat.intCast_num _
  have hnn : 0 ≤ q.num * (m : ℤ) := by
    have := Rat.num_nonneg.mpr hq
    positivity
  have hL' : ((L : ℚ)) ≠ 0 := Nat.cast_ne_zero.mpr hL.ne'
  rw [eq_div_iff hL']
  show q * (L : ℚ) = (((q * (L : ℚ)).num.toNat : ℕ) : ℚ)
  rw [hnum, hqL]
  exact_mod_cast (congrArg (fun z : ℤ => ((z : ℚ))) (Int.toNat_of_nonneg hnn)).symm

theorem nuL_of_div {L : ℕ} (hL : 0 < L) (k : ℕ) : nuL L ((k : ℚ) / (L : ℚ)) = k := by
  have hL' : ((L : ℚ)) ≠ 0 := Nat.cast_ne_zero.mpr hL.ne'
  unfold nuL
  rw [div_mul_cancel₀ _ hL']
  rw [show ((k : ℚ)) = ((k : ℤ) : ℚ) from by push_cast; rfl, Rat.intCast_num]
  exact Int.toNat_natCast k

theorem div_L_add {L : ℕ} (k₁ k₂ : ℕ) :
    (k₁ : ℚ) / (L : ℚ) + (k₂ : ℚ) / (L : ℚ) = ((k₁ + k₂ : ℕ) : ℚ) / (L : ℚ) := by
  push_cast
  rw [div_add_div_same]

theorem div_L_lt {L : ℕ} (hL : 0 < L) {k₁ k₂ : ℕ} :
    (k₁ : ℚ) / (L : ℚ) < (k₂ : ℚ) / (L : ℚ) ↔ k₁ < k₂ := by
  have hL' : (0 : ℚ) < (L : ℚ) := by exact_mod_cast hL
  rw [div_lt_div_iff_of_pos_right hL']
  exact_mod_cast Iff.rfl

theorem div_L_nonneg (L k : ℕ) : (0 : ℚ) ≤ (k : ℚ) / (L : ℚ) := by positivity

theorem le_foldr_max {a : ℕ} : ∀ {l : List ℕ} (b : ℕ), a ∈ l → a ≤ l.foldr max b
  | [], _, h => absurd h (List.not_mem_nil a)
  | x :: xs, b, h => by
    rcases List.mem_cons.mp h with rfl | h1
    · exact Nat.le_max_left _ _
    · exact le_trans (le_foldr_max b h1) (Nat.le_max_right _ _)

theorem nuL_cost_le_gridMc {W H : Int} {cost : Point → ℚ} {p : Point}
    (h : inBounds W H p) :
    nuL (gridL W H cost) (cost p) ≤ gridMc W H cost :=
  le_foldr_max 0 (List.mem_map_of_mem _ (mem_gridPoints.mpr h))

theorem length_le_of_nodup_subset {α : Type} [DecidableEq α] {l l' : List α}
    (hn : l.Nodup) (hs : ∀ a ∈ l, a ∈ l') : l.length ≤ l'.length := by
  calc l.length = l.toFinset.card := (List.toFinset_card_of_nodup hn).symm
    _ ≤ l'.toFinset.card := Finset.card_le_card fun a ha =>
        List.mem_toFinset.mpr (hs a (List.mem_toFinset.mp ha))
    _ ≤ l'.length := l'.toFinset_card_le

/-- Exact membership in an updated association list with duplicate-free
keys. -/
theorem mem_aset_nodup {β : Type} {l : List (Point × β)} {k : Point} {x : β}
    (hn : (l.map Prod.fst).Nodup) (pr : Point × β) :
    pr ∈ aset k x l ↔ pr = (k, x) ∨ (pr ∈ l ∧ pr.1 ≠ k) := by
  cases h : alookup k l with
  | none =>
    rw [aset_of_alookup_none h]
    constructor
    · intro h1
      rcases List.mem_append.mp h1 with h2 | h2
      · refine Or.inr ⟨h2, fun he => ?_⟩
        have h3 : (alookup k l).isSome := by
          rw [alookup_isSome_iff]
          exact he ▸ List.mem_map_of_mem _ h2
        rw [h] at h3
        cases h3
      · rcases List.mem_cons.mp h2 with h3 | h3
        · exact Or.inl h3
        · cases h3
    · rintro (rfl | ⟨h1, _⟩)
      · exact List.mem_append_right _ (List.mem_cons_self _ _)
      · exact List.mem_append_left _ h1
  | some cv =>
    obtain ⟨l₁, l₂, he, ha, hk1⟩ := aset_split h x
    have hk2 : k ∉ l₂.map Prod.fst := by
      rw [he, List.map_append, List.map_cons] at hn
      have := List.Nodup.of_append_right hn
      rw [List.nodup_cons] at this
      exact this.1
    rw [ha, he]
    simp only [List.mem_append, List.mem_cons]
    constructor
    · rintro (h1 | h1 | h1)
      · refine Or.inr ⟨Or.inl h1, fun hke => hk1 (hke ▸ List.mem_map_of_mem _ h1)⟩
      · exact Or.inl h1
      · exact Or.inr ⟨Or.inr (Or.inr h1), fun hke => hk2 (hke ▸ List.mem_map_of_mem _ h1)⟩
    · rintro (rfl | ⟨h1 | h1 | h1, h2⟩)
      · exact Or.inr (Or.inl rfl)
      · exact Or.inl h1
      · exact absurd (congrArg Prod.fst h1) h2
      · exact Or.inr (Or.inr h1)

/-- The key list after an update: unchanged for a present key, extended for
an absent one. -/
theorem map_fst_aset_some {β : Type} {l : List (Point × β)} {k : Point} {cv : β}
    (h : alookup k l = some cv) (x : β) :
    (aset k x l).map Prod.fst = l.map Prod.fst := by
  obtain ⟨l₁, l₂, he, ha, _⟩ := aset_split h x
  rw [ha, he]
  simp

theorem map_fst_aset_none {β : Type} {l : List (Point × β)} {k : Point}
    (h : alookup k l = none) (x : β) :
    (aset k x l).map Prod.fst = l.map Prod.fst ++ [k] := by
  rw [aset_of_alookup_none h]
  simp

/-- Sum accounting for an update of a present key. -/
theorem sum_nuL_aset_some {L : ℕ} {l : List (Point × ℚ)} {k : Point} {cv : ℚ}
    (h : alookup k l = some cv) (x : ℚ) :
    ∃ r : ℕ, ((l.map fun pr => nuL L pr.2).sum = r + nuL L cv ∧
      (((aset k x l).map fun pr => nuL L pr.2).sum = r + nuL L x)) := by
  obtain ⟨l₁, l₂, he, ha, _⟩ := aset_split h x
  refine ⟨((l₁.map fun pr => nuL L pr.2).sum + (l₂.map fun pr => nuL L pr.2).sum), ?_, ?_⟩
  · rw [he]
    simp only [List.map_append, List.map_cons, List.sum_append, List.sum_cons]
    omega
  · rw [ha]
    simp only [List.map_append, List.map_cons, List.sum_append, List.sum_cons]
    omega

theorem sum_nuL_aset_none {L : ℕ} {l : List (Point × ℚ)} {k : Point}
    (h : alookup k l = none) (x : ℚ) :
    ((aset k x l).map fun pr => nuL L pr.2).sum =
      (l.map fun pr => nuL L pr.2).sum + nuL L x := by
  rw [aset_of_alookup_none h]
  simp

/-- Reachability along the precomputed adjacency lists (a missing list has no
outgoing edges). -/
def ReachA (W H : Int) (s k : Point) : Prop :=
  Relation.ReflTransGen (fun a b => b ∈ (adjacencies W H a).getD []) s k

/-- A chain following `origin` pointers: `OChain o a l c` holds when the
pointers lead from `a` to `c` and `l` lists the visited keys (including `a`,
excluding `c`). -/
inductive OChain (o : List (Point × Option Point)) : Point → List Point → Point → Prop
  | nil : ∀ k, OChain o k [] k
  | step : ∀ a b l c, alookup a o = some (some b) → OChain o b l c →
      OChain o a (a :: l) c

/-- The `origin` record is acyclic: no nonempty pointer cycle. -/
def OAcyc (o : List (Point × Option Point)) : Prop :=
  ∀ k l, OChain o k l k → l = []

theorem OChain.ochainCompose {o : List (Point × Option Point)} {a b c : Point}
    {l₁ l₂ : List Point} (h₁ : OChain o a l₁ b) (h₂ : OChain o b l₂ c) :
    OChain o a (l₁ ++ l₂) c := by
  induction h₁ with
  | nil => exact h₂
  | step x y l d hx _ ih => exact OChain.step x y _ c hx (ih h₂)

theorem ochain_mem_sources {o : List (Point × Option Point)} {a c : Point}
    {l : List Point} (h : OChain o a l c) :
    ∀ x ∈ l, (alookup x o).isSome := by
  induction h with
  | nil => intro x hx; cases hx
  | step x y l' d hx _ ih =>
    intro z hz
    rcases List.mem_cons.mp hz with rfl | hz
    · rw [hx]; rfl
    · exact ih z hz

/-- Chains whose keys avoid `k` are unaffected by an update at `k`. -/
theorem ochain_of_aset_avoid {o : List (Point × Option Point)} {k : Point}
    {e : Option Point} {a c : Point} {l : List Point}
    (h : OChain (aset k e o) a l c) (hk : k ∉ l) : OChain o a l c := by
  induction h with
  | nil => exact OChain.nil _
  | step x y l' d hx h' ih =>
    have hxk : x ≠ k := fun he => hk (he ▸ List.mem_cons_self _ _)
    refine OChain.step x y l' d ?_ (ih fun hm => hk (List.mem_cons_of_mem _ hm))
    rw [alookup_aset_ne _ _ (fun he => hxk he.symm)] at hx
    exact hx

theorem ochain_of_avoid_aset {o : List (Point × Option Point)} {k : Point}
    {e : Option Point} {a c : Point} {l : List Point}
    (h : OChain o a l c) (hk : k ∉ l) : OChain (aset k e o) a l c := by
  induction h with
  | nil => exact OChain.nil _
  | step x y l' d hx h' ih =>
    have hxk : x ≠ k := fun he => hk (he ▸ List.mem_cons_self _ _)
    refine OChain.step x y l' d ?_ (ih fun hm => hk (List.mem_cons_of_mem _ hm))
    rw [alookup_aset_ne _ _ (fun he => hxk he.symm)]
    exact hx

/-- Split a chain at the first occurrence of `v`. -/
theorem ochain_split {o : List (Point × Option Point)} {a c v : Point}
    {l : List Point} (h : OChain o a l c) (hv : v ∈ l) :
    ∃ l₁ l₂, l = l₁ ++ l₂ ∧ OChain o a l₁ v ∧ OChain o v l₂ c ∧ v ∉ l₁ := by
  induction h with
  | nil => cases hv
  | step x y l' d hx h' ih =>
    by_cases hxv : x = v
    · subst hxv
      exact ⟨[], x :: l', rfl, OChain.nil x, OChain.step x y l' d hx h', by simp⟩
    · have hv' : v ∈ l' := by
        rcases List.mem_cons.mp hv with h1 | h1
        · exact absurd h1.symm hxv
        · exact h1
      obtain ⟨l₁, l₂, he, hc1, hc2, hnm⟩ := ih hv'
      refine ⟨x :: l₁, l₂, by rw [he]; rfl, OChain.step x y l₁ v hx hc1, hc2, ?_⟩
      intro hm
      rcases List.mem_cons.mp hm with h1 | h1
      · exact hxv h1.symm
      · exact hnm h1

/-- A nonempty chain into `c` ends with a stored pointer to `c`. -/
theorem ochain_last_edge {o : List (Point × Option Point)} {a c : Point}
    {l : List Point} (h : OChain o a l c) (hne : l ≠ []) :
    ∃ x, alookup x o = some (some c) := by
  induction h with
  | nil => exact absurd rfl hne
  | step x y l' d hx h' ih =>
    cases h' with
    | nil => exact ⟨x, hx⟩
    | step x' y' l'' d' hx' h'' => exact ih (by simp)

/-- Costs weakly decrease along `origin` chains. -/
theorem ochain_cost_le {W H : Int} {cost : Point → ℚ}
    {o : List (Point × Option Point)} {costs : List (Point × ℚ)}
    (hc : ∀ p, inBounds W H p → 0 ≤ cost p)
    (hoEdge : ∀ pr ∈ o, ∀ u, pr.2 = some u →
      pr.1 ∈ (adjacencies W H u).getD [] ∧
      ∃ cu cv, alookup u costs = some cu ∧ alookup pr.1 costs = some cv ∧
        cu + cost pr.1 ≤ cv)
    (hinB : ∀ pr ∈ costs, inBounds W H pr.1 ∧ (pr.1.x + pr.1.y) % 2 = 0)
    {a c : Point} {l : List Point} (h : OChain o a l c) :
    ∀ ca cc, alookup a costs = some ca → alookup c costs = some cc → cc ≤ ca := by
  induction h with
  | nil =>
    intro ca cc h1 h2
    rw [h1] at h2
    cases h2
    exact le_refl _
  | step x y l' d hx h' ih =>
    intro ca cc h1 h2
    obtain ⟨_, cu, cv, hcu, hcv, hle⟩ := hoEdge _ (alookup_mem hx) y rfl
    rw [h1] at hcv
    cases hcv
    have hx0 : 0 ≤ cost x :=
      hc x (hinB _ (alookup_mem h1)).1
    have h3 : cc ≤ cu := ih cu cc hcu h2
    linarith

/-- The search-state invariant of `find`'s main loop, over the frontier
queue and the `costs` and `origin` records. -/
structure AInv (W H : Int) (cost : Point → ℚ) (start endP : Point)
    (frontier : PQueue Point QSqrt2) (costs : List (Point × ℚ))
    (origin : List (Point × Option Point)) : Prop where
  ndK : (costs.map Prod.fst).Nodup
  keysO : origin.map Prod.fst = costs.map Prod.fst
  inB : ∀ pr ∈ costs, inBounds W H pr.1 ∧ (pr.1.x + pr.1.y) % 2 = 0
  cNN : ∀ pr ∈ costs, 0 ≤ pr.2
  qK : ∀ pr ∈ frontier.queue, (alookup pr.1 costs).isSome
  startC : alookup start costs = some 0
  startO : alookup start origin = some none
  oNull : ∀ pr ∈ origin, pr.2 = none → pr.1 = start
  oEdge : ∀ pr ∈ origin, ∀ u, pr.2 = some u →
    pr.1 ∈ (adjacencies W H u).getD [] ∧
    ∃ cu cv, alookup u costs = some cu ∧ alookup pr.1 costs = some cv ∧
      cu + cost pr.1 ≤ cv
  endQ : (alookup endP costs).isSome → ∃ pr ∈ frontier.queue, pr.1 = endP
  closedQ : ∀ pr ∈ costs, (∃ e ∈ frontier.queue, e.1 = pr.1) ∨
    ∀ w ∈ (adjacencies W H pr.1).getD [], (alookup w costs).isSome
  reach : ∀ pr ∈ costs, ReachA W H start pr.1
  vals : ∀ pr ∈ costs, ∃ k : ℕ, pr.2 = (k : ℚ) / (gridL W H cost : ℚ) ∧
    k ≤ costs.length * gridMc W H cost
  acyc : OAcyc origin

/-- The termination potential of the search loop. -/
def phiS (W H : Int) (cost : Point → ℚ) (frontier : PQueue Point QSqrt2)
    (costs : List (Point × ℚ)) : ℕ :=
  frontier.length + (costs.map fun pr => nuL (gridL W H cost) pr.2).sum +
    (gridN W H - costs.length) * (gridN W H * gridMc W H cost + 2)
theorem alookup_aset_isSome {β : Type} {l : List (Point × β)} {k v : Point} {x : β}
    (h : (alookup k l).isSome) : (alookup k (aset v x l)).isSome := by
  by_cases hk : v = k
  · subst hk
    rw [alookup_aset_self]
    rfl
  · rw [alookup_aset_ne _ _ hk]
    exact h

theorem PQueue.self_mem_insert {α P : Type} (gtB : P → P → Bool) (s : PQueue α P)
    (a : α) (p : P) : (a, p) ∈ (s.insert gtB a p).queue := by
  unfold PQueue.insert
  exact List.mem_append_right _ (List.mem_cons_self _ _)

theorem length_aset_some {β : Type} {l : List (Point × β)} {k : Point} {cv : β}
    (h : alookup k l = some cv) (x : β) : (aset k x l).length = l.length := by
  obtain ⟨l₁, l₂, he, ha, _⟩ := aset_split h x
  rw [ha, he]
  simp

theorem ochain_nil_eq {o : List (Point × Option Point)} {a c : Point}
    (h : OChain o a [] c) : a = c := by
  cases h
  rfl

/-- The invariant bundle threaded through one neighbor sweep (the dequeued
key `cur` is excused from the frontier-coverage disjunction while its
neighbors are being relaxed). -/
structure RInv (W H : Int) (cost : Point → ℚ) (start endP cur : Point)
    (frontier : PQueue Point QSqrt2) (costs : List (Point × ℚ))
    (origin : List (Point × Option Point)) : Prop where
  ndK : (costs.map Prod.fst).Nodup
  keysO : origin.map Prod.fst = costs.map Prod.fst
  inB : ∀ pr ∈ costs, inBounds W H pr.1 ∧ (pr.1.x + pr.1.y) % 2 = 0
  cNN : ∀ pr ∈ costs, 0 ≤ pr.2
  qK : ∀ pr ∈ frontier.queue, (alookup pr.1 costs).isSome
  startC : alookup start costs = some 0
  startO : alookup start origin = some none
  oNull : ∀ pr ∈ origin, pr.2 = none → pr.1 = start
  oEdge : ∀ pr ∈ origin, ∀ u, pr.2 = some u →
    pr.1 ∈ (adjacencies W H u).getD [] ∧
    ∃ cu cv, alookup u costs = some cu ∧ alookup pr.1 costs = some cv ∧
      cu + cost pr.1 ≤ cv
  endQ : (alookup endP costs).isSome → ∃ pr ∈ frontier.queue, pr.1 = endP
  closedQx : ∀ pr ∈ costs, pr.1 = cur ∨ (∃ e ∈ frontier.queue, e.1 = pr.1) ∨
    ∀ w ∈ (adjacencies W H pr.1).getD [], (alookup w costs).isSome
  reach : ∀ pr ∈ costs, ReachA W H start pr.1
  vals : ∀ pr ∈ costs, ∃ k : ℕ, pr.2 = (k : ℚ) / (gridL W H cost : ℚ) ∧
    k ≤ costs.length * gridMc W H cost
  acyc : OAcyc origin

/-- Redirecting `origin[v]` to the just-dequeued vertex keeps the record
acyclic: a new cycle would give an old pointer chain from `cur` back to `v`,
along which costs weakly decrease, contradicting the strict improvement that
triggered the update. -/
theorem oacyc_aset {W H : Int} {cost : Point → ℚ}
    {costs : List (Point × ℚ)} {origin : List (Point × Option Point)}
    (hc : ∀ p, inBounds W H p → 0 ≤ cost p)
    (hoEdge : ∀ pr ∈ origin, ∀ u, pr.2 = some u →
      pr.1 ∈ (adjacencies W H u).getD [] ∧
      ∃ cu cv, alookup u costs = some cu ∧ alookup pr.1 costs = some cv ∧
        cu + cost pr.1 ≤ cv)
    (hinB : ∀ pr ∈ costs, inBounds W H pr.1 ∧ (pr.1.x + pr.1.y) % 2 = 0)
    (hacyc : OAcyc origin) {v cur : Point} (hvne : v ≠ cur) {c : ℚ}
    (hcc : alookup cur costs = some c) (hcostv : 0 ≤ cost v)
    (hbad : ∀ cu, alookup v costs = some cu → c + cost v < cu) :
    OAcyc (aset v (some cur) origin) := by
  intro k l hchain
  by_cases hvl : v ∈ l
  · exfalso
    obtain ⟨l₁, l₂, heq, hc1, hc2, hvl₁⟩ := ochain_split hchain hvl
    cases hc2 with
    | nil =>
      rw [heq, List.append_nil] at hvl
      exact hvl₁ hvl
    | step a b l₂' c' hx hrest =>
      have hb : b = cur := by
        rw [alookup_aset_self] at hx
        cases hx
        rfl
      rw [hb] at hrest
      have hcomp : OChain (aset v (some cur) origin) cur (l₂' ++ l₁) v :=
        OChain.ochainCompose hrest hc1
      have hfree : ∃ m, OChain origin cur m v := by
        by_cases hvm : v ∈ l₂' ++ l₁
        · obtain ⟨m₁, m₂, hme, hm1, hm2, hvm₁⟩ := ochain_split hcomp hvm
          exact ⟨m₁, ochain_of_aset_avoid hm1 hvm₁⟩
        · exact ⟨l₂' ++ l₁, ochain_of_aset_avoid hcomp hvm⟩
      obtain ⟨m, hm⟩ := hfree
      by_cases hm0 : m = []
      · subst hm0
        exact hvne (ochain_nil_eq hm).symm
      · obtain ⟨x, hxe⟩ := ochain_last_edge hm hm0
        obtain ⟨_, cu, cvx, hcu, hcvx, _⟩ := hoEdge _ (alookup_mem hxe) v rfl
        have h1 : c + cost v < cu := hbad cu hcu
        have h2 : cu ≤ c := ochain_cost_le hc hoEdge hinB hm c cu hcc hcu
        linarith
  · exact hacyc k l (ochain_of_aset_avoid hchain hvl)

/-- One successful relaxation (`costs[v.key()] = newCost; frontier.insert(v,
prio); origin[v.key()] = current`) preserves the sweep invariant and does not
increase the termination potential. -/
theorem relaxUpdate_spec {W H : Int} {cost : Point → ℚ} {start endP cur : Point}
    (hc : ∀ p, inBounds W H p → 0 ≤ cost p)
    (hcurB : inBounds W H cur ∧ (cur.x + cur.y) % 2 = 0)
    {costs : List (Point × ℚ)} {origin : List (Point × Option Point)}
    {frontier : PQueue Point QSqrt2}
    (hinv : RInv W H cost start endP cur frontier costs origin)
    {v : Point} (hvv : v ∈ generateAdjacencies W H cur)
    {c : ℚ} (hcc : alookup cur costs = some c)
    (hupd : alookup v costs = none ∨ ∃ cv, alookup v costs = some cv ∧ c + cost v < cv)
    (prio : QSqrt2) :
    RInv W H cost start endP cur (frontier.insert qs2Gt v prio)
      (aset v (c + cost v) costs) (aset v (some cur) origin) ∧
    phiS W H cost (frontier.insert qs2Gt v prio) (aset v (c + cost v) costs) ≤
      phiS W H cost frontier costs := by
  obtain ⟨ndK, keysO, inB, cNN, qK, startC, startO, oNull, oEdge, endQ, closedQx,
    reach, vals, acyc⟩ := hinv
  have hvB : inBounds W H v := gen_inBounds hvv
  have hvP : (v.x + v.y) % 2 = 0 := by rw [gen_parity hvv]; exact hcurB.2
  have hvne : v ≠ cur := gen_ne hvv
  have hcv0 : 0 ≤ c := cNN _ (alookup_mem hcc)
  have hcostv : 0 ≤ cost v := hc v hvB
  have hnn : 0 ≤ c + cost v := by linarith
  have hL : 0 < gridL W H cost := gridL_pos W H cost
  obtain ⟨kc, hkc, hkcB⟩ := vals _ (alookup_mem hcc)
  dsimp only at hkc hkcB
  have hkv : cost v = (nuL (gridL W H cost) (cost v) : ℚ) / (gridL W H cost : ℚ) :=
    exists_nuL hL hcostv (den_dvd_gridL hvB)
  have hkvB : nuL (gridL W H cost) (cost v) ≤ gridMc W H cost := nuL_cost_le_gridMc hvB
  have hnewEq : c + cost v =
      ((kc + nuL (gridL W H cost) (cost v) : ℕ) : ℚ) / (gridL W H cost : ℚ) := by
    calc c + cost v
        = (kc : ℚ) / (gridL W H cost : ℚ) +
            (nuL (gridL W H cost) (cost v) : ℚ) / (gridL W H cost : ℚ) := by
          rw [← hkc, ← hkv]
      _ = ((kc + nuL (gridL W H cost) (cost v) : ℕ) : ℚ) / (gridL W H cost : ℚ) :=
          div_L_add _ _
  have hvstart : v ≠ start := by
    intro he
    subst he
    rcases hupd with h1 | ⟨cv, h1, h2⟩
    · rw [startC] at h1
      cases h1
    · rw [startC] at h1
      cases h1
      linarith
  have hODom : (alookup v origin).isSome = (alookup v costs).isSome := by
    by_cases hm : v ∈ costs.map Prod.fst
    · have h1 := (alookup_isSome_iff costs v).mpr hm
      have h2 := (alookup_isSome_iff origin v).mpr (keysO ▸ hm)
      rw [h1, h2]
    · have h1 : ¬ (alookup v costs).isSome = true := fun hs =>
        hm ((alookup_isSome_iff costs v).mp hs)
      have h2 : ¬ (alookup v origin).isSome = true := fun hs =>
        hm (keysO ▸ (alookup_isSome_iff origin v).mp hs)
      rw [Bool.not_eq_true] at h1 h2
      rw [h1, h2]
  have hacyc' : OAcyc (aset v (some cur) origin) := by
    refine oacyc_aset hc oEdge inB acyc hvne hcc hcostv ?_
    intro cu hcu
    rcases hupd with h1 | ⟨cv, h1, h2⟩
    · rw [h1] at hcu
      cases hcu
    · rw [h1] at hcu
      cases hcu
      exact h2
  have hqK' : ∀ pr ∈ (frontier.insert qs2Gt v prio).queue,
      (alookup pr.1 (aset v (c + cost v) costs)).isSome := by
    intro pr hpr
    rcases PQueue.mem_insert hpr with rfl | hpr'
    · rw [alookup_aset_self]
      rfl
    · exact alookup_aset_isSome (qK pr hpr')
  have hstartC' : alookup start (aset v (c + cost v) costs) = some 0 := by
    rw [alookup_aset_ne _ _ hvstart]
    exact startC
  have hstartO' : alookup start (aset v (some cur) origin) = some none := by
    rw [alookup_aset_ne _ _ hvstart]
    exact startO
  have hoNull' : ∀ pr ∈ aset v (some cur) origin, pr.2 = none → pr.1 = start := by
    intro pr hpr h2
    rcases mem_aset hpr with rfl | hpr'
    · cases h2
    · exact oNull pr hpr' h2
  have hinB' : ∀ pr ∈ aset v (c + cost v) costs,
      inBounds W H pr.1 ∧ (pr.1.x + pr.1.y) % 2 = 0 := by
    intro pr hpr
    rcases mem_aset hpr with rfl | hpr'
    · exact ⟨hvB, hvP⟩
    · exact inB pr hpr'
  have hcNN' : ∀ pr ∈ aset v (c + cost v) costs, 0 ≤ pr.2 := by
    intro pr hpr
    rcases mem_aset hpr with rfl | hpr'
    · exact hnn
    · exact cNN pr hpr'
  have hreach' : ∀ pr ∈ aset v (c + cost v) costs, ReachA W H start pr.1 := by
    intro pr hpr
    rcases mem_aset hpr with rfl | hpr'
    · refine Relation.ReflTransGen.tail (reach _ (alookup_mem hcc)) ?_
      show v ∈ (adjacencies W H cur).getD []
      rw [adjacencies_eq hcurB.1 hcurB.2]
      exact hvv
    · exact reach pr hpr'
  have hendQ' : (alookup endP (aset v (c + cost v) costs)).isSome →
      ∃ pr ∈ (frontier.insert qs2Gt v prio).queue, pr.1 = endP := by
    intro hsome
    by_cases hev : endP = v
    · subst hev
      exact ⟨(endP, prio), PQueue.self_mem_insert _ _ _ _, rfl⟩
    · rw [alookup_aset_ne _ _ (fun he => hev he.symm)] at hsome
      obtain ⟨pr, hpr, hpre⟩ := endQ hsome
      exact ⟨pr, PQueue.mem_insert_of_mem hpr, hpre⟩
  have hclosedQx' : ∀ pr ∈ aset v (c + cost v) costs,
      pr.1 = cur ∨ (∃ e ∈ (frontier.insert qs2Gt v prio).queue, e.1 = pr.1) ∨
      ∀ w ∈ (adjacencies W H pr.1).getD [],
        (alookup w (aset v (c + cost v) costs)).isSome := by
    intro pr hpr
    rcases mem_aset hpr with rfl | hpr'
    · exact Or.inr (Or.inl ⟨(v, prio), PQueue.self_mem_insert _ _ _ _, rfl⟩)
    · rcases closedQx pr hpr' with h1 | h1 | h1
      · exact Or.inl h1
      · obtain ⟨e, he, hee⟩ := h1
        exact Or.inr (Or.inl ⟨e, PQueue.mem_insert_of_mem he, hee⟩)
      · exact Or.inr (Or.inr fun w hw => alookup_aset_isSome (h1 w hw))
  rcases hupd with h1 | ⟨cv, h1, hlt⟩
  · -- fresh key: the binding is appended
    have hvnk : v ∉ costs.map Prod.fst := by
      intro hm
      have h2 := (alookup_isSome_iff costs v).mpr hm
      rw [h1] at h2
      cases h2
    have horigNone : alookup v origin = none := by
      rw [h1] at hODom
      cases ho : alookup v origin with
      | none => rfl
      | some ov =>
        rw [ho] at hODom
        cases hODom
    have hkC : (aset v (c + cost v) costs).map Prod.fst = costs.map Prod.fst ++ [v] :=
      map_fst_aset_none h1 _
    have hkO : (aset v (some cur) origin).map Prod.fst = origin.map Prod.fst ++ [v] :=
      map_fst_aset_none horigNone _
    have hndK' : ((aset v (c + cost v) costs).map Prod.fst).Nodup := by
      rw [hkC]
      refine List.Nodup.append ndK (List.nodup_singleton v) ?_
      intro a ha hb
      rw [List.mem_singleton] at hb
      subst hb
      exact hvnk ha
    have hlen : (aset v (c + cost v) costs).length = costs.length + 1 := by
      rw [aset_of_alookup_none h1]
      simp
    have hlenB : costs.length + 1 ≤ gridN W H := by
      have h2 : ((aset v (c + cost v) costs).map Prod.fst).length ≤
          (gridPoints W H).length := by
        refine length_le_of_nodup_subset hndK' ?_
        intro a ha
        rw [hkC] at ha
        rcases List.mem_append.mp ha with h3 | h3
        · obtain ⟨pr, hpr, rfl⟩ := List.mem_map.mp h3
          exact mem_gridPoints.mpr (inB pr hpr).1
        · rw [List.mem_singleton] at h3
          subst h3
          exact mem_gridPoints.mpr hvB
      rw [List.length_map, hlen] at h2
      exact h2
    have hvals' : ∀ pr ∈ aset v (c + cost v) costs, ∃ k : ℕ,
        pr.2 = (k : ℚ) / (gridL W H cost : ℚ) ∧
        k ≤ (aset v (c + cost v) costs).length * gridMc W H cost := by
      intro pr hpr
      rw [hlen]
      rcases mem_aset hpr with rfl | hpr'
      · refine ⟨kc + nuL (gridL W H cost) (cost v), hnewEq, ?_⟩
        calc kc + nuL (gridL W H cost) (cost v)
            ≤ costs.length * gridMc W H cost + gridMc W H cost :=
              Nat.add_le_add hkcB hkvB
          _ = (costs.length + 1) * gridMc W H cost := by ring
      · obtain ⟨k, hk1, hk2⟩ := vals pr hpr'
        exact ⟨k, hk1, le_trans hk2 (Nat.mul_le_mul_right _ (Nat.le_succ _))⟩
    have hoEdge' : ∀ pr ∈ aset v (some cur) origin, ∀ u, pr.2 = some u →
        pr.1 ∈ (adjacencies W H u).getD [] ∧
        ∃ cu cv, alookup u (aset v (c + cost v) costs) = some cu ∧
          alookup pr.1 (aset v (c + cost v) costs) = some cv ∧
          cu + cost pr.1 ≤ cv := by
      intro pr hpr u hu
      rw [aset_of_alookup_none horigNone] at hpr
      rcases List.mem_append.mp hpr with hpr' | hpr'
      · obtain ⟨hadj, cu, cvv, hcu, hcvv, hle⟩ := oEdge pr hpr' u hu
        have hune : u ≠ v := by
          intro he
          rw [he, h1] at hcu
          cases hcu
        have hpne : pr.1 ≠ v := by
          intro he
          rw [he, h1] at hcvv
          cases hcvv
        refine ⟨hadj, cu, cvv, ?_, ?_, hle⟩
        · rw [alookup_aset_ne _ _ (fun he => hune he.symm)]
          exact hcu
        · rw [alookup_aset_ne _ _ (fun he => hpne he.symm)]
          exact hcvv
      · rw [List.mem_singleton] at hpr'
        subst hpr'
        cases hu
        constructor
        · rw [adjacencies_eq hcurB.1 hcurB.2]
          exact hvv
        · refine ⟨c, c + cost v, ?_, ?_, le_refl _⟩
          · rw [alookup_aset_ne _ _ hvne]
            exact hcc
          · rw [alookup_aset_self]
    refine ⟨⟨hndK', by rw [hkO, hkC, keysO], hinB', hcNN', hqK', hstartC', hstartO',
      hoNull', hoEdge', hendQ', hclosedQx', hreach', hvals', hacyc'⟩, ?_⟩
    unfold phiS
    rw [PQueue.length_insert, sum_nuL_aset_none h1, hlen, hnewEq,
      nuL_of_div hL]
    have hmul : (costs.length + 1) * gridMc W H cost ≤ gridN W H * gridMc W H cost :=
      Nat.mul_le_mul_right _ hlenB
    have hsub : gridN W H - costs.length =
        (gridN W H - (costs.length + 1)) + 1 := by omega
    rw [hsub, Nat.add_mul, one_mul]
    have hkcv : kc + nuL (gridL W H cost) (cost v) ≤ gridN W H * gridMc W H cost := by
      calc kc + nuL (gridL W H cost) (cost v)
          ≤ costs.length * gridMc W H cost + gridMc W H cost :=
            Nat.add_le_add hkcB hkvB
        _ = (costs.length + 1) * gridMc W H cost := by ring
        _ ≤ gridN W H * gridMc W H cost := hmul
    omega
  · -- strict improvement of a present key
    obtain ⟨kcv, hkcv, hkcvB⟩ := vals _ (alookup_mem h1)
    dsimp only at hkcv hkcvB
    have hvinO : (alookup v origin).isSome := by
      rw [hODom, h1]
      rfl
    obtain ⟨ov, hov⟩ := Option.isSome_iff_exists.mp hvinO
    have hkC : (aset v (c + cost v) costs).map Prod.fst = costs.map Prod.fst :=
      map_fst_aset_some h1 _
    have hkO : (aset v (some cur) origin).map Prod.fst = origin.map Prod.fst :=
      map_fst_aset_some hov _
    have hndK' : ((aset v (c + cost v) costs).map Prod.fst).Nodup := by
      rw [hkC]
      exact ndK
    have hlen : (aset v (c + cost v) costs).length = costs.length :=
      length_aset_some h1 _
    have hklt : kc + nuL (gridL W H cost) (cost v) < kcv := by
      refine (div_L_lt hL).mp ?_
      rw [← hnewEq, ← hkcv]
      exact hlt
    have hvals' : ∀ pr ∈ aset v (c + cost v) costs, ∃ k : ℕ,
        pr.2 = (k : ℚ) / (gridL W H cost : ℚ) ∧
        k ≤ (aset v (c + cost v) costs).length * gridMc W H cost := by
      intro pr hpr
      rw [hlen]
      rcases mem_aset hpr with rfl | hpr'
      · exact ⟨kc + nuL (gridL W H cost) (cost v), hnewEq,
          le_trans (Nat.le_of_lt hklt) hkcvB⟩
      · exact vals pr hpr'
    have hOnd : (origin.map Prod.fst).Nodup := by
      rw [keysO]
      exact ndK
    have hoEdge' : ∀ pr ∈ aset v (some cur) origin, ∀ u, pr.2 = some u →
        pr.1 ∈ (adjacencies W H u).getD [] ∧
        ∃ cu cv, alookup u (aset v (c + cost v) costs) = some cu ∧
          alookup pr.1 (aset v (c + cost v) costs) = some cv ∧
          cu + cost pr.1 ≤ cv := by
      intro pr hpr u hu
      rcases (mem_aset_nodup hOnd pr).mp hpr with rfl | ⟨hpr', hpne⟩
      · cases hu
        constructor
        · rw [adjacencies_eq hcurB.1 hcurB.2]
          exact hvv
        · refine ⟨c, c + cost v, ?_, ?_, le_refl _⟩
          · rw [alookup_aset_ne _ _ hvne]
            exact hcc
          · rw [alookup_aset_self]
      · obtain ⟨hadj, cu, cvv, hcu, hcvv, hle⟩ := oEdge pr hpr' u hu
        refine ⟨hadj, ?_⟩
        by_cases hue : u = v
        · subst hue
          rw [h1] at hcu
          cases hcu
          refine ⟨c + cost u, cvv, ?_, ?_, ?_⟩
          · rw [alookup_aset_self]
          · rw [alookup_aset_ne _ _ (fun he => hpne he.symm)]
            exact hcvv
          · linarith
        · refine ⟨cu, cvv, ?_, ?_, hle⟩
          · rw [alookup_aset_ne _ _ (fun he => hue he.symm)]
            exact hcu
          · rw [alookup_aset_ne _ _ (fun he => hpne he.symm)]
            exact hcvv
    refine ⟨⟨hndK', by rw [hkO, hkC, keysO], hinB', hcNN', hqK', hstartC', hstartO',
      hoNull', hoEdge', hendQ', hclosedQx', hreach', hvals', hacyc'⟩, ?_⟩
    unfold phiS
    obtain ⟨r, hr1, hr2⟩ := @sum_nuL_aset_some (gridL W H cost) costs v cv h1 (c + cost v)
    rw [PQueue.length_insert, hr1, hr2, hlen, hnewEq, nuL_of_div hL]
    have hnucv : nuL (gridL W H cost) cv = kcv := by
      rw [hkcv]
      exact nuL_of_div hL kcv
    rw [hnucv]
    omega

/-- The whole neighbor sweep of one dequeued vertex: no crash, the sweep
invariant is preserved, every swept neighbor ends with a cost entry, old
entries and queue members survive, fresh keys get queue entries, and the
potential does not increase. -/
theorem relaxNeighbors_spec {W H : Int} {cost : Point → ℚ} {start endP cur : Point}
    (hc : ∀ p, inBounds W H p → 0 ≤ cost p)
    (hcurB : inBounds W H cur ∧ (cur.x + cur.y) % 2 = 0) :
    ∀ (vs : List Point) (costs : List (Point × ℚ))
      (origin : List (Point × Option Point)) (frontier : PQueue Point QSqrt2),
      (∀ v ∈ vs, v ∈ generateAdjacencies W H cur) →
      (alookup cur costs).isSome →
      RInv W H cost start endP cur frontier costs origin →
      ∃ c' o' f',
        relaxNeighbors cost endP cur vs costs origin frontier = some (c', o', f') ∧
        RInv W H cost start endP cur f' c' o' ∧
        (∀ w ∈ vs, (alookup w c').isSome) ∧
        (∀ k, (alookup k costs).isSome → (alookup k c').isSome) ∧
        (∀ e ∈ frontier.queue, e ∈ f'.queue) ∧
        (∀ pr ∈ c', (alookup pr.1 costs).isSome ∨ ∃ e ∈ f'.queue, e.1 = pr.1) ∧
        phiS W H cost f' c' ≤ phiS W H cost frontier costs := by
  intro vs
  induction vs with
  | nil =>
    intro costs origin frontier hvs hcur hinv
    exact ⟨costs, origin, frontier, rfl, hinv,
      fun w hw => absurd hw (List.not_mem_nil w), fun k h => h, fun e he => he,
      fun pr hpr => Or.inl ((alookup_isSome_iff _ _).mpr (List.mem_map_of_mem _ hpr)),
      le_refl _⟩
  | cons v vs ih =>
    intro costs origin frontier hvs hcur hinv
    obtain ⟨c, hcc⟩ := Option.isSome_iff_exists.mp hcur
    have hvv : v ∈ generateAdjacencies W H cur := hvs v (List.mem_cons_self _ _)
    have hvstail : ∀ w ∈ vs, w ∈ generateAdjacencies W H cur :=
      fun w hw => hvs w (List.mem_cons_of_mem _ hw)
    have hvne : v ≠ cur := gen_ne hvv
    cases hvc : alookup v costs with
    | none =>
      have hstep : relaxNeighbors cost endP cur (v :: vs) costs origin frontier =
          relaxNeighbors cost endP cur vs (aset v (c + cost v) costs)
            (aset v (some cur) origin)
            (frontier.insert qs2Gt v
              ⟨c + cost v, ((manhattanDistance v endP : Int) : ℚ) / 2⟩) := by
        rw [relaxNeighbors, hcc]
        dsimp only
        rw [hvc]
        rfl
      obtain ⟨hinv1, hphi1⟩ := relaxUpdate_spec hc hcurB hinv hvv hcc (Or.inl hvc)
        ⟨c + cost v, ((manhattanDistance v endP : Int) : ℚ) / 2⟩
      obtain ⟨c', o', f', heq, hinv'', hcov, hmono, hsup, hfresh, hphi⟩ :=
        ih (aset v (c + cost v) costs) (aset v (some cur) origin)
          (frontier.insert qs2Gt v
            ⟨c + cost v, ((manhattanDistance v endP : Int) : ℚ) / 2⟩)
          hvstail (alookup_aset_isSome hcur) hinv1
      refine ⟨c', o', f', by rw [hstep]; exact heq, hinv'', ?_, ?_, ?_, ?_,
        le_trans hphi hphi1⟩
      · intro w hw
        rcases List.mem_cons.mp hw with rfl | hw'
        · refine hmono w ?_
          rw [alookup_aset_self]
          rfl
        · exact hcov w hw'
      · exact fun k h => hmono k (alookup_aset_isSome h)
      · exact fun e he => hsup e (PQueue.mem_insert_of_mem he)
      · intro pr hpr
        rcases hfresh pr hpr with h1 | h1
        · by_cases hpv : pr.1 = v
          · refine Or.inr ⟨(v, ⟨c + cost v, ((manhattanDistance v endP : Int) : ℚ) / 2⟩),
              hsup _ (PQueue.self_mem_insert _ _ _ _), hpv.symm⟩
          · rw [alookup_aset_ne _ _ (fun he => hpv he.symm)] at h1
            exact Or.inl h1
        · exact Or.inr h1
    | some cv =>
      by_cases hlt : c + cost v < cv
      · have hstep : relaxNeighbors cost endP cur (v :: vs) costs origin frontier =
            relaxNeighbors cost endP cur vs (aset v (c + cost v) costs)
              (aset v (some cur) origin)
              (frontier.insert qs2Gt v
                ⟨c + cost v, ((manhattanDistance v endP : Int) : ℚ) / 2⟩) := by
          rw [relaxNeighbors, hcc]
          dsimp only
          rw [hvc]
          dsimp only
          rw [decide_eq_true hlt]
          rfl
        obtain ⟨hinv1, hphi1⟩ := relaxUpdate_spec hc hcurB hinv hvv hcc
          (Or.inr ⟨cv, hvc, hlt⟩)
          ⟨c + cost v, ((manhattanDistance v endP : Int) : ℚ) / 2⟩
        obtain ⟨c', o', f', heq, hinv'', hcov, hmono, hsup, hfresh, hphi⟩ :=
          ih (aset v (c + cost v) costs) (aset v (some cur) origin)
            (frontier.insert qs2Gt v
              ⟨c + cost v, ((manhattanDistance v endP : Int) : ℚ) / 2⟩)
            hvstail (alookup_aset_isSome hcur) hinv1
        refine ⟨c', o', f', by rw [hstep]; exact heq, hinv'', ?_, ?_, ?_, ?_,
          le_trans hphi hphi1⟩
        · intro w hw
          rcases List.mem_cons.mp hw with rfl | hw'
          · refine hmono w ?_
            rw [alookup_aset_self]
            rfl
          · exact hcov w hw'
        · exact fun k h => hmono k (alookup_aset_isSome h)
        · exact fun e he => hsup e (PQueue.mem_insert_of_mem he)
        · intro pr hpr
          rcases hfresh pr hpr with h1 | h1
          · by_cases hpv : pr.1 = v
            · refine Or.inr ⟨(v, ⟨c + cost v, ((manhattanDistance v endP : Int) : ℚ) / 2⟩),
                hsup _ (PQueue.self_mem_insert _ _ _ _), hpv.symm⟩
            · rw [alookup_aset_ne _ _ (fun he => hpv he.symm)] at h1
              exact Or.inl h1
          · exact Or.inr h1
      · have hstep : relaxNeighbors cost endP cur (v :: vs) costs origin frontier =
            relaxNeighbors cost endP cur vs costs origin frontier := by
          rw [relaxNeighbors, hcc]
          dsimp only
          rw [hvc]
          dsimp only
          rw [decide_eq_false hlt]
          rfl
        obtain ⟨c', o', f', heq, hinv'', hcov, hmono, hsup, hfresh, hphi⟩ :=
          ih costs origin frontier hvstail hcur hinv
        refine ⟨c', o', f', by rw [hstep]; exact heq, hinv'', ?_, hmono, hsup, hfresh,
          hphi⟩
        intro w hw
        rcases List.mem_cons.mp hw with rfl | hw'
        · refine hmono w ?_
          rw [hvc]
          rfl
        · exact hcov w hw'

/-- The frontier-independent part of the invariant: everything the backtrace
needs at either exit of the search loop. -/
structure BTInv (W H : Int) (cost : Point → ℚ) (start : Point)
    (costs : List (Point × ℚ)) (origin : List (Point × Option Point)) : Prop where
  ndK : (costs.map Prod.fst).Nodup
  keysO : origin.map Prod.fst = costs.map Prod.fst
  inB : ∀ pr ∈ costs, inBounds W H pr.1 ∧ (pr.1.x + pr.1.y) % 2 = 0
  cNN : ∀ pr ∈ costs, 0 ≤ pr.2
  startC : alookup start costs = some 0
  startO : alookup start origin = some none
  oNull : ∀ pr ∈ origin, pr.2 = none → pr.1 = start
  oEdge : ∀ pr ∈ origin, ∀ u, pr.2 = some u →
    pr.1 ∈ (adjacencies W H u).getD [] ∧
    ∃ cu cv, alookup u costs = some cu ∧ alookup pr.1 costs = some cv ∧
      cu + cost pr.1 ≤ cv
  reach : ∀ pr ∈ costs, ReachA W H start pr.1
  acyc : OAcyc origin

theorem AInv.toBT {W H : Int} {cost : Point → ℚ} {start endP : Point}
    {frontier : PQueue Point QSqrt2} {costs : List (Point × ℚ)}
    {origin : List (Point × Option Point)}
    (h : AInv W H cost start endP frontier costs origin) :
    BTInv W H cost start costs origin :=
  ⟨h.ndK, h.keysO, h.inB, h.cNN, h.startC, h.startO, h.oNull, h.oEdge, h.reach, h.acyc⟩

/-- Popping a non-end entry turns the loop invariant into the sweep
invariant with the popped key excused. -/
theorem AInv.pop {W H : Int} {cost : Point → ℚ} {start endP cur : Point}
    {pq : QSqrt2} {rest : List (Point × QSqrt2)} {costs : List (Point × ℚ)}
    {origin : List (Point × Option Point)}
    (hinv : AInv W H cost start endP (PQueue.mk ((cur, pq) :: rest)) costs origin)
    (hne : cur ≠ endP) :
    RInv W H cost start endP cur (PQueue.mk rest) costs origin := by
  obtain ⟨ndK, keysO, inB, cNN, qK, startC, startO, oNull, oEdge, endQ, closedQ,
    reach, vals, acyc⟩ := hinv
  refine ⟨ndK, keysO, inB, cNN, ?_, startC, startO, oNull, oEdge, ?_, ?_, reach,
    vals, acyc⟩
  · exact fun pr hpr => qK pr (List.mem_cons_of_mem _ hpr)
  · intro hsome
    obtain ⟨pr, hpr, hpre⟩ := endQ hsome
    rcases List.mem_cons.mp hpr with rfl | hpr'
    · exact absurd hpre hne
    · exact ⟨pr, hpr', hpre⟩
  · intro pr hpr
    rcases closedQ pr hpr with ⟨e, he, hee⟩ | h1
    · rcases List.mem_cons.mp he with rfl | he'
      · exact Or.inl hee.symm
      · exact Or.inr (Or.inl ⟨e, he', hee⟩)
    · exact Or.inr (Or.inr h1)

/-- After sweeping all of the popped key's neighbors, the full loop
invariant holds again. -/
theorem AInv.ofSweep {W H : Int} {cost : Point → ℚ} {start endP cur : Point}
    {frontier : PQueue Point QSqrt2} {costs : List (Point × ℚ)}
    {origin : List (Point × Option Point)}
    (hinv : RInv W H cost start endP cur frontier costs origin)
    (hcurB : inBounds W H cur ∧ (cur.x + cur.y) % 2 = 0)
    (hcov : ∀ w ∈ generateAdjacencies W H cur, (alookup w costs).isSome) :
    AInv W H cost start endP frontier costs origin := by
  obtain ⟨ndK, keysO, inB, cNN, qK, startC, startO, oNull, oEdge, endQ, closedQx,
    reach, vals, acyc⟩ := hinv
  refine ⟨ndK, keysO, inB, cNN, qK, startC, startO, oNull, oEdge, endQ, ?_, reach,
    vals, acyc⟩
  intro pr hpr
  rcases closedQx pr hpr with h1 | h1 | h1
  · refine Or.inr ?_
    rw [h1, adjacencies_eq hcurB.1 hcurB.2]
    exact hcov
  · exact Or.inl h1
  · exact Or.inr h1

/-- Soundness and termination of the search loop: from an invariant state the
fuelled loop preserves the invariant, crashes never (the adjacency read and
the cost read always succeed), exits `reachedEnd` only with a cost entry for
the end, exits `exhausted` only with an empty frontier, and returns within
`phiS` iterations. -/
theorem findLoop_spec {W H : Int} {cost : Point → ℚ} {start endP : Point}
    (hc : ∀ p, inBounds W H p → 0 ≤ cost p) :
    ∀ (fuel : ℕ) (frontier : PQueue Point QSqrt2) (costs : List (Point × ℚ))
      (origin : List (Point × Option Point)),
      AInv W H cost start endP frontier costs origin →
      (∀ out, findLoop W H cost endP fuel ⟨frontier, costs, origin⟩ = some out →
        BTInv W H cost start out.2.costs out.2.origin ∧
        (out.1 = ExitReason.reachedEnd → (alookup endP out.2.costs).isSome) ∧
        (out.1 = ExitReason.exhausted → out.2.frontier.queue = [] ∧
          AInv W H cost start endP out.2.frontier out.2.costs out.2.origin)) ∧
      (phiS W H cost frontier costs < fuel →
        (findLoop W H cost endP fuel ⟨frontier, costs, origin⟩).isSome) := by
  intro fuel
  induction fuel with
  | zero =>
    intro frontier costs origin hinv
    constructor
    · intro out h
      cases h
    · intro h
      exact absurd h (Nat.not_lt_zero _)
  | succ fuel ih =>
    intro frontier costs origin hinv
    obtain ⟨q⟩ := frontier
    rw [findLoop]
    dsimp only
    by_cases hq0 : (PQueue.mk q).length = 0
    · rw [if_pos hq0]
      constructor
      · intro out h
        cases h
        refine ⟨hinv.toBT, ?_, ?_⟩
        · intro h'
          cases h'
        · intro _
          exact ⟨List.length_eq_zero.mp hq0, hinv⟩
      · intro _
        rfl
    · rw [if_neg hq0]
      cases q with
      | nil => exact absurd rfl hq0
      | cons e rest =>
        obtain ⟨cur, pq⟩ := e
        rw [show (PQueue.mk ((cur, pq) :: rest)).dequeue =
          (some (cur, pq), PQueue.mk rest) from rfl]
        dsimp only
        have hcur : (alookup cur costs).isSome :=
          hinv.qK (cur, pq) (List.mem_cons_self _ _)
        obtain ⟨c, hcc⟩ := Option.isSome_iff_exists.mp hcur
        have hcb : inBounds W H cur ∧ (cur.x + cur.y) % 2 = 0 :=
          hinv.inB _ (alookup_mem hcc)
        by_cases hce : cur = endP
        · rw [if_pos hce]
          constructor
          · intro out h
            cases h
            refine ⟨hinv.toBT, ?_, ?_⟩
            · intro _
              rw [← hce]
              exact hcur
            · intro h'
              cases h'
          · intro _
            rfl
        · rw [if_neg hce]
          rw [adjacencies_eq hcb.1 hcb.2]
          dsimp only
          obtain ⟨c', o', f', heq, hinv'', hcov, hmono, hsup, hfresh, hphi⟩ :=
            relaxNeighbors_spec hc hcb (generateAdjacencies W H cur) costs origin
              (PQueue.mk rest) (fun v hv => hv) hcur (hinv.pop hce)
          rw [heq]
          dsimp only
          have hainv' : AInv W H cost start endP f' c' o' :=
            AInv.ofSweep hinv'' hcb hcov
          obtain ⟨ihA, ihB⟩ := ih f' c' o' hainv'
          constructor
          · exact ihA
          · intro hphi2
            refine ihB ?_
            have h3 : phiS W H cost (PQueue.mk rest) costs + 1 =
                phiS W H cost (PQueue.mk ((cur, pq) :: rest)) costs := by
              unfold phiS PQueue.length
              dsimp only
              rw [List.length_cons]
              omega
            omega

/-- The maximal pointer walk the backtrace performs: from `v`, follow
`origin` until a null (or missing) pointer; `l` is the list of visited
vertices in visit order. -/
inductive BChain (o : List (Point × Option Point)) : Point → List Point → Prop
  | last : ∀ v, (alookup v o).getD none = none → BChain o v [v]
  | step : ∀ v u l, (alookup v o).getD none = some u → BChain o u l →
      BChain o v (v :: l)

theorem bchain_ne_nil {o : List (Point × Option Point)} {v : Point} {l : List Point}
    (h : BChain o v l) : l ≠ [] := by
  cases h <;> simp

theorem bchain_head {o : List (Point × Option Point)} {v : Point} {l : List Point}
    (h : BChain o v l) : ∃ l', l = v :: l' := by
  cases h with
  | last v h => exact ⟨[], rfl⟩
  | step v u l h h' => exact ⟨l, rfl⟩

theorem bchain_getLast {o : List (Point × Option Point)} {v : Point} {l : List Point}
    (h : BChain o v l) : ∃ z, l.getLast? = some z ∧ (alookup z o).getD none = none := by
  induction h with
  | last v h => exact ⟨v, rfl, h⟩
  | step v u l h h' ih =>
    obtain ⟨z, hz1, hz2⟩ := ih
    refine ⟨z, ?_, hz2⟩
    rw [List.getLast?_cons, hz1]
    cases l with
    | nil => cases hz1
    | cons a l' => rfl

theorem bchain_chain' {o : List (Point × Option Point)} {v : Point} {l : List Point}
    (h : BChain o v l) :
    List.Chain' (fun a b => (alookup a o).getD none = some b) l := by
  induction h with
  | last v h => exact List.chain'_singleton v
  | step v u l h h' ih =>
    rw [List.chain'_cons']
    refine ⟨?_, ih⟩
    intro y hy
    obtain ⟨l', rfl⟩ := bchain_head h'
    cases hy
    exact h

/-- Every element of the walk other than the first is a stored pointer
target. -/
theorem bchain_tail_targets {o : List (Point × Option Point)} {v : Point}
    {l : List Point} (h : BChain o v l) :
    ∀ x ∈ l, x = v ∨ ∃ w, (alookup w o).getD none = some x := by
  induction h with
  | last v h =>
    intro x hx
    rw [List.mem_singleton] at hx
    exact Or.inl hx
  | step v u l h h' ih =>
    intro x hx
    rcases List.mem_cons.mp hx with rfl | hx'
    · exact Or.inl rfl
    · rcases ih x hx' with rfl | hw
      · exact Or.inr ⟨v, h⟩
      · exact Or.inr hw

/-- Fuel sufficiency of the backtrace loop along an existing walk. -/
theorem backtraceF_of_bchain {o : List (Point × Option Point)} :
    ∀ {l : List Point} {v : Point}, BChain o v l → ∀ (fuel : ℕ) (acc : List Point),
      l.length < fuel → backtraceF o fuel (some v) acc = some (acc ++ l) := by
  intro l v h
  induction h with
  | last v h =>
    intro fuel acc hfuel
    match fuel, hfuel with
    | fuel + 2, _ =>
      rw [backtraceF, h, backtraceF]
  | step v u l h h' ih =>
    intro fuel acc hfuel
    match fuel, hfuel with
    | fuel + 1, hfuel =>
      rw [backtraceF, h, ih fuel (acc ++ [v]) (by simpa using Nat.lt_of_succ_lt_succ hfuel)]
      rw [List.append_assoc]
      rfl

/-- Existence of the maximal walk, with a length bound, from acyclicity. -/
theorem bchain_exists_go {o : List (Point × Option Point)} (hacyc : OAcyc o) :
    ∀ (n : ℕ) (v s₀ : Point) (seen : List Point),
      OChain o s₀ seen v →
      (((o.map Prod.fst).toFinset \ seen.toFinset).card ≤ n) →
      ∃ l, BChain o v l ∧ l.length ≤ n + 1 := by
  intro n
  induction n with
  | zero =>
    intro v s₀ seen hch hcard
    cases hvo : (alookup v o).getD none with
    | none => exact ⟨[v], BChain.last v hvo, le_refl _⟩
    | some u =>
      exfalso
      have hvsome : alookup v o = some (some u) := by
        cases h2 : alookup v o with
        | none => rw [h2] at hvo; cases hvo
        | some ov =>
          rw [h2] at hvo
          simp only [Option.getD_some] at hvo
          rw [hvo]
      have hvK : v ∈ (o.map Prod.fst).toFinset := by
        rw [List.mem_toFinset]
        have := (alookup_isSome_iff o v).mp (by rw [hvsome]; rfl)
        exact this
      have hvseen : v ∉ seen := by
        intro hmem
        obtain ⟨l₁, l₂, heq, hc1, hc2, hv1⟩ := ochain_split hch hmem
        cases hl2 : l₂ with
        | nil =>
          subst hl2
          have := ochain_nil_eq hc2
          rw [heq, List.append_nil] at hmem
          exact hv1 hmem
        | cons a l₂' =>
          subst hl2
          have := hacyc v (a :: l₂') hc2
          cases this
      have : v ∈ (o.map Prod.fst).toFinset \ seen.toFinset :=
        Finset.mem_sdiff.mpr ⟨hvK, fun h => hvseen (List.mem_toFinset.mp h)⟩
      have h1 : 0 < ((o.map Prod.fst).toFinset \ seen.toFinset).card :=
        Finset.card_pos.mpr ⟨v, this⟩
      omega
  | succ n ih =>
    intro v s₀ seen hch hcard
    cases hvo : (alookup v o).getD none with
    | none => exact ⟨[v], BChain.last v hvo, by simp⟩
    | some u =>
      have hvsome : alookup v o = some (some u) := by
        cases h2 : alookup v o with
        | none => rw [h2] at hvo; cases hvo
        | some ov =>
          rw [h2] at hvo
          simp only [Option.getD_some] at hvo
          rw [hvo]
      have hvK : v ∈ (o.map Prod.fst).toFinset := by
        rw [List.mem_toFinset]
        exact (alookup_isSome_iff o v).mp (by rw [hvsome]; rfl)
      have hvseen : v ∉ seen := by
        intro hmem
        obtain ⟨l₁, l₂, heq, hc1, hc2, hv1⟩ := ochain_split hch hmem
        cases hl2 : l₂ with
        | nil =>
          subst hl2
          rw [heq, List.append_nil] at hmem
          exact hv1 hmem
        | cons a l₂' =>
          subst hl2
          have := hacyc v (a :: l₂') hc2
          cases this
      have hch' : OChain o s₀ (seen ++ [v]) u :=
        OChain.ochainCompose hch (OChain.step v u [] u hvsome (OChain.nil u))
      have hcard' : (((o.map Prod.fst).toFinset \ (seen ++ [v]).toFinset).card ≤ n) := by
        have hset : (o.map Prod.fst).toFinset \ (seen ++ [v]).toFinset =
            ((o.map Prod.fst).toFinset \ seen.toFinset).erase v := by
          ext a
          simp only [Finset.mem_sdiff, List.mem_toFinset, List.mem_append,
            List.mem_singleton, Finset.mem_erase]
          tauto
        rw [hset]
        have hvmem : v ∈ (o.map Prod.fst).toFinset \ seen.toFinset :=
          Finset.mem_sdiff.mpr ⟨hvK, fun h => hvseen (List.mem_toFinset.mp h)⟩
        have := Finset.card_erase_of_mem hvmem
        omega
      obtain ⟨l, hl1, hl2⟩ := ih u s₀ (seen ++ [v]) hch' hcard'
      exact ⟨v :: l, BChain.step v u l hvo hl1, by simpa using Nat.succ_le_succ hl2⟩

theorem bchain_exists {o : List (Point × Option Point)} (hacyc : OAcyc o) (v : Point) :
    ∃ l, BChain o v l ∧ l.length ≤ o.length + 1 := by
  obtain ⟨l, hl1, hl2⟩ := bchain_exists_go hacyc (o.map Prod.fst).toFinset.card v v []
    (OChain.nil v) (by simp)
  refine ⟨l, hl1, le_trans hl2 ?_⟩
  have h1 : (o.map Prod.fst).toFinset.card ≤ (o.map Prod.fst).length :=
    (o.map Prod.fst).toFinset_card_le
  rw [List.length_map] at h1
  omega

theorem mem_adjacencies_getD {W H : Int} {b a : Point}
    (h : a ∈ (adjacencies W H b).getD []) :
    a ∈ generateAdjacencies W H b ∧ inBounds W H b ∧ (b.x + b.y) % 2 = 0 := by
  unfold adjacencies at h
  split at h
  · rename_i hcond
    exact ⟨h, hcond.1, hcond.2⟩
  · cases h

/-- The invariant holds at the seeded initial state of `find`. -/
theorem AInv_init {W H : Int} {cost : Point → ℚ} {start endP : Point}
    (hbs : inBounds W H start) (hps : (start.x + start.y) % 2 = 0) :
    AInv W H cost start endP ((PQueue.mk []).insert qs2Gt start ⟨0, 0⟩)
      [(start, 0)] [(start, none)] := by
  have hq : ((PQueue.mk []).insert qs2Gt start ⟨0, 0⟩).queue =
      [(start, (⟨0, 0⟩ : QSqrt2))] := rfl
  have hlook : ∀ (β : Type) (x : β), alookup start [(start, x)] = some x := by
    intro β x
    unfold alookup
    rw [if_pos rfl]
  refine ⟨by simp, rfl, ?_, ?_, ?_, hlook _ 0, hlook _ none, ?_, ?_, ?_, ?_, ?_, ?_, ?_⟩
  · intro pr hpr
    rw [List.mem_singleton] at hpr
    subst hpr
    exact ⟨hbs, hps⟩
  · intro pr hpr
    rw [List.mem_singleton] at hpr
    subst hpr
    exact le_refl 0
  · intro pr hpr
    rw [hq, List.mem_singleton] at hpr
    subst hpr
    rw [hlook _ (0 : ℚ)]
    rfl
  · intro pr hpr h2
    rw [List.mem_singleton] at hpr
    subst hpr
    rfl
  · intro pr hpr u hu
    rw [List.mem_singleton] at hpr
    subst hpr
    cases hu
  · intro hsome
    refine ⟨(start, ⟨0, 0⟩), by rw [hq]; exact List.mem_cons_self _ _, ?_⟩
    cases h2 : alookup endP [(start, (0 : ℚ))] with
    | none => rw [h2] at hsome; cases hsome
    | some c =>
      have h3 := alookup_mem h2
      rw [List.mem_singleton] at h3
      exact (congrArg Prod.fst h3).symm
  · intro pr hpr
    rw [List.mem_singleton] at hpr
    subst hpr
    exact Or.inl ⟨(start, ⟨0, 0⟩), by rw [hq]; exact List.mem_cons_self _ _, rfl⟩
  · intro pr hpr
    rw [List.mem_singleton] at hpr
    subst hpr
    exact Relation.ReflTransGen.refl
  · intro pr hpr
    rw [List.mem_singleton] at hpr
    subst hpr
    refine ⟨0, by simp, by simp⟩
  · intro k l h
    have hno : ∀ a b : Point, ¬ alookup a [(start, (none : Option Point))] = some (some b) := by
      intro a b hx
      unfold alookup at hx
      by_cases hsa : start = a
      · rw [if_pos hsa] at hx
        cases hx
      · rw [if_neg hsa] at hx
        cases hx
    cases h with
    | nil => rfl
    | step =>
      exfalso
      exact hno _ _ (by assumption)

/-- With an empty frontier the cost table is closed under adjacency, so it
contains every reachable vertex. -/
theorem reach_mem_costs {W H : Int} {cost : Point → ℚ} {start endP : Point}
    {frontier : PQueue Point QSqrt2} {costs : List (Point × ℚ)}
    {origin : List (Point × Option Point)}
    (hinv : AInv W H cost start endP frontier costs origin)
    (hq : frontier.queue = []) {k : Point} (hr : ReachA W H start k) :
    (alookup k costs).isSome := by
  induction hr with
  | refl =>
    rw [hinv.startC]
    rfl
  | tail h1 h2 ih =>
    obtain ⟨cb, hcb⟩ := Option.isSome_iff_exists.mp ih
    rcases hinv.closedQ _ (alookup_mem hcb) with ⟨e, he, _⟩ | hcl
    · rw [hq] at he
      cases he
    · exact hcl _ h2

/-- The backtraced walk consists of reverse diagonal steps, and every vertex
on it other than the first has a cost entry. -/
theorem bchain_path_facts {W H : Int} {cost : Point → ℚ} {start : Point}
    {costs : List (Point × ℚ)} {origin : List (Point × Option Point)}
    (bt : BTInv W H cost start costs origin) {v : Point} {l : List Point}
    (h : BChain origin v l) :
    List.Chain' (fun a b => diagStep b a) l ∧
    (∀ x ∈ l, x = v ∨ (alookup x costs).isSome) := by
  have hedge : ∀ a b : Point, (alookup a origin).getD none = some b →
      alookup a origin = some (some b) := by
    intro a b hab
    cases h2 : alookup a origin with
    | none => rw [h2] at hab; cases hab
    | some ov =>
      rw [h2] at hab
      simp only [Option.getD_some] at hab
      rw [hab]
  constructor
  · refine (bchain_chain' h).imp ?_
    intro a b hab
    obtain ⟨_, cu, cv, _, _, _⟩ := bt.oEdge _ (alookup_mem (hedge a b hab)) b rfl
    have h3 := (bt.oEdge _ (alookup_mem (hedge a b hab)) b rfl).1
    exact gen_diagStep (mem_adjacencies_getD h3).1
  · intro x hx
    rcases bchain_tail_targets h x hx with rfl | ⟨w, hw⟩
    · exact Or.inl rfl
    · obtain ⟨_, cu, cv, hcu, _, _⟩ := bt.oEdge _ (alookup_mem (hedge w x hw)) x rfl
      exact Or.inr (by rw [hcu]; rfl)

/-- Master case analysis for a completed `find`: a `reachedEnd` exit returns
a diagonal in-bounds path from `start` to `end`; an `exhausted` exit returns
exactly `[end]` (the end vertex never obtained a cost entry), and cannot
happen at all when the end is reachable from the start.  Moreover some fuel
completes the search. -/
theorem find_some_cases {W H : Int} {cost : Point → ℚ} {start endP : Point}
    (hc : ∀ p, inBounds W H p → 0 ≤ cost p)
    (hbs : inBounds W H start) (hbe : inBounds W H endP)
    (hps : (start.x + start.y) % 2 = 0) :
    (∀ fuel reason path, find W H cost start endP fuel = some (reason, path) →
      (reason = ExitReason.reachedEnd →
        path.head? = some start ∧ path.getLast? = some endP ∧
        List.Chain' diagStep path ∧ ∀ p ∈ path, inBounds W H p) ∧
      (reason = ExitReason.exhausted → path = [endP] ∧ ¬ ReachA W H start endP)) ∧
    (∃ fuel, (find W H cost start endP fuel).isSome) := by
  have hinit := @AInv_init W H cost start endP hbs hps
  constructor
  · intro fuel reason path h
    unfold find at h
    rw [if_pos ⟨hbs, hbe⟩] at h
    cases hloop : findLoop W H cost endP fuel
        ⟨(PQueue.mk []).insert qs2Gt start ⟨0, 0⟩, [(start, 0)], [(start, none)]⟩ with
    | none =>
      rw [hloop] at h
      cases h
    | some out =>
      rw [hloop] at h
      obtain ⟨r, s'⟩ := out
      dsimp only at h
      obtain ⟨hbt, hreached, hexh⟩ :=
        ((findLoop_spec hc fuel _ _ _ hinit).1 (r, s') hloop)
      dsimp only at hbt hreached hexh
      obtain ⟨l, hl, hlen⟩ := bchain_exists hbt.acyc endP
      have hbtr : backtraceF s'.origin (s'.origin.length + 2) (some endP) [] =
          some l := by
        have h2 := backtraceF_of_bchain hl (s'.origin.length + 2) [] (by omega)
        rw [h2]
        rfl
      rw [hbtr] at h
      dsimp only at h
      cases h
      constructor
      · intro hr
        subst hr
        have hendC : (alookup endP s'.costs).isSome := hreached rfl
        obtain ⟨hchain, hmem⟩ := bchain_path_facts hbt hl
        have hmemC : ∀ x ∈ l, (alookup x s'.costs).isSome := by
          intro x hx
          rcases hmem x hx with rfl | h2
          · exact hendC
          · exact h2
        refine ⟨?_, ?_, ?_, ?_⟩
        · -- head of the reversed path is the start
          rw [List.head?_reverse]
          obtain ⟨z, hz1, hz2⟩ := bchain_getLast hl
          have hzl : z ∈ l := by
            obtain ⟨hne, heq⟩ := List.mem_getLast?_eq_getLast (Option.mem_def.mpr hz1)
            rw [heq]
            exact List.getLast_mem hne
          have hzC : (alookup z s'.costs).isSome := hmemC z hzl
          have hzO : (alookup z s'.origin).isSome := by
            rw [alookup_isSome_iff, hbt.keysO, ← alookup_isSome_iff]
            exact hzC
          obtain ⟨oz, hoz⟩ := Option.isSome_iff_exists.mp hzO
          rw [hoz] at hz2
          simp only [Option.getD_some] at hz2
          subst hz2
          have hzs : z = start := hbt.oNull _ (alookup_mem hoz) rfl
          rw [hz1, hzs]
        · rw [List.getLast?_reverse]
          obtain ⟨l', rfl⟩ := bchain_head hl
          rfl
        · rw [List.chain'_reverse]
          refine hchain.imp ?_
          intro a b hab
          exact hab
        · intro p hp
          rw [List.mem_reverse] at hp
          rcases hmem p hp with rfl | h2
          · exact hbe
          · obtain ⟨cp, hcp⟩ := Option.isSome_iff_exists.mp h2
            exact (hbt.inB _ (alookup_mem hcp)).1
      · intro hr
        subst hr
        obtain ⟨hqe, hainv⟩ := hexh rfl
        have hendN : ¬ (alookup endP s'.costs).isSome := by
          intro hsome
          obtain ⟨e, he, _⟩ := hainv.endQ hsome
          rw [hqe] at he
          cases he
        have hendO : alookup endP s'.origin = none := by
          cases h2 : alookup endP s'.origin with
          | none => rfl
          | some oz =>
            exfalso
            refine hendN ?_
            rw [alookup_isSome_iff, ← hainv.keysO, ← alookup_isSome_iff, h2]
            rfl
        have hl1 : BChain s'.origin endP [endP] := by
          refine BChain.last endP ?_
          rw [hendO]
          rfl
        -- the walk is unique, so l = [endP]
        have hl2 : l = [endP] := by
          cases hl with
          | last _ _ => rfl
          | step _ u l' h2 h3 =>
            rw [hendO] at h2
            cases h2
        constructor
        · rw [hl2]
          rfl
        · intro hr2
          exact hendN (reach_mem_costs hainv hqe hr2)
  · obtain ⟨out, hout⟩ := Option.isSome_iff_exists.mp
      ((findLoop_spec hc (phiS W H cost ((PQueue.mk []).insert qs2Gt start ⟨0, 0⟩)
          [(start, 0)] + 1) _ _ _ hinit).2 (Nat.lt_succ_self _))
    refine ⟨phiS W H cost ((PQueue.mk []).insert qs2Gt start ⟨0, 0⟩) [(start, 0)] + 1, ?_⟩
    unfold find
    rw [if_pos ⟨hbs, hbe⟩, hout]
    obtain ⟨r, s'⟩ := out
    dsimp only
    obtain ⟨hbt, _, _⟩ :=
      ((findLoop_spec hc _ _ _ _ hinit).1 (r, s') hout)
    dsimp only at hbt
    obtain ⟨l, hl, hlen⟩ := bchain_exists hbt.acyc endP
    have hbtr : backtraceF s'.origin (s'.origin.length + 2) (some endP) [] =
        some l := by
      have h2 := backtraceF_of_bchain hl (s'.origin.length + 2) [] (by omega)
      rw [h2]
      rfl
    rw [hbtr]
    rfl

theorem reach_step {W H : Int} {a b : Point} (hab : inBounds W H a)
    (hpa : (a.x + a.y) % 2 = 0) (hb : b ∈ generateAdjacencies W H a) :
    b ∈ (adjacencies W H a).getD [] := by
  rw [adjacencies_eq hab hpa]
  exact hb

/-- On a grid at least 2 wide and 2 tall, every in-bounds cell of even
coordinate sum is connected (in both directions) to the origin cell. -/
theorem reach_origin_both {W H : Int} (hW : 2 ≤ W) (hH : 2 ≤ H) :
    ∀ (n : ℕ) (p : Point), (p.x + p.y).toNat ≤ n → inBounds W H p →
      (p.x + p.y) % 2 = 0 →
      ReachA W H ⟨0, 0⟩ p ∧ ReachA W H p ⟨0, 0⟩ := by
  intro n
  induction n with
  | zero =>
    intro p hn hb hp
    obtain ⟨h1, h2, h3, h4⟩ := hb
    have hpe : p = ⟨0, 0⟩ := by
      cases p with
      | mk px py =>
        have e1 : 0 ≤ px := h1
        have e2 : 0 ≤ py := h3
        have e3 : (px + py).toNat ≤ 0 := hn
        congr 1 <;> omega
    rw [hpe]
    exact ⟨Relation.ReflTransGen.refl, Relation.ReflTransGen.refl⟩
  | succ n ih =>
    intro p hn hb hp
    cases p with
    | mk px py =>
      obtain ⟨h1, h2, h3, h4⟩ := hb
      have e1 : 0 ≤ px := h1
      have e2 : px < W := h2
      have e3 : 0 ≤ py := h3
      have e4 : py < H := h4
      have e5 : ((px + py)).toNat ≤ n + 1 := hn
      have e6 : (px + py) % 2 = 0 := hp
      by_cases h0 : px = 0 ∧ py = 0
      · have hpe : (⟨px, py⟩ : Point) = ⟨0, 0⟩ := by
          congr 1 <;> omega
        rw [hpe]
        exact ⟨Relation.ReflTransGen.refl, Relation.ReflTransGen.refl⟩
      · by_cases hxy : 1 ≤ px ∧ 1 ≤ py
        · obtain ⟨hq1, hq2⟩ := ih ⟨px - 1, py - 1⟩ (by show (px - 1 + (py - 1)).toNat ≤ n; omega)
            ⟨by show (0 : Int) ≤ px - 1; omega, by show px - 1 < W; omega,
             by show (0 : Int) ≤ py - 1; omega, by show py - 1 < H; omega⟩
            (by show (px - 1 + (py - 1)) % 2 = 0; omega)
          have hqb : inBounds W H ⟨px - 1, py - 1⟩ :=
            ⟨by show (0 : Int) ≤ px - 1; omega, by show px - 1 < W; omega,
             by show (0 : Int) ≤ py - 1; omega, by show py - 1 < H; omega⟩
          have hqp : ((⟨px - 1, py - 1⟩ : Point).x + (⟨px - 1, py - 1⟩ : Point).y) % 2 = 0 := by
            show (px - 1 + (py - 1)) % 2 = 0
            omega
          have hup : (⟨px, py⟩ : Point) ∈ generateAdjacencies W H ⟨px - 1, py - 1⟩ :=
            mem_generateAdjacencies.mpr ⟨⟨h1, h2, h3, h4⟩,
              by show px = px - 1 + 1 ∨ px = px - 1 - 1; omega,
              by show py = py - 1 + 1 ∨ py = py - 1 - 1; omega⟩
          have hdown : (⟨px - 1, py - 1⟩ : Point) ∈ generateAdjacencies W H ⟨px, py⟩ :=
            mem_generateAdjacencies.mpr ⟨hqb,
              by show px - 1 = px + 1 ∨ px - 1 = px - 1; omega,
              by show py - 1 = py + 1 ∨ py - 1 = py - 1; omega⟩
          exact ⟨hq1.tail (reach_step hqb hqp hup),
            Relation.ReflTransGen.head (reach_step ⟨h1, h2, h3, h4⟩ e6 hdown) hq2⟩
        · by_cases hx0 : px = 0
          · -- first column: route through the cell one to the right
            have hy2 : 2 ≤ py := by omega
            obtain ⟨hq1, hq2⟩ := ih ⟨0, py - 2⟩ (by show ((0 : Int) + (py - 2)).toNat ≤ n; omega)
              ⟨by show (0 : Int) ≤ (0 : Int); omega, by show (0 : Int) < W; omega,
               by show (0 : Int) ≤ py - 2; omega, by show py - 2 < H; omega⟩
              (by show ((0 : Int) + (py - 2)) % 2 = 0; omega)
            have hmb : inBounds W H ⟨1, py - 1⟩ :=
              ⟨by show (0 : Int) ≤ 1; omega, by show (1 : Int) < W; omega,
               by show (0 : Int) ≤ py - 1; omega, by show py - 1 < H; omega⟩
            have hmp : ((⟨1, py - 1⟩ : Point).x + (⟨1, py - 1⟩ : Point).y) % 2 = 0 := by
              show ((1 : Int) + (py - 1)) % 2 = 0
              omega
            have hqb : inBounds W H ⟨0, py - 2⟩ :=
              ⟨by show (0 : Int) ≤ (0 : Int); omega, by show (0 : Int) < W; omega,
               by show (0 : Int) ≤ py - 2; omega, by show py - 2 < H; omega⟩
            have hqp : ((⟨0, py - 2⟩ : Point).x + (⟨0, py - 2⟩ : Point).y) % 2 = 0 := by
              show ((0 : Int) + (py - 2)) % 2 = 0
              omega
            have he1 : (⟨1, py - 1⟩ : Point) ∈ generateAdjacencies W H ⟨0, py - 2⟩ :=
              mem_generateAdjacencies.mpr ⟨hmb,
                by show (1 : Int) = 0 + 1 ∨ (1 : Int) = 0 - 1; omega,
                by show py - 1 = py - 2 + 1 ∨ py - 1 = py - 2 - 1; omega⟩
            have he2 : (⟨px, py⟩ : Point) ∈ generateAdjacencies W H ⟨1, py - 1⟩ :=
              mem_generateAdjacencies.mpr ⟨⟨h1, h2, h3, h4⟩,
                by show px = 1 + 1 ∨ px = 1 - 1; omega,
                by show py = py - 1 + 1 ∨ py = py - 1 - 1; omega⟩
            have he1' : (⟨1, py - 1⟩ : Point) ∈ generateAdjacencies W H ⟨px, py⟩ :=
              mem_generateAdjacencies.mpr ⟨hmb,
                by show (1 : Int) = px + 1 ∨ (1 : Int) = px - 1; omega,
                by show py - 1 = py + 1 ∨ py - 1 = py - 1; omega⟩
            have he2' : (⟨0, py - 2⟩ : Point) ∈ generateAdjacencies W H ⟨1, py - 1⟩ :=
              mem_generateAdjacencies.mpr ⟨hqb,
                by show (0 : Int) = 1 + 1 ∨ (0 : Int) = 1 - 1; omega,
                by show py - 2 = py - 1 + 1 ∨ py - 2 = py - 1 - 1; omega⟩
            refine ⟨(hq1.tail (reach_step hqb hqp he1)).tail (reach_step hmb hmp he2), ?_⟩
            exact Relation.ReflTransGen.head (reach_step ⟨h1, h2, h3, h4⟩ e6 he1')
              (Relation.ReflTransGen.head (reach_step hmb hmp he2') hq2)
          · -- first row: route through the cell one above
            have hx2 : 2 ≤ px := by omega
            have hy0 : py = 0 := by omega
            obtain ⟨hq1, hq2⟩ := ih ⟨px - 2, 0⟩ (by show ((px - 2) + (0 : Int)).toNat ≤ n; omega)
              ⟨by show (0 : Int) ≤ px - 2; omega, by show px - 2 < W; omega,
               by show (0 : Int) ≤ (0 : Int); omega, by show (0 : Int) < H; omega⟩
              (by show ((px - 2) + (0 : Int)) % 2 = 0; omega)
            have hmb : inBounds W H ⟨px - 1, 1⟩ :=
              ⟨by show (0 : Int) ≤ px - 1; omega, by show px - 1 < W; omega,
               by show (0 : Int) ≤ 1; omega, by show (1 : Int) < H; omega⟩
            have hmp : ((⟨px - 1, 1⟩ : Point).x + (⟨px - 1, 1⟩ : Point).y) % 2 = 0 := by
              show ((px - 1) + (1 : Int)) % 2 = 0
              omega
            have hqb : inBounds W H ⟨px - 2, 0⟩ :=
              ⟨by show (0 : Int) ≤ px - 2; omega, by show px - 2 < W; omega,
               by show (0 : Int) ≤ (0 : Int); omega, by show (0 : Int) < H; omega⟩
            have hqp : ((⟨px - 2, 0⟩ : Point).x + (⟨px - 2, 0⟩ : Point).y) % 2 = 0 := by
              show ((px - 2) + (0 : Int)) % 2 = 0
              omega
            have he1 : (⟨px - 1, 1⟩ : Point) ∈ generateAdjacencies W H ⟨px - 2, 0⟩ :=
              mem_generateAdjacencies.mpr ⟨hmb,
                by show px - 1 = px - 2 + 1 ∨ px - 1 = px - 2 - 1; omega,
                by show (1 : Int) = 0 + 1 ∨ (1 : Int) = 0 - 1; omega⟩
            have he2 : (⟨px, py⟩ : Point) ∈ generateAdjacencies W H ⟨px - 1, 1⟩ :=
              mem_generateAdjacencies.mpr ⟨⟨h1, h2, h3, h4⟩,
                by show px = px - 1 + 1 ∨ px = px - 1 - 1; omega,
                by show py = 1 + 1 ∨ py = 1 - 1; omega⟩
            have he1' : (⟨px - 1, 1⟩ : Point) ∈ generateAdjacencies W H ⟨px, py⟩ :=
              mem_generateAdjacencies.mpr ⟨hmb,
                by show px - 1 = px + 1 ∨ px - 1 = px - 1; omega,
                by show (1 : Int) = py + 1 ∨ (1 : Int) = py - 1; omega⟩
            have he2' : (⟨px - 2, 0⟩ : Point) ∈ generateAdjacencies W H ⟨px - 1, 1⟩ :=
              mem_generateAdjacencies.mpr ⟨hqb,
                by show px - 2 = px - 1 + 1 ∨ px - 2 = px - 1 - 1; omega,
                by show (0 : Int) = 1 + 1 ∨ (0 : Int) = 1 - 1; omega⟩
            refine ⟨(hq1.tail (reach_step hqb hqp he1)).tail (reach_step hmb hmp he2), ?_⟩
            exact Relation.ReflTransGen.head (reach_step ⟨h1, h2, h3, h4⟩ e6 he1')
              (Relation.ReflTransGen.head (reach_step hmb hmp he2') hq2)

/-- Any two in-bounds cells of even coordinate sum are connected on a grid
at least 2 wide and 2 tall. -/
theorem reachA_of_parity {W H : Int} (hW : 2 ≤ W) (hH : 2 ≤ H) {p q : Point}
    (hbp : inBounds W H p) (hpp : (p.x + p.y) % 2 = 0)
    (hbq : inBounds W H q) (hpq : (q.x + q.y) % 2 = 0) : ReachA W H p q :=
  Relation.ReflTransGen.trans
    (reach_origin_both hW hH (p.x + p.y).toNat p (le_refl _) hbp hpp).2
    (reach_origin_both hW hH (q.x + q.y).toNat q (le_refl _) hbq hpq).1

/-- C2 (amended): on a grid at least 2×2, for in-bounds start and end cells
of even coordinate sum (the only cells with adjacency lists), every completed
`find` exits by popping the end vertex and returns a sequence that begins at
`start`, ends at `end`, takes only diagonal `(±1, ±1)` steps, and stays in
bounds; and some fuel completes the search.  (For odd coordinate sums the
claim fails: the adjacency read throws — see the counterexample.) -/
theorem C2_find_diagonal_path (W H : Int) (rand : ℕ → ℚ) (start endP : Point)
    (hrand : ∀ i, 0 ≤ rand i) (hW : 2 ≤ W) (hH : 2 ≤ H)
    (hbs : inBounds W H start) (hbe : inBounds W H endP)
    (hps : (start.x + start.y) % 2 = 0) (hpe : (endP.x + endP.y) % 2 = 0) :
    (∀ fuel reason path,
      find W H (vertexCost rand W H) start endP fuel = some (reason, path) →
      reason = ExitReason.reachedEnd ∧
      path.head? = some start ∧ path.getLast? = some endP ∧
      List.Chain' diagStep path ∧ ∀ p ∈ path, inBounds W H p) ∧
    ∃ fuel, (find W H (vertexCost rand W H) start endP fuel).isSome := by
  have hc : ∀ p, inBounds W H p → 0 ≤ vertexCost rand W H p := by
    intro p _
    unfold vertexCost
    have h1 := hrand (p.x * H + p.y).toNat
    have h2 : (0 : ℚ) ≤ (W : ℚ) + (H : ℚ) := by
      have h3 : (0 : ℚ) ≤ (W : ℚ) := by exact_mod_cast le_trans (by norm_num) hW
      have h4 : (0 : ℚ) ≤ (H : ℚ) := by exact_mod_cast le_trans (by norm_num) hH
      linarith
    positivity
  obtain ⟨hcases, hterm⟩ := find_some_cases hc hbs hbe hps
  refine ⟨?_, hterm⟩
  intro fuel reason path h
  obtain ⟨hre, hex⟩ := hcases fuel reason path h
  cases reason with
  | reachedEnd => exact ⟨rfl, hre rfl⟩
  | exhausted =>
    exact absurd (reachA_of_parity hW hH hbs hps hbe hpe) (hex rfl).2

/-- Witness for C2 on the 3×3 grid from `(0,0)` to `(2,2)` with all-zero
draws. -/
theorem C2_find_diagonal_path_witness :
    (∀ i : ℕ, (0 : ℚ) ≤ (fun _ : ℕ => (0 : ℚ)) i) ∧
    (2 : Int) ≤ 3 ∧ inBounds 3 3 ⟨0, 0⟩ ∧ inBounds 3 3 ⟨2, 2⟩ ∧
    ((⟨0, 0⟩ : Point).x + (⟨0, 0⟩ : Point).y) % 2 = 0 ∧
    ((⟨2, 2⟩ : Point).x + (⟨2, 2⟩ : Point).y) % 2 = 0 ∧
    ∃ fuel, (find 3 3 (vertexCost (fun _ => 0) 3 3) ⟨0, 0⟩ ⟨2, 2⟩ fuel).isSome :=
  ⟨fun _ => le_refl 0, by norm_num, by decide, by decide, by decide, by decide,
    (C2_find_diagonal_path 3 3 (fun _ => 0) ⟨0, 0⟩ ⟨2, 2⟩ (fun _ => le_refl 0)
      (by norm_num) (by norm_num) (by decide) (by decide) (by decide) (by decide)).2⟩

/-- Counterexample to C2 as stated: `(1,0)` and `(0,1)` are in the 3×3
bounds and share coordinate-sum parity (both odd), but the search crashes on
its first pop — `adjacencies["1,0"]` was never populated, so the `for`-of
throws — instead of returning a path. -/
theorem C2_odd_parity_counterexample :
    ((⟨1, 0⟩ : Point).x + (⟨1, 0⟩ : Point).y) % 2 =
      ((⟨0, 1⟩ : Point).x + (⟨0, 1⟩ : Point).y) % 2 ∧
    inBounds 3 3 ⟨1, 0⟩ ∧ inBounds 3 3 ⟨0, 1⟩ ∧
    find 3 3 (vertexCost (fun _ => 0) 3 3) ⟨1, 0⟩ ⟨0, 1⟩ 1000 = none :=
  ⟨by decide, by decide, by decide, by decide⟩

/-- C3 (amended): when the frontier empties before the end vertex is popped,
`find` returns exactly `[end]` — the end vertex never received a cost entry,
so the backtrace stops immediately — and the end is then unreachable from
the start.  The returned sequence *does* terminate at the requested end
coordinate; an incomplete result is distinguishable by its first element
differing from `start` (for `start ≠ end`), not by its last element. -/
theorem C3_exhausted_returns_end (W H : Int) (rand : ℕ → ℚ) (start endP : Point)
    (hrand : ∀ i, 0 ≤ rand i) (hWH : 0 ≤ W ∧ 0 ≤ H)
    (hbs : inBounds W H start) (hbe : inBounds W H endP)
    (hps : (start.x + start.y) % 2 = 0) :
    ∀ fuel path,
      find W H (vertexCost rand W H) start endP fuel =
        some (ExitReason.exhausted, path) →
      path = [endP] ∧ ¬ ReachA W H start endP ∧
      path.getLast? = some endP ∧
      (start ≠ endP → path.head? ≠ some start) := by
  have hc : ∀ p, inBounds W H p → 0 ≤ vertexCost rand W H p := by
    intro p _
    unfold vertexCost
    have h1 := hrand (p.x * H + p.y).toNat
    have h2 : (0 : ℚ) ≤ (W : ℚ) + (H : ℚ) := by
      have h3 : (0 : ℚ) ≤ (W : ℚ) := by exact_mod_cast hWH.1
      have h4 : (0 : ℚ) ≤ (H : ℚ) := by exact_mod_cast hWH.2
      linarith
    positivity
  intro fuel path h
  obtain ⟨hcases, _⟩ := find_some_cases hc hbs hbe hps
  obtain ⟨_, hex⟩ := hcases fuel ExitReason.exhausted path h
  obtain ⟨hpe, hnr⟩ := hex rfl
  subst hpe
  refine ⟨rfl, hnr, rfl, ?_⟩
  intro hne hh
  rw [show ([endP] : List Point).head? = some endP from rfl] at hh
  cases hh
  exact hne rfl

/-- Witness for C3 on the 1×3 grid, where `(0,2)` is unreachable from
`(0,0)` (no diagonal fits in one column). -/
theorem C3_exhausted_returns_end_witness :
    find 1 3 (vertexCost (fun _ => 0) 1 3) ⟨0, 0⟩ ⟨0, 2⟩ 1000 =
      some (ExitReason.exhausted, [⟨0, 2⟩]) ∧
    ([(⟨0, 2⟩ : Point)] = [⟨0, 2⟩] ∧ ¬ ReachA 1 3 ⟨0, 0⟩ ⟨0, 2⟩ ∧
      ([(⟨0, 2⟩ : Point)] : List Point).getLast? = some ⟨0, 2⟩ ∧
      ((⟨0, 0⟩ : Point) ≠ ⟨0, 2⟩ →
        ([(⟨0, 2⟩ : Point)] : List Point).head? ≠ some ⟨0, 0⟩)) :=
  ⟨by decide,
    C3_exhausted_returns_end 1 3 (fun _ => 0) ⟨0, 0⟩ ⟨0, 2⟩ (fun _ => le_refl 0)
      (by norm_num) (by decide) (by decide) (by decide) 1000 [⟨0, 2⟩] (by decide)⟩

/-- Counterexample to C3 as stated: on the 1×3 grid the frontier empties
before reaching `(0,2)`, and the returned sequence is `[(0,2)]` — it *does*
terminate at the requested end coordinate (and omits the last popped vertex
`(0,0)` entirely), so inspecting the result's final endpoint does not
distinguish this failure from a complete path. -/
theorem C3_exhausted_counterexample :
    find 1 3 (vertexCost (fun _ => 0) 1 3) ⟨0, 0⟩ ⟨0, 2⟩ 1000 =
      some (ExitReason.exhausted, [⟨0, 2⟩]) ∧
    ([(⟨0, 2⟩ : Point)] : List Point).getLast? = some ⟨0, 2⟩ ∧
    (⟨0, 0⟩ : Point) ∉ [(⟨0, 2⟩ : Point)] :=
  ⟨by decide, by decide, by decide⟩
